import Mathlib

/-!
Verification of the skip list of `src/dsaps/skip_list.cpp` and of the decimal string
arithmetic of `src/dsaps/big_int.cpp`: a shallow embedding of `SkipList<int>` with the
default comparator, of `rand_height` and `main`, and of `compareStrings`, `add`, `sub`,
`mul`, `div`, `mod`, `gcd`, `to_postfix`, `calc` and `evaluatePostfix`, with proofs
about them.

* Memory is an explicit heap: a list of cells addressed by their index. A cell is
  `some node` while the node is allocated and `none` once it has been deleted.
  `new` appends a cell, `delete` overwrites the cell with `none`.
* A pointer is an `Option Nat`: `none` is the null pointer, `some a` the address `a`.
* Every operation returns an `Option`. The result `none` stands for a memory fault
  (dereferencing null or a deleted node, indexing an array out of bounds, reading
  an `update` slot that was never written) or for a loop that ran out of fuel.
  The theorems show that neither happens in a reachable state.
* The loops that follow links get the number of heap cells as fuel; the loops over
  levels recurse on the number of iterations left.
* Elements are mathematical integers; the one place where the source computes
  with them (`closest_element`) wraps to 32 bits explicitly.
* The counter of a node is not wrapped. It never exceeds the number of calls made
  (`count_le_calls`), and `main` makes fewer than `2^31` calls.
* The value returned by `rand_height()` is a parameter of `insert`; `insert_rand`
  is the same member with the call of `rand_height()` in place, over a sequence of
  coin flips that stands for the comparisons `rand() / float(RAND_MAX) < PROB`.
* A `string` of `big_int.cpp` is the list of its characters; the stacks of
  `to_postfix` and `evaluatePostfix` are lists, and `calc` is named `calcOp`.
-/

/-- The constant `MAX_HEIGHT` of the source. -/
def MAX_HEIGHT : Nat := 16

/-- The node of the source: value, duplicate counter and the array `next`, which has
`height + 1` entries. The counter is not wrapped: it grows by one per `insert` call. -/
structure Node where
  val : Int
  count : Int
  next : List (Option Nat)
deriving DecidableEq

/-- The heap: cell `a` holds the node allocated at address `a`, or `none` once deleted. -/
abbrev Heap := List (Option Node)

/-- The fields of `SkipList<int>`: the memory it owns and `curr_height`. The head
sentinel is the first node allocated, at address `0`. -/
structure SkipList where
  heap : Heap
  curr_height : Nat
deriving DecidableEq

namespace SkipList

/-- The address of the head sentinel. -/
def head : Nat := 0

/-- The default comparator `DefComp::comp`. -/
def comp (a b : Int) : Bool := decide (a < b)

/-- The member `equal`: neither argument is ordered before the other. -/
def equal (a b : Int) : Bool := !comp a b && !comp b a

/-- Dereference the address `a`. -/
def getNode (hp : Heap) (a : Nat) : Option Node := hp[a]?.join

/-- Read `a->next[i]`. -/
def readNext (hp : Heap) (a i : Nat) : Option (Option Nat) :=
  (getNode hp a).bind fun n => n.next[i]?

/-- Write `a->next[i] = p`. -/
def writeNext (hp : Heap) (a i : Nat) (p : Option Nat) : Option Heap :=
  match getNode hp a with
  | some n =>
    if i < n.next.length then some (hp.set a (some { n with next := n.next.set i p }))
    else none
  | none => none

/-- The array `update[MAX_HEIGHT + 1]` before any slot is written. -/
def updateInit : List (Option Nat) := List.replicate (MAX_HEIGHT + 1) none

/-- Write `update[i] = c`. -/
def setUpd (upd : List (Option Nat)) (i c : Nat) : Option (List (Option Nat)) :=
  if i < upd.length then some (upd.set i (some c)) else none

/-- Read `update[i]`; fails on a slot that was never written. -/
def getUpd (upd : List (Option Nat)) (i : Nat) : Option Nat := upd[i]?.join

/-- The inner loop `while (curr->next[i] && adv(curr->next[i]->val)) curr = curr->next[i];`
where `adv` is the comparator test of the calling operation. -/
def advance (adv : Int → Bool) (hp : Heap) (i : Nat) : Nat → Nat → Option Nat
  | 0, _ => none
  | fuel + 1, curr =>
    match readNext hp curr i with
    | none => none
    | some none => some curr
    | some (some a) =>
      match getNode hp a with
      | none => none
      | some n => if adv n.val then advance adv hp i fuel a else some curr

/-- The loop `for (int i = curr_height; i >= 0; i--)` of the queries; called with
`curr_height + 1` it runs the levels `curr_height, ..., 0`. -/
def search (adv : Int → Bool) (hp : Heap) : Nat → Nat → Option Nat
  | 0, curr => some curr
  | i + 1, curr =>
    match advance adv hp i hp.length curr with
    | none => none
    | some c => search adv hp i c

/-- The same loop in `insert` and `remove`, which also records `update[i] = curr`. -/
def descend (adv : Int → Bool) (hp : Heap) :
    Nat → Nat → List (Option Nat) → Option (Nat × List (Option Nat))
  | 0, curr, upd => some (curr, upd)
  | i + 1, curr, upd =>
    match advance adv hp i hp.length curr with
    | none => none
    | some c =>
      match setUpd upd i c with
      | none => none
      | some upd1 => descend adv hp i c upd1

/-- The loop `for (int i = curr_height + 1; i <= height; i++) update[i] = head;`,
as `n` iterations starting at level `i`. -/
def fillHead : List (Option Nat) → Nat → Nat → Option (List (Option Nat))
  | upd, _, 0 => some upd
  | upd, i, n + 1 =>
    match setUpd upd i head with
    | none => none
    | some upd1 => fillHead upd1 (i + 1) n

/-- The loop that links the new node, as `n` iterations starting at level `i`:
`new_node->next[i] = update[i]->next[i]; update[i]->next[i] = new_node;`. -/
def splice (upd : List (Option Nat)) (new_node : Nat) : Heap → Nat → Nat → Option Heap
  | hp, _, 0 => some hp
  | hp, i, n + 1 =>
    match getUpd upd i with
    | none => none
    | some u =>
      match readNext hp u i with
      | none => none
      | some p =>
        match writeNext hp new_node i p with
        | none => none
        | some hp1 =>
          match writeNext hp1 u i (some new_node) with
          | none => none
          | some hp2 => splice upd new_node hp2 (i + 1) n

/-- The constructor: the head sentinel of height `MAX_HEIGHT` with count `0`. -/
def empty : SkipList :=
  { heap := [some { val := 0, count := 0, next := List.replicate (MAX_HEIGHT + 1) none }],
    curr_height := 0 }

/-- The member `insert`; `height` is the value that `rand_height()` returns if it is called. -/
def insert (s : SkipList) (val : Int) (height : Nat) : Option SkipList :=
  match descend (fun x => comp x val) s.heap (s.curr_height + 1) head updateInit with
  | none => none
  | some (curr, update) =>
    match readNext s.heap curr 0 with
    | none => none
    | some nx =>
      let fresh : Option SkipList :=
        match (if height > s.curr_height
                then fillHead update (s.curr_height + 1) (height - s.curr_height)
                else some update) with
        | none => none
        | some update1 =>
          let hp := s.heap ++ [some { val := val, count := 1, next := List.replicate (height + 1) none }]
          match splice update1 s.heap.length hp 0 (height + 1) with
          | none => none
          | some hp1 =>
            some { heap := hp1, curr_height := if height > s.curr_height then height else s.curr_height }
      match nx with
      | none => fresh
      | some a =>
        match getNode s.heap a with
        | none => none
        | some n =>
          if equal n.val val then
            some { s with heap := s.heap.set a (some { n with count := n.count + 1 }) }
          else fresh

/-- The unlinking loop of `remove`, as `n` iterations starting at level `i`:
`if (update[i]->next[i] != curr) break; update[i]->next[i] = curr->next[i];`. -/
def unlink (upd : List (Option Nat)) (curr : Nat) : Heap → Nat → Nat → Option Heap
  | hp, _, 0 => some hp
  | hp, i, n + 1 =>
    match getUpd upd i with
    | none => none
    | some u =>
      match readNext hp u i with
      | none => none
      | some p =>
        if p ≠ some curr then some hp
        else
          match readNext hp curr i with
          | none => none
          | some q =>
            match writeNext hp u i q with
            | none => none
            | some hp1 => unlink upd curr hp1 (i + 1) n

/-- The loop `while (curr_height > 0 && !head->next[curr_height]) curr_height--;`. -/
def shrink (hp : Heap) : Nat → Option Nat
  | 0 => some 0
  | h + 1 =>
    match readNext hp head (h + 1) with
    | none => none
    | some none => shrink hp h
    | some (some _) => some (h + 1)

/-- The member `remove`: the returned flag and the state after the call. -/
def remove (s : SkipList) (val : Int) : Option (Bool × SkipList) :=
  match descend (fun x => comp x val) s.heap (s.curr_height + 1) head updateInit with
  | none => none
  | some (curr, update) =>
    match readNext s.heap curr 0 with
    | none => none
    | some none => some (false, s)
    | some (some c) =>
      match getNode s.heap c with
      | none => none
      | some n =>
        if equal n.val val then
          match unlink update c s.heap 0 (s.curr_height + 1) with
          | none => none
          | some hp1 =>
            let hp2 := hp1.set c none
            match shrink hp2 s.curr_height with
            | none => none
            | some h => some (true, { heap := hp2, curr_height := h })
        else some (false, s)

/-- The member `find`. -/
def find (s : SkipList) (val : Int) : Option Bool :=
  match search (fun x => comp x val) s.heap (s.curr_height + 1) head with
  | none => none
  | some curr =>
    match readNext s.heap curr 0 with
    | none => none
    | some none => some false
    | some (some c) =>
      match getNode s.heap c with
      | none => none
      | some n => some (equal n.val val)

/-- The member `count_occurrence`. -/
def count_occurrence (s : SkipList) (val : Int) : Option Int :=
  match search (fun x => comp x val) s.heap (s.curr_height + 1) head with
  | none => none
  | some curr =>
    match readNext s.heap curr 0 with
    | none => none
    | some none => some 0
    | some (some c) =>
      match getNode s.heap c with
      | none => none
      | some n => some (if equal n.val val then n.count else 0)

/-- The member `lower_bound`; `T()` is `0`. -/
def lower_bound (s : SkipList) (val : Int) : Option Int :=
  match search (fun x => comp x val) s.heap (s.curr_height + 1) head with
  | none => none
  | some curr =>
    match readNext s.heap curr 0 with
    | none => none
    | some none => some 0
    | some (some c) =>
      match getNode s.heap c with
      | none => none
      | some n => some n.val

/-- The member `upper_bound`: the loop advances while `!comp(val, next->val)`. -/
def upper_bound (s : SkipList) (val : Int) : Option Int :=
  match search (fun x => !comp val x) s.heap (s.curr_height + 1) head with
  | none => none
  | some curr =>
    match readNext s.heap curr 0 with
    | none => none
    | some none => some 0
    | some (some c) =>
      match getNode s.heap c with
      | none => none
      | some n => some n.val

/-- Reduce an integer to the 32-bit two's complement range. -/
def wrap32 (x : Int) : Int := (x + 2147483648) % 4294967296 - 2147483648

/-- The `int` subtraction `a - b`. -/
def sub32 (a b : Int) : Int := wrap32 (a - b)

/-- The call `abs(x)` on an `int`; `abs(INT_MIN)` is `INT_MIN`. -/
def abs32 (x : Int) : Int := wrap32 |x|

/-- The member `closest_element`. -/
def closest_element (s : SkipList) (val : Int) : Option Int :=
  match readNext s.heap head 0 with
  | none => none
  | some none => some 0
  | some (some _) =>
    match search (fun x => comp x val) s.heap (s.curr_height + 1) head with
    | none => none
    | some curr =>
      let before : Option Nat := if curr ≠ head then some curr else none
      match readNext s.heap curr 0 with
      | none => none
      | some after =>
        match after, before with
        | none, none => some 0
        | none, some b => (getNode s.heap b).map fun n => n.val
        | some a, none => (getNode s.heap a).map fun n => n.val
        | some a, some b =>
          if b = head then (getNode s.heap a).map fun n => n.val
          else
            match getNode s.heap b, getNode s.heap a with
            | some nb, some na =>
              let diff1 := abs32 (sub32 nb.val val)
              let diff2 := abs32 (sub32 na.val val)
              some (if diff1 ≤ diff2 then nb.val else na.val)
            | _, _ => none

/-- Follow `next[i]` from the pointer `p` to the null pointer, collecting the
addresses met; the traversal of `print` and of the destructor at level `i`. -/
def chainFrom (hp : Heap) (i : Nat) : Nat → Option Nat → Option (List Nat)
  | 0, _ => none
  | _ + 1, none => some []
  | fuel + 1, some a =>
    match readNext hp a i with
    | none => none
    | some p =>
      match chainFrom hp i fuel p with
      | none => none
      | some r => some (a :: r)

/-- The addresses of the nodes linked at level `i`, from `head->next[i]` on. -/
def level (s : SkipList) (i : Nat) : Option (List Nat) :=
  match readNext s.heap head i with
  | none => none
  | some p => chainFrom s.heap i s.heap.length p

/-- Dereference every address of a list. -/
def nodesAt (hp : Heap) : List Nat → Option (List Node)
  | [] => some []
  | a :: r =>
    match getNode hp a, nodesAt hp r with
    | some n, some ns => some (n :: ns)
    | _, _ => none

/-- The nodes met by the traversal at level `i`. -/
def levelNodes (s : SkipList) (i : Nat) : Option (List Node) :=
  (level s i).bind (nodesAt s.heap)

/-- The values met by the traversal at level `i`. -/
def levelVals (s : SkipList) (i : Nat) : Option (List Int) :=
  (levelNodes s i).map fun ns => ns.map fun n => n.val

/-- The stored values: the level-0 traversal of `print`, one entry per node. -/
def values (s : SkipList) : Option (List Int) := levelVals s 0

end SkipList

/-- A mutating call: `insert(val)` together with the height drawn for the node it may
create (a number in `0..16`), or `remove(val)`. -/
inductive Op where
  | insert (val : Int) (height : Fin 17)
  | remove (val : Int)
deriving DecidableEq

namespace SkipList

/-- Perform one call. -/
def step (s : SkipList) : Op → Option SkipList
  | .insert v h => s.insert v h.val
  | .remove v => (s.remove v).map fun r => r.2

/-- Perform a sequence of calls from the state `s`. -/
def runFrom (s : SkipList) : List Op → Option SkipList
  | [] => some s
  | op :: rest =>
    match step s op with
    | none => none
    | some s1 => runFrom s1 rest

/-- Perform a sequence of calls on the empty list. -/
def run (ops : List Op) : Option SkipList := runFrom empty ops

/-- The states reachable from the empty list by `insert` and `remove` calls. -/
def Reachable (s : SkipList) : Prop := ∃ ops, run ops = some s

end SkipList

/-- The loop of `rand_height`. The `k`-th call of `rand()` in the run of the program
succeeds when `coin k` holds, that is when `rand() / float(RAND_MAX) < PROB`. Every
test of the loop condition calls `rand()` once, before `h < MAX_HEIGHT` is looked at.
The result is the height and the number of calls of `rand()` made so far. -/
def rand_height_loop (coin : Nat → Bool) : Nat → Nat → Nat → Option (Nat × Nat)
  | 0, _, _ => none
  | fuel + 1, k, h =>
    if coin k && decide (h < MAX_HEIGHT) then rand_height_loop coin fuel (k + 1) (h + 1)
    else some (h, k + 1)

/-- The function `rand_height`, started when `k` calls of `rand()` have been made. -/
def rand_height (coin : Nat → Bool) (k : Nat) : Option (Nat × Nat) :=
  rand_height_loop coin (MAX_HEIGHT + 1) k 0

namespace SkipList

/-- The member `insert` with the call of `rand_height()` in place: the state of the
random generator is the number `k` of calls of `rand()` made so far. -/
def insert_rand (coin : Nat → Bool) (s : SkipList) (k : Nat) (val : Int) :
    Option (SkipList × Nat) :=
  match descend (fun x => comp x val) s.heap (s.curr_height + 1) head updateInit with
  | none => none
  | some (curr, update) =>
    match readNext s.heap curr 0 with
    | none => none
    | some nx =>
      let fresh : Option (SkipList × Nat) :=
        match rand_height coin k with
        | none => none
        | some (height, k1) =>
          match (if height > s.curr_height
                  then fillHead update (s.curr_height + 1) (height - s.curr_height)
                  else some update) with
          | none => none
          | some update1 =>
            let hp := s.heap ++ [some { val := val, count := 1, next := List.replicate (height + 1) none }]
            match splice update1 s.heap.length hp 0 (height + 1) with
            | none => none
            | some hp1 =>
              some ({ heap := hp1,
                      curr_height := if height > s.curr_height then height else s.curr_height },
                    k1)
      match nx with
      | none => fresh
      | some a =>
        match getNode s.heap a with
        | none => none
        | some n =>
          if equal n.val val then
            some ({ s with heap := s.heap.set a (some { n with count := n.count + 1 }) }, k)
          else fresh

/-- The loop of `main`: `reqs` are the requests still on the input, each a `choice`
and the `value` read after it, `N` the counter, `list` the skip list, `k` the number
of calls of `rand()` made so far and `out` the lines written so far. The loop ends
when `N` reaches `0` or at a choice outside `1..7`. The stream is never tested: when
the input is exhausted while `N > 0`, `cin >> choice` leaves `choice` uninitialised
and the program dispatches on it, which is a fault, `none`. -/
def main_loop (coin : Nat → Bool) :
    List (Int × Int) → Int → SkipList → Nat → List String → Option (List String)
  | [], N, _, _, out => if N > 0 then none else some out
  | (choice, value) :: rest, N, list, k, out =>
    if N > 0 then
      if choice = 1 then
        match insert_rand coin list k value with
        | none => none
        | some (list1, k1) => main_loop coin rest (N - 1) list1 k1 out
      else if choice = 2 then
        match remove list value with
        | none => none
        | some (_, list1) => main_loop coin rest (N - 1) list1 k out
      else if choice = 3 then
        match find list value with
        | none => none
        | some b => main_loop coin rest (N - 1) list k (out ++ [if b then "1" else "0"])
      else if choice = 4 then
        match count_occurrence list value with
        | none => none
        | some r => main_loop coin rest (N - 1) list k (out ++ [toString r])
      else if choice = 5 then
        match lower_bound list value with
        | none => none
        | some r => main_loop coin rest (N - 1) list k (out ++ [toString r])
      else if choice = 6 then
        match upper_bound list value with
        | none => none
        | some r => main_loop coin rest (N - 1) list k (out ++ [toString r])
      else if choice = 7 then
        match closest_element list value with
        | none => none
        | some r => main_loop coin rest (N - 1) list k (out ++ [toString r])
      else some out
    else some out

/-- The function `main` of `skip_list.cpp`: from the number `N` and the requests read
after it to the lines written, starting from the empty list; `none` when it reads
past the end of the input. -/
def main (coin : Nat → Bool) (N : Int) (reqs : List (Int × Int)) : Option (List String) :=
  main_loop coin reqs N empty 0 []

end SkipList

/-! ## The decimal strings of `src/dsaps/big_int.cpp`: a `string` is the list of its
characters; the loops of `div`, `mod` and `gcd` that need not end on every input take
fuel and yield `none` when it runs out -/

namespace BigInt

/-- The `int` value `c - '0'` of a character. -/
def digitVal (c : Char) : Int := (c.toNat : Int) - 48

/-- The character `d + '0'` for an `int` `d` (a decimal digit when `0 ≤ d ≤ 9`). -/
def digitChar (d : Int) : Char := Char.ofNat (d + 48).toNat

/-- The loop of `compareStrings` over two strings of the same size; characters are
compared by their codes. -/
def compareChars : List Char → List Char → Int
  | c1 :: r1, c2 :: r2 =>
    if c1 ≠ c2 then (if c1.toNat < c2.toNat then -1 else 1) else compareChars r1 r2
  | _, _ => 0

/-- The function `compareStrings`. -/
def compareStrings (str1 str2 : List Char) : Int :=
  if str1.length ≠ str2.length then (if str1.length < str2.length then -1 else 1)
  else compareChars str1 str2

/-- The loop `while (b.size() < n) b = "0" + b;`. -/
def padZeros (n : Nat) : Nat → List Char → List Char
  | 0, b => b
  | fuel + 1, b => if b.length < n then padZeros n fuel ('0' :: b) else b

/-- The digit loop of `sub`, from the last index down to the first: the pairs
`(a[i], b[i])` still to do (last index first), the borrow, and the part of `result`
already written. It returns `result` and the final borrow. -/
def subLoop : List (Char × Char) → Int → List Char → List Char × Int
  | [], borrow, result => (result, borrow)
  | (ca, cb) :: rest, borrow, result =>
    let digit := digitVal ca - digitVal cb - borrow
    if digit < 0 then subLoop rest 1 (digitChar (digit + 10) :: result)
    else subLoop rest 0 (digitChar digit :: result)

/-- The end of `sub`, `mul` and `div`: skip the leading `'0'` characters and return
`"0"` if nothing is left. -/
def skipZeros (result : List Char) : List Char :=
  let r := result.dropWhile fun c => c = '0'
  if r = [] then ['0'] else r

/-- The pairs `(a[i], b[i])` for `i = n - 1, ..., 0` after `b` has been padded. -/
def subPairs (a b : List Char) : List (Char × Char) :=
  (a.zip (padZeros a.length a.length b)).reverse

/-- The function `sub`. -/
def sub (a b : List Char) : List Char :=
  skipZeros (subLoop (subPairs a b) 0 []).1

/-- The value of `borrow` when the digit loop of `sub` ends. -/
def subBorrow (a b : List Char) : Int :=
  (subLoop (subPairs a b) 0 []).2

/-- The loop `while (current.size() > 1 && current[0] == '0') current = current.substr(1);`. -/
def stripLead : List Char → List Char
  | c :: d :: r => if c = '0' then stripLead (d :: r) else c :: d :: r
  | l => l

/-- The loop `while (compareStrings(current, b) >= 0) { current = sub(current, b); count++; }`
of `div`. -/
def divInner (b : List Char) : Nat → List Char → Int → Option (List Char × Int)
  | 0, _, _ => none
  | fuel + 1, current, count =>
    if compareStrings current b ≥ 0 then divInner b fuel (sub current b) (count + 1)
    else some (current, count)

/-- The loop of `div` over the digits of `a`: the digits still to read, `current`, and
the counts stored in `quotient` so far. -/
def divLoop (fuel : Nat) (b : List Char) :
    List Char → List Char → List Int → Option (List Char × List Int)
  | [], current, quotient => some (current, quotient)
  | c :: rest, current, quotient =>
    match divInner b fuel (stripLead (current ++ [c])) 0 with
    | none => none
    | some (current1, count) => divLoop fuel b rest current1 (quotient ++ [count])

/-- The function `div`; `quotient[i] = count + '0'`. -/
def div (fuel : Nat) (a b : List Char) : Option (List Char) :=
  if compareStrings a b < 0 then some ['0']
  else
    match divLoop fuel b a [] [] with
    | none => none
    | some (_, quotient) => some (skipZeros (quotient.map digitChar))

/-- The loop `while (compareStrings(current, b) >= 0) current = sub(current, b);` of `mod`. -/
def modInner (b : List Char) : Nat → List Char → Option (List Char)
  | 0, _ => none
  | fuel + 1, current =>
    if compareStrings current b ≥ 0 then modInner b fuel (sub current b)
    else some current

/-- The loop of `mod` over the digits of `a`. -/
def modLoop (fuel : Nat) (b : List Char) : List Char → List Char → Option (List Char)
  | [], current => some current
  | c :: rest, current =>
    match modInner b fuel (stripLead (current ++ [c])) with
    | none => none
    | some current1 => modLoop fuel b rest current1

/-- The function `mod`. -/
def mod (fuel : Nat) (a b : List Char) : Option (List Char) :=
  if compareStrings a b < 0 then some a
  else
    match modLoop fuel b a [] with
    | none => none
    | some current => some (if current = [] then ['0'] else current)

/-- The loop of `gcd`; `inner` is the fuel given to each call of `mod`. -/
def gcdLoop (inner : Nat) : Nat → List Char → List Char → Option (List Char)
  | 0, _, _ => none
  | fuel + 1, a, b =>
    if b ≠ ['0'] then
      match mod inner a b with
      | none => none
      | some r => gcdLoop inner fuel b r
    else some a

/-- The function `gcd`. -/
def gcd (fuel : Nat) (a b : List Char) : Option (List Char) := gcdLoop fuel fuel a b

end BigInt

/-! ## The expression evaluator of `src/dsaps/big_int.cpp`: `add`, `mul`, `to_postfix`,
`calc` and `evaluatePostfix`. The classes `OpStack` and `StringStack` are lists with the
top of the stack first (`resize` keeps the content); `pop` on an empty stack reads
`arr[-1]` and is a fault, `none` -/

namespace BigInt

/-- The digit loop of `add`, from the last index down to the first: the pairs
`(a[i], b[i])` still to do (last index first), the carry, and the part of `result`
already written. `/` and `%` of C++ truncate. -/
def addLoop : List (Char × Char) → Int → List Char → List Char × Int
  | [], carry, result => (result, carry)
  | (ca, cb) :: rest, carry, result =>
    let sum := digitVal ca + digitVal cb + carry
    addLoop rest (sum.tdiv 10) (digitChar (sum.tmod 10) :: result)

/-- The function `add`: both strings are padded to the size `n` of the longer one, and
the final carry, if any, is written in front. -/
def add (a b : List Char) : List Char :=
  let n := max a.length b.length
  let st := addLoop ((padZeros n n a).zip (padZeros n n b)).reverse 0 []
  if st.2 ≠ 0 then digitChar st.2 :: st.1 else st.1

/-- The body of the inner loop of `mul` for the indices `i` and `j`, on the buffer
`result` and the carry. -/
def mulCell (a b : List Char) (i j : Nat) (st : List Char × Int) : List Char × Int :=
  let product := digitVal (a.getD i '0') * digitVal (b.getD j '0')
    + digitVal (st.1.getD (i + j + 1) '0') + st.2
  (st.1.set (i + j + 1) (digitChar (product.tmod 10)), product.tdiv 10)

/-- The buffer and the carry after the first `k` rounds `j = m - 1, ..., m - k` of the
inner loop of `mul` in the row `i`, entered with the buffer `result`. -/
def mulInner (a b : List Char) (i : Nat) (result : List Char) : Nat → List Char × Int
  | 0 => (result, 0)
  | k + 1 => mulCell a b i (b.length - 1 - k) (mulInner a b i result k)

/-- The statement `c += carry` on a `char`: the sum is stored in one byte. -/
def charAdd (c : Char) (carry : Int) : Char :=
  Char.ofNat (((c.toNat : Int) + carry) % 256).toNat

/-- The statement `result[i] += carry;` that ends the row `i` of `mul`. -/
def mulRowEnd (i : Nat) (st : List Char × Int) : List Char :=
  st.1.set i (charAdd (st.1.getD i '0') st.2)

/-- The buffer of `mul` after the first `r` rounds `i = n - 1, ..., n - r` of the outer
loop; it starts as `n + m` characters `'0'`. -/
def mulOuter (a b : List Char) : Nat → List Char
  | 0 => List.replicate (a.length + b.length) '0'
  | r + 1 =>
    mulRowEnd (a.length - 1 - r) (mulInner a b (a.length - 1 - r) (mulOuter a b r) b.length)

/-- The function `mul`. -/
def mul (a b : List Char) : List Char := skipZeros (mulOuter a b a.length)

/-- The library function `isdigit` on a character. -/
def isdigit (c : Char) : Bool := decide (48 ≤ c.toNat ∧ c.toNat ≤ 57)

/-- The library function `isspace` on a character: the space and the codes 9 to 13. -/
def isspace (c : Char) : Bool := decide (c.toNat = 32 ∨ (9 ≤ c.toNat ∧ c.toNat ≤ 13))

/-- The test `c == '+' || c == '-' || c == 'x' || c == '/'`. -/
def isOperator (c : Char) : Bool := decide (c = '+' ∨ c = '-' ∨ c = 'x' ∨ c = '/')

/-- The function `getPrecedence`. -/
def getPrecedence (op : Char) : Int :=
  if op = '+' ∨ op = '-' then 1 else if op = 'x' ∨ op = '/' then 2 else -1

/-- The loop `while (i < expr.size() && isdigit(expr[i])) res += expr[i++];` on the part
of `expr` from the index `i` on. It returns what is left of `expr` and `res`. -/
def readDigits : List Char → List Char → List Char × List Char
  | [], res => ([], res)
  | c :: rest, res => if isdigit c then readDigits rest (res ++ [c]) else (c :: rest, res)

/-- The loop `while (!ops.empty() && getPrecedence(ops.top()) >= getPrecedence(c))` that
moves operators from the stack to `res`. -/
def popOps (c : Char) : List Char → List Char → List Char × List Char
  | [], res => ([], res)
  | top :: ops, res =>
    if getPrecedence top ≥ getPrecedence c then popOps c ops (res ++ [top, ' '])
    else (top :: ops, res)

/-- The loop `while (!ops.empty())` that ends `to_postfix`. -/
def popAll : List Char → List Char → List Char
  | [], res => res
  | top :: ops, res => popAll ops (res ++ [top, ' '])

/-- The main loop of `to_postfix` on the part of `expr` from the index `i` on, with the
operator stack and `res`; every round reads at least one character, and the fuel
counts the rounds. -/
def toPostfixLoop : Nat → List Char → List Char → List Char → Option (List Char)
  | _, [], ops, res => some (popAll ops res)
  | 0, _ :: _, _, _ => none
  | fuel + 1, c :: rest, ops, res =>
    if isdigit c then
      toPostfixLoop fuel (readDigits (c :: rest) res).1 ops
        ((readDigits (c :: rest) res).2 ++ [' '])
    else if isOperator c then
      toPostfixLoop fuel rest (c :: (popOps c ops res).1) (popOps c ops res).2
    else toPostfixLoop fuel rest ops res

/-- The function `to_postfix`. -/
def to_postfix (expr : List Char) : Option (List Char) :=
  toPostfixLoop expr.length expr [] []

/-- The function `calc`; `fuel` is passed to `div`. -/
def calcOp (fuel : Nat) (a b : List Char) (op : Char) : Option (List Char) :=
  if op = '+' then some (add a b)
  else if op = '-' then some (if compareStrings a b ≥ 0 then sub a b else ['0'])
  else if op = 'x' then some (mul a b)
  else if op = '/' then div fuel a b
  else some "INVALID OP".toList

/-- The loop `for (char ch : postfix)` of `evaluatePostfix` with the stack `operands`
and the string `token`. -/
def evalLoop (fuel : Nat) :
    List Char → List (List Char) → List Char → Option (List (List Char) × List Char)
  | [], operands, token => some (operands, token)
  | ch :: rest, operands, token =>
    if isspace ch then
      if token ≠ [] then evalLoop fuel rest (token :: operands) []
      else evalLoop fuel rest operands token
    else if isdigit ch then evalLoop fuel rest operands (token ++ [ch])
    else if isOperator ch then
      match operands with
      | b :: a :: below =>
        match calcOp fuel a b ch with
        | none => none
        | some r => evalLoop fuel rest (r :: below) token
      | _ => none
    else evalLoop fuel rest operands token

/-- The function `evaluatePostfix`. -/
def evaluatePostfix (fuel : Nat) (expr : List Char) : Option (List Char) :=
  if expr = [] then some ['0']
  else
    match evalLoop fuel expr [] [] with
    | none => none
    | some (operands, token) => (if token ≠ [] then token :: operands else operands).head?

end BigInt

/-! ## Auxiliary definitions: observations, the invariant and the call traces -/

namespace SkipList

/-- The value stored at address `a` (`0` for a dead cell). -/
def valOf (hp : Heap) (a : Nat) : Int :=
  match getNode hp a with
  | some n => n.val
  | none => 0

/-- The counter stored at address `a` (`0` for a dead cell). -/
def cntOf (hp : Heap) (a : Nat) : Int :=
  match getNode hp a with
  | some n => n.count
  | none => 0

/-- The length of the array `next` of the node at `a`, that is its height plus one. -/
def lvl (hp : Heap) (a : Nat) : Nat :=
  match getNode hp a with
  | some n => n.next.length
  | none => 0

/-- Two heaps with the same cells alive and the same value, counter and array
length in every cell; they may differ in the links. -/
structure SameShape (hp hp1 : Heap) : Prop where
  len : hp1.length = hp.length
  val : ∀ b, valOf hp1 b = valOf hp b
  cnt : ∀ b, cntOf hp1 b = cntOf hp b
  lvl : ∀ b, lvl hp1 b = lvl hp b
  live : ∀ b, (getNode hp1 b).isSome = (getNode hp b).isSome

/-- The list `l` is the chain that starts after `a` in the link function `f` and
ends with the null pointer. -/
def LinkedF (f : Nat → Option (Option Nat)) : Nat → List Nat → Prop
  | a, [] => f a = some none
  | a, b :: r => f a = some (some b) ∧ LinkedF f b r

/-- The chain after `a` at level `i` of the heap. -/
def Linked (hp : Heap) (i : Nat) (a : Nat) (l : List Nat) : Prop :=
  LinkedF (fun b => readNext hp b i) a l

/-- The last element of `a :: l`. -/
def lastFrom : Nat → List Nat → Nat
  | a, [] => a
  | _, b :: r => lastFrom b r

/-- The addresses of `l` whose node is linked at level `i`. -/
def atLevel (hp : Heap) (i : Nat) (l : List Nat) : List Nat :=
  l.filter fun a => decide (i < lvl hp a)

/-- The representation invariant: `ns` lists the addresses of the real nodes in the
order of the level-0 chain. -/
structure Inv (s : SkipList) (ns : List Nat) : Prop where
  head_lvl : lvl s.heap head = MAX_HEIGHT + 1
  head_cnt : cntOf s.heap head = 0
  ch : s.curr_height ≤ MAX_HEIGHT
  len : ns.length < s.heap.length
  nz : head ∉ ns
  lv : ∀ a ∈ ns, 1 ≤ lvl s.heap a ∧ lvl s.heap a ≤ s.curr_height + 1
  cnt : ∀ a ∈ ns, 1 ≤ cntOf s.heap a
  sorted : ns.Pairwise fun a b => valOf s.heap a < valOf s.heap b
  linked : ∀ i, i ≤ MAX_HEIGHT → Linked s.heap i head (atLevel s.heap i ns)
  top : s.curr_height = 0 ∨ ∃ a ∈ ns, lvl s.heap a = s.curr_height + 1

/-- The node at which the loop `advance` stops on the chain `l` after `a`. -/
def lastBefore (adv : Int → Bool) (hp : Heap) : Nat → List Nat → Nat
  | a, [] => a
  | a, b :: r => if adv (valOf hp b) then lastBefore adv hp b r else a

/-- The facts about a state and a comparator test that the descent relies on: the
real nodes are `pre ++ post`, the test holds on `pre` and fails on `post`. -/
structure Ctx (adv : Int → Bool) (hp : Heap) (pre post : List Nat) : Prop where
  linked : ∀ i, i ≤ MAX_HEIGHT → Linked hp i head (atLevel hp i (pre ++ post))
  hpre : ∀ a ∈ pre, adv (valOf hp a) = true
  hpost : ∀ a ∈ post, adv (valOf hp a) = false
  live : ∀ a ∈ pre ++ post, 0 < lvl hp a
  len : (pre ++ post).length < hp.length

/-- The node recorded in `update[i]`: the last node of level `i` on which the test holds. -/
def upd_at (hp : Heap) (pre : List Nat) (i : Nat) : Nat := lastFrom head (atLevel hp i pre)

/-- The value and the counter of the nodes at the addresses `l`. -/
def absList (hp : Heap) (l : List Nat) : List (Int × Int) :=
  l.map fun a => (valOf hp a, cntOf hp a)

/-- The invariant of the loop `splice` before the iteration of level `i`: the levels
below `i` already contain the new node `nw`, the others are as in `hp0`. -/
structure SpliceInv (hp0 : Heap) (pre post : List Nat) (nw i : Nat) (hpi : Heap) : Prop where
  shape : SameShape hp0 hpi
  untouched : ∀ b j, i ≤ j → readNext hpi b j = readNext hp0 b j
  done : ∀ j, j < i → Linked hpi j head (atLevel hp0 j pre ++ nw :: atLevel hp0 j post)

/-- The invariant of the loop `unlink` before the iteration of level `i`: the levels
below `i` no longer contain the node `c`, the others are as in `hp`. -/
structure UnlinkInv (hp : Heap) (pre post : List Nat) (i : Nat) (hpi : Heap) : Prop where
  shape : SameShape hp hpi
  untouched : ∀ b j, i ≤ j → readNext hpi b j = readNext hp b j
  done : ∀ j, j < i → Linked hpi j head (atLevel hp j pre ++ atLevel hp j post)

/-- The sum of the counters of the pairs with value `v`. -/
def cntIn (l : List (Int × Int)) (v : Int) : Int :=
  ((l.filter fun p => decide (p.1 = v)).map Prod.snd).sum

end SkipList

/-- Whether the call is `insert(v)`. -/
def Op.isInsertOf (v : Int) : Op → Bool
  | .insert w _ => decide (w = v)
  | .remove _ => false

/-- Whether the call is `remove(v)`. -/
def Op.isRemoveOf (v : Int) : Op → Bool
  | .insert _ _ => false
  | .remove w => decide (w = v)

namespace SkipList

/-- The calls made after the most recent `remove(v)`; all of them if there is none. -/
def sinceLastRemove (v : Int) (ops : List Op) : List Op :=
  (ops.reverse.takeWhile fun op => !op.isRemoveOf v).reverse

/-- The number of `insert(v)` calls in a sequence of calls. -/
def insertCalls (v : Int) (ops : List Op) : Nat := ops.countP (Op.isInsertOf v)

/-- The calls `insert 5, 3, 8, 3` of the scenario in the specification, with some heights. -/
def sampleOps : List Op := [.insert 5 2, .insert 3 0, .insert 8 1, .insert 3 4]

/-- The state after `sampleOps`. -/
def sample : SkipList := (run sampleOps).getD empty

/-- The results of the `n` calls of `rand()` that follow the first `k` calls. -/
def flips (coin : Nat → Bool) (k n : Nat) : List Bool :=
  (List.range n).map fun j => coin (k + j)

/-- The length of the leading run of successes of a sequence of coin flips. -/
def leadingRun (l : List Bool) : Nat := (l.takeWhile fun b => b).length

/-- Insertion into a sorted list of (value, count) pairs: the count of `v` grows by
one, a new pair `(v, 1)` takes its place in the order if `v` was absent. -/
def specInsert (v : Int) (m : List (Int × Int)) : List (Int × Int) :=
  (m.filter fun p => decide (p.1 < v)) ++ (v, cntIn m v + 1) :: m.filter fun p => decide (v < p.1)

/-- Removal from a list of (value, count) pairs: the pair of `v` goes, whatever its count. -/
def specRemove (v : Int) (m : List (Int × Int)) : List (Int × Int) :=
  m.filter fun p => decide (p.1 ≠ v)

/-- One call on a list of (value, count) pairs; the height of an `insert` is not used. -/
def specStep (m : List (Int × Int)) : Op → List (Int × Int)
  | .insert v _ => specInsert v m
  | .remove v => specRemove v m

/-- The sorted list of (value, count) pairs after a sequence of calls. -/
def specRun (ops : List Op) : List (Int × Int) := ops.foldl specStep []

/-- Membership of `v` in a list of (value, count) pairs. -/
def specFind (m : List (Int × Int)) (v : Int) : Bool := decide (v ∈ m.map Prod.fst)

/-- The first value `≥ v` of a sorted list of pairs, `0` if there is none. -/
def specLower (m : List (Int × Int)) (v : Int) : Int :=
  ((m.find? fun p => decide (v ≤ p.1)).map Prod.fst).getD 0

/-- The first value `> v` of a sorted list of pairs, `0` if there is none. -/
def specUpper (m : List (Int × Int)) (v : Int) : Int :=
  ((m.find? fun p => decide (v < p.1)).map Prod.fst).getD 0

/-- The choice that `closest_element` makes between the last value below `v` and the
first value not below `v`, with the 32-bit differences of the source. -/
def closestOf : Option Int → Option Int → Int → Int
  | none, none, _ => 0
  | some b, none, _ => b
  | none, some a, _ => a
  | some b, some a, v => if abs32 (sub32 b v) ≤ abs32 (sub32 a v) then b else a

/-- The answer of `closest_element` on a sorted list of pairs. -/
def specClosest (m : List (Int × Int)) (v : Int) : Int :=
  closestOf ((m.filter fun p => decide (p.1 < v)).getLast?.map Prod.fst)
    ((m.find? fun p => decide (v ≤ p.1)).map Prod.fst) v

/-- The call without the height drawn for it: the value and whether it is an `insert`. -/
def callOf : Op → Int × Bool
  | .insert v _ => (v, true)
  | .remove v => (v, false)

/-- The requests that `main` serves: among the first `N`, those that come before the
first request whose choice is outside `1..7`. -/
def served (N : Int) (reqs : List (Int × Int)) : List (Int × Int) :=
  (reqs.take N.toNat).takeWhile fun r => decide (1 ≤ r.1 ∧ r.1 ≤ 7)

/-- The lines expected for a sequence of requests, computed on the sorted list of
(value, count) pairs: no line for the choices `1` and `2`, one line for each of the
choices `3..7`. -/
def specLines : List (Int × Int) → List (Int × Int) → List String
  | [], _ => []
  | (choice, value) :: rest, m =>
    if choice = 1 then specLines rest (specInsert value m)
    else if choice = 2 then specLines rest (specRemove value m)
    else if choice = 3 then (if specFind m value then "1" else "0") :: specLines rest m
    else if choice = 4 then toString (cntIn m value) :: specLines rest m
    else if choice = 5 then toString (specLower m value) :: specLines rest m
    else if choice = 6 then toString (specUpper m value) :: specLines rest m
    else if choice = 7 then toString (specClosest m value) :: specLines rest m
    else specLines rest m

/-- The input is well formed: it holds a request for every round of the loop of
`main`, that is at least `N` requests, or a request whose choice is outside `1..7`
(where the loop ends). -/
abbrev enoughInput (N : Int) (reqs : List (Int × Int)) : Prop :=
  N ≤ reqs.length ∨ ∃ r ∈ reqs, ¬ (1 ≤ r.1 ∧ r.1 ≤ 7)

/-- The calls of `sampleOps` with other heights. -/
def sampleOps2 : List Op := [.insert 5 0, .insert 3 16, .insert 8 7, .insert 3 1]

end SkipList

namespace BigInt

/-- The character is one of `'0'..'9'`. -/
abbrev IsDigit (c : Char) : Prop := 48 ≤ c.toNat ∧ c.toNat ≤ 57

/-- The digit that a character stands for. -/
def dv (c : Char) : Nat := c.toNat - 48

/-- The number that a string of digits denotes, most significant digit first. -/
def value (s : List Char) : Nat := s.foldl (fun acc c => 10 * acc + dv c) 0

/-- A decimal string without leading zeros: not empty, digits only, and `"0"` is the
only one that starts with `'0'`. -/
abbrev Canon (s : List Char) : Prop :=
  s ≠ [] ∧ (∀ c ∈ s, IsDigit c) ∧ (s.head? = some '0' → s = ['0'])

/-- The two operators of lower precedence. -/
inductive AddOp
  | plus
  | minus

/-- The two operators of higher precedence. -/
inductive MulOp
  | times
  | divide

/-- The character that stands for an additive operator. -/
def AddOp.char : AddOp → Char
  | AddOp.plus => '+'
  | AddOp.minus => '-'

/-- The character that stands for a multiplicative operator. -/
def MulOp.char : MulOp → Char
  | MulOp.times => 'x'
  | MulOp.divide => '/'

/-- The meaning of an additive operator on natural numbers: `a - b` is `0` when
`a < b`. -/
def AddOp.apply : AddOp → Nat → Nat → Nat
  | AddOp.plus, x, y => x + y
  | AddOp.minus, x, y => x - y

/-- The meaning of a multiplicative operator on natural numbers: `/` is the floor of
the quotient. -/
def MulOp.apply : MulOp → Nat → Nat → Nat
  | MulOp.times, x, y => x * y
  | MulOp.divide, x, y => x / y

/-- A term: a number followed by any number of pairs of a multiplicative operator and
a number. -/
structure Term where
  first : List Char
  rest : List (MulOp × List Char)

/-- An expression without brackets: a term followed by any number of pairs of an
additive operator and a term. Every string of numbers separated by the four operators
is the string of an expression, see `renderFlat_covered`. -/
structure Expression where
  first : Term
  rest : List (AddOp × Term)

/-- The string of the operators and numbers that follow the first number of a term. -/
def renderFactors : List (MulOp × List Char) → List Char
  | [] => []
  | (m, n) :: rest => m.char :: n ++ renderFactors rest

/-- The string of a term. -/
def Term.render (t : Term) : List Char := t.first ++ renderFactors t.rest

/-- The string of the operators and terms that follow the first term. -/
def renderTerms : List (AddOp × Term) → List Char
  | [] => []
  | (o, t) :: rest => o.char :: t.render ++ renderTerms rest

/-- The string of an expression. -/
def Expression.render (e : Expression) : List Char := e.first.render ++ renderTerms e.rest

/-- The value of a term: its operators are applied from left to right. -/
def Term.eval (t : Term) : Nat :=
  t.rest.foldl (fun acc p => p.1.apply acc (value p.2)) (value t.first)

/-- The value of an expression: the terms are evaluated first, then the additive
operators are applied from left to right. -/
def Expression.eval (e : Expression) : Nat :=
  e.rest.foldl (fun acc p => p.1.apply acc p.2.eval) e.first.eval

/-- The numbers of a term have no leading zeros and no divisor is zero. -/
abbrev Term.WF (t : Term) : Prop :=
  Canon t.first ∧ ∀ p ∈ t.rest, Canon p.2 ∧ (p.1.char = '/' → value p.2 ≠ 0)

/-- The numbers of an expression have no leading zeros and no divisor is zero. -/
abbrev Expression.WF (e : Expression) : Prop :=
  e.first.WF ∧ ∀ p ∈ e.rest, p.2.WF

/-- The operators of a stack as they are written to `res`, top first. -/
def flushOps : List Char → List Char
  | [] => []
  | c :: r => c :: ' ' :: flushOps r

/-- The reverse Polish form of the tail of a term. -/
def postFactors : List (MulOp × List Char) → List Char
  | [] => []
  | (m, n) :: rest => n ++ ' ' :: m.char :: ' ' :: postFactors rest

/-- The reverse Polish form of a term. -/
def Term.post (t : Term) : List Char := t.first ++ ' ' :: postFactors t.rest

/-- The reverse Polish form of the tail of an expression. -/
def postTerms : List (AddOp × Term) → List Char
  | [] => []
  | (o, t) :: rest => t.post ++ o.char :: ' ' :: postTerms rest

/-- The reverse Polish form of an expression. -/
def Expression.post (e : Expression) : List Char := e.first.post ++ postTerms e.rest

/-- The main loop of `to_postfix` with as many rounds as characters are left. -/
def shunt (s ops res : List Char) : Option (List Char) := toPostfixLoop s.length s ops res

/-- The string does not start with a digit. -/
abbrev NoDigitHead (s : List Char) : Prop := ∀ c ∈ s.head?, ¬ IsDigit c

/-- The string of a first number followed by pairs of an operator and a number. -/
def renderFlat (n0 : List Char) : List (Char × List Char) → List Char
  | [] => n0
  | (c, n) :: rest => n0 ++ c :: renderFlat n rest

/-- The expression `12+3x4-5/2`. -/
def sampleExpression : Expression :=
  ⟨⟨"12".toList, []⟩,
    [(AddOp.plus, ⟨"3".toList, [(MulOp.times, "4".toList)]⟩),
      (AddOp.minus, ⟨"5".toList, [(MulOp.divide, "2".toList)]⟩)]⟩

end BigInt

namespace SkipList

/-! ## Observations on the heap -/

theorem equal_iff (a b : Int) : equal a b = true ↔ a = b := by
  simp only [equal, comp, Bool.and_eq_true, Bool.not_eq_true', decide_eq_false_iff_not]
  omega

theorem getNode_lt {hp : Heap} {a : Nat} {n : Node} (h : getNode hp a = some n) :
    a < hp.length := by
  unfold getNode at h
  by_contra hc
  rw [List.getElem?_eq_none (by omega)] at h
  simp at h

theorem getNode_set (hp : Heap) (a : Nat) (x : Option Node) (b : Nat) (ha : a < hp.length) :
    getNode (hp.set a x) b = if b = a then x else getNode hp b := by
  unfold getNode
  by_cases hb : b = a
  · subst hb
    simp [ha]
  · have : a ≠ b := fun h => hb h.symm
    simp [hb, List.getElem?_set_ne this]

theorem getNode_append_lt (hp : Heap) (x : Option Node) {b : Nat} (h : b < hp.length) :
    getNode (hp ++ [x]) b = getNode hp b := by
  unfold getNode
  rw [List.getElem?_append_left h]

theorem getNode_append_eq (hp : Heap) (x : Option Node) :
    getNode (hp ++ [x]) hp.length = x := by
  unfold getNode
  simp

theorem readNext_eq {hp : Heap} {a : Nat} {n : Node} (h : getNode hp a = some n) (i : Nat) :
    readNext hp a i = n.next[i]? := by
  simp [readNext, h]

theorem readNext_some_lvl {hp : Heap} {a i : Nat} {p : Option Nat}
    (h : readNext hp a i = some p) : i < lvl hp a := by
  unfold readNext at h
  unfold lvl
  cases hg : getNode hp a with
  | none => simp [hg] at h
  | some n =>
    simp only [hg, Option.some_bind] at h
    by_contra hc
    rw [List.getElem?_eq_none (by simpa using hc)] at h
    simp at h

theorem readNext_isSome_of_lvl {hp : Heap} {a i : Nat} (h : i < lvl hp a) :
    ∃ p, readNext hp a i = some p := by
  unfold lvl at h
  cases hg : getNode hp a with
  | none => simp [hg] at h
  | some n =>
    simp only [hg] at h
    exact ⟨n.next[i], by simp [readNext, hg, List.getElem?_eq_getElem h]⟩

theorem SameShape.refl (hp : Heap) : SameShape hp hp :=
  ⟨rfl, fun _ => rfl, fun _ => rfl, fun _ => rfl, fun _ => rfl⟩

theorem SameShape.trans {a b c : Heap} (h1 : SameShape a b) (h2 : SameShape b c) :
    SameShape a c :=
  ⟨h2.len.trans h1.len, fun x => (h2.val x).trans (h1.val x),
   fun x => (h2.cnt x).trans (h1.cnt x), fun x => (h2.lvl x).trans (h1.lvl x),
   fun x => (h2.live x).trans (h1.live x)⟩

theorem writeNext_some {m : Heap} {a i : Nat} (p : Option Nat) (h : i < lvl m a) :
    ∃ hp1, writeNext m a i p = some hp1 := by
  unfold lvl at h
  cases hg : getNode m a with
  | none => simp [hg] at h
  | some n =>
    simp only [hg] at h
    exact ⟨m.set a (some { n with next := n.next.set i p }), by simp [writeNext, hg, h]⟩

theorem writeNext_getNode {hp hp1 : Heap} {a i : Nat} {p : Option Nat}
    (h : writeNext hp a i p = some hp1) :
    ∃ n, getNode hp a = some n ∧ i < n.next.length ∧
      hp1 = hp.set a (some { n with next := n.next.set i p }) := by
  unfold writeNext at h
  cases hg : getNode hp a with
  | none => simp [hg] at h
  | some n =>
    simp only [hg] at h
    by_cases hi : i < n.next.length
    · simp only [hi, if_true, Option.some.injEq] at h
      exact ⟨n, rfl, hi, h.symm⟩
    · simp [hi] at h

theorem writeNext_shape {hp hp1 : Heap} {a i : Nat} {p : Option Nat}
    (h : writeNext hp a i p = some hp1) : SameShape hp hp1 := by
  obtain ⟨n, hg, hi, rfl⟩ := writeNext_getNode h
  have ha := getNode_lt hg
  refine ⟨by simp, ?_, ?_, ?_, ?_⟩ <;> intro b <;>
    by_cases hb : b = a <;>
    simp [valOf, cntOf, SkipList.lvl, getNode_set _ _ _ _ ha, hb, hg]

theorem writeNext_read {hp hp1 : Heap} {a i : Nat} {p : Option Nat}
    (h : writeNext hp a i p = some hp1) (b j : Nat) :
    readNext hp1 b j = if b = a ∧ j = i then some p else readNext hp b j := by
  obtain ⟨n, hg, hi, rfl⟩ := writeNext_getNode h
  have ha := getNode_lt hg
  unfold readNext
  rw [getNode_set _ _ _ _ ha]
  by_cases hb : b = a
  · subst hb
    by_cases hj : j = i
    · subst hj
      simp [hi]
    · have : i ≠ j := fun h => hj h.symm
      simp [hj, hg, List.getElem?_set_ne this]
  · simp [hb]

/-! ## Chains of links -/

theorem lastFrom_mem (a : Nat) (l : List Nat) : lastFrom a l ∈ a :: l := by
  induction l generalizing a with
  | nil => simp [lastFrom]
  | cons b r ih =>
    have := ih b
    simp only [lastFrom]
    exact List.mem_cons_of_mem _ this

theorem lastFrom_append (a : Nat) (l1 l2 : List Nat) :
    lastFrom a (l1 ++ l2) = lastFrom (lastFrom a l1) l2 := by
  induction l1 generalizing a with
  | nil => rfl
  | cons b r ih => simpa [lastFrom] using ih b

theorem lastFrom_split {a c : Nat} {l l1 l2 : List Nat} (h : a :: l = l1 ++ c :: l2) :
    lastFrom a l = lastFrom c l2 := by
  cases l1 with
  | nil =>
    simp only [List.nil_append, List.cons.injEq] at h
    rw [h.1, h.2]
  | cons x r =>
    simp only [List.cons_append, List.cons.injEq] at h
    rw [h.2, lastFrom_append]
    rfl

theorem LinkedF.congr {f g : Nat → Option (Option Nat)} {a : Nat} {l : List Nat}
    (h : LinkedF f a l) (hc : ∀ b ∈ a :: l, g b = f b) : LinkedF g a l := by
  induction l generalizing a with
  | nil =>
    simp only [LinkedF] at h ⊢
    rw [hc a (by simp), h]
  | cons b r ih =>
    simp only [LinkedF] at h ⊢
    refine ⟨by rw [hc a (by simp), h.1], ih h.2 ?_⟩
    intro x hx
    exact hc x (List.mem_cons_of_mem _ hx)

theorem LinkedF.suffix {f : Nat → Option (Option Nat)} {a c : Nat} {l l1 l2 : List Nat}
    (h : LinkedF f a l) (hs : a :: l = l1 ++ c :: l2) : LinkedF f c l2 := by
  induction l1 generalizing a l with
  | nil =>
    simp only [List.nil_append, List.cons.injEq] at hs
    rw [← hs.1, ← hs.2]
    exact h
  | cons x r ih =>
    simp only [List.cons_append, List.cons.injEq] at hs
    cases l with
    | nil =>
      have := hs.2
      simp at this
    | cons y t =>
      simp only [LinkedF] at h
      exact ih h.2 hs.2

theorem LinkedF.next_last {f : Nat → Option (Option Nat)} {a : Nat} {l1 l2 : List Nat}
    (h : LinkedF f a (l1 ++ l2)) : f (lastFrom a l1) = some l2.head? := by
  induction l1 generalizing a with
  | nil =>
    cases l2 with
    | nil => simpa [LinkedF, lastFrom] using h
    | cons b r => simpa [LinkedF, lastFrom] using h.1
  | cons x r ih =>
    simp only [List.cons_append, LinkedF] at h
    simpa [lastFrom] using ih h.2

theorem LinkedF.head_eq {f : Nat → Option (Option Nat)} {a : Nat} {l : List Nat}
    (h : LinkedF f a l) : f a = some l.head? := by
  cases l with
  | nil => simpa [LinkedF] using h
  | cons b r => simpa [LinkedF] using h.1

/-- Linking a new cell `nw` after the last element of `a :: l1`. -/
theorem LinkedF.link_in {f g : Nat → Option (Option Nat)} {a nw : Nat} {l1 l2 : List Nat}
    (h : LinkedF f a (l1 ++ l2)) (hnd : (a :: (l1 ++ l2)).Nodup)
    (hnw : nw ∉ a :: (l1 ++ l2))
    (h1 : g nw = some l2.head?) (h2 : g (lastFrom a l1) = some (some nw))
    (h3 : ∀ b, b ≠ nw → b ≠ lastFrom a l1 → g b = f b) :
    LinkedF g a (l1 ++ nw :: l2) := by
  induction l1 generalizing a with
  | nil =>
    simp only [List.nil_append, lastFrom] at *
    refine ⟨h2, ?_⟩
    cases l2 with
    | nil => simpa [LinkedF] using h1
    | cons b r =>
      simp only [LinkedF] at h
      refine ⟨by simpa using h1, h.2.congr ?_⟩
      intro x hx
      apply h3
      · rintro rfl
        exact hnw (List.mem_cons_of_mem _ hx)
      · rintro rfl
        exact (List.nodup_cons.1 hnd).1 hx
  | cons x r ih =>
    simp only [List.cons_append, LinkedF, lastFrom] at *
    have hnd2 := List.nodup_cons.1 hnd
    refine ⟨?_, ih h.2 hnd2.2 ?_ h2 h3⟩
    · rw [h3 a, h.1]
      · rintro rfl
        exact hnw (by simp)
      · intro hc
        have hm := lastFrom_mem x r
        rw [← hc] at hm
        apply hnd2.1
        rcases List.mem_cons.1 hm with hm | hm
        · simp [hm]
        · exact List.mem_cons_of_mem _ (List.mem_append_left _ hm)
    · intro hc
      exact hnw (List.mem_cons_of_mem _ hc)

/-- Unlinking the cell `c` that follows the last element of `a :: l1`. -/
theorem LinkedF.link_out {f g : Nat → Option (Option Nat)} {a c : Nat} {l1 l2 : List Nat}
    (h : LinkedF f a (l1 ++ c :: l2)) (hnd : (a :: (l1 ++ c :: l2)).Nodup)
    (h2 : g (lastFrom a l1) = f c)
    (h3 : ∀ b, b ≠ lastFrom a l1 → g b = f b) :
    LinkedF g a (l1 ++ l2) := by
  induction l1 generalizing a with
  | nil =>
    simp only [List.nil_append, lastFrom, LinkedF] at *
    have hnd2 := List.nodup_cons.1 hnd
    have hnd3 := List.nodup_cons.1 hnd2.2
    cases l2 with
    | nil =>
      simp only [LinkedF] at h ⊢
      rw [h2, h.2]
    | cons b r =>
      simp only [LinkedF] at h ⊢
      refine ⟨by rw [h2, h.2.1], h.2.2.congr ?_⟩
      intro x hx
      apply h3
      rintro rfl
      exact hnd2.1 (List.mem_cons_of_mem _ hx)
  | cons x r ih =>
    simp only [List.cons_append, LinkedF, lastFrom] at *
    have hnd2 := List.nodup_cons.1 hnd
    refine ⟨?_, ih h.2 hnd2.2 h2 h3⟩
    rw [h3 a, h.1]
    intro hc
    have hm := lastFrom_mem x r
    rw [← hc] at hm
    apply hnd2.1
    rcases List.mem_cons.1 hm with hm | hm
    · simp [hm]
    · exact List.mem_cons_of_mem _ (List.mem_append_left _ hm)

/-! ## The representation invariant -/

theorem atLevel_append (hp : Heap) (i : Nat) (l1 l2 : List Nat) :
    atLevel hp i (l1 ++ l2) = atLevel hp i l1 ++ atLevel hp i l2 := by
  simp [atLevel]

theorem mem_atLevel {hp : Heap} {i a : Nat} {l : List Nat} :
    a ∈ atLevel hp i l ↔ a ∈ l ∧ i < lvl hp a := by
  simp [atLevel]

theorem atLevel_mono {hp : Heap} {i j a : Nat} {l : List Nat} (hij : i ≤ j)
    (h : a ∈ atLevel hp j l) : a ∈ atLevel hp i l := by
  rw [mem_atLevel] at h ⊢
  exact ⟨h.1, by omega⟩

theorem atLevel_zero {hp : Heap} {l : List Nat} (h : ∀ a ∈ l, 0 < lvl hp a) :
    atLevel hp 0 l = l := by
  unfold atLevel
  rw [List.filter_eq_self]
  intro a ha
  simpa using h a ha

theorem atLevel_nil_of_le {hp : Heap} {i : Nat} {l : List Nat} (h : ∀ a ∈ l, lvl hp a ≤ i) :
    atLevel hp i l = [] := by
  unfold atLevel
  rw [List.filter_eq_nil_iff]
  intro a ha
  have := h a ha
  simp
  omega

theorem atLevel_congr {hp hp1 : Heap} {i : Nat} {l : List Nat}
    (h : ∀ a ∈ l, lvl hp1 a = lvl hp a) : atLevel hp1 i l = atLevel hp i l := by
  unfold atLevel
  apply List.filter_congr
  intro a ha
  rw [h a ha]

theorem atLevel_nodup {hp : Heap} {i : Nat} {l : List Nat} (h : l.Nodup) :
    (atLevel hp i l).Nodup := h.filter _

theorem Inv.nodup {s : SkipList} {ns : List Nat} (h : Inv s ns) : ns.Nodup := by
  have := h.sorted
  unfold List.Nodup
  refine this.imp ?_
  intro a b hab hc
  rw [hc] at hab
  exact lt_irrefl _ hab

theorem Inv.live {s : SkipList} {ns : List Nat} (h : Inv s ns) : ∀ a ∈ ns, 0 < lvl s.heap a :=
  fun a ha => (h.lv a ha).1

theorem Inv.head_nodup {s : SkipList} {ns : List Nat} (h : Inv s ns) (i : Nat) :
    (head :: atLevel s.heap i ns).Nodup := by
  refine List.nodup_cons.2 ⟨?_, atLevel_nodup h.nodup⟩
  intro hc
  exact h.nz (mem_atLevel.1 hc).1

theorem lvl_pos_getNode {hp : Heap} {a : Nat} (h : 0 < lvl hp a) :
    ∃ n, getNode hp a = some n ∧ valOf hp a = n.val ∧ cntOf hp a = n.count ∧
      lvl hp a = n.next.length := by
  unfold lvl at h
  cases hg : getNode hp a with
  | none => simp [hg] at h
  | some n => exact ⟨n, rfl, by simp [valOf, hg], by simp [cntOf, hg], by simp [lvl, hg]⟩

/-! ## The descent -/

theorem advance_spec (adv : Int → Bool) (hp : Heap) (i : Nat) :
    ∀ (l : List Nat) (a fuel : Nat), Linked hp i a l → (∀ b ∈ l, 0 < lvl hp b) →
      l.length < fuel → advance adv hp i fuel a = some (lastBefore adv hp a l) := by
  intro l
  induction l with
  | nil =>
    intro a fuel hl _ hf
    cases fuel with
    | zero => simp at hf
    | succ f =>
      simp only [Linked, LinkedF] at hl
      simp [advance, hl, lastBefore]
  | cons b r ih =>
    intro a fuel hl hlive hf
    cases fuel with
    | zero => simp at hf
    | succ f =>
      simp only [Linked, LinkedF] at hl
      obtain ⟨n, hg, hv, -, -⟩ := lvl_pos_getNode (hlive b (by simp))
      simp only [advance, hl.1, hg, lastBefore, hv]
      by_cases hadv : adv n.val = true
      · simp only [hadv, if_true]
        apply ih b f hl.2
        · intro x hx
          exact hlive x (List.mem_cons_of_mem _ hx)
        · simpa using hf
      · simp [hadv]

theorem lastBefore_append (adv : Int → Bool) (hp : Heap) (a : Nat) (l1 l2 : List Nat)
    (h1 : ∀ b ∈ l1, adv (valOf hp b) = true) (h2 : ∀ b ∈ l2, adv (valOf hp b) = false) :
    lastBefore adv hp a (l1 ++ l2) = lastFrom a l1 := by
  induction l1 generalizing a with
  | nil =>
    cases l2 with
    | nil => rfl
    | cons b r => simp [lastBefore, lastFrom, h2 b (by simp)]
  | cons x r ih =>
    simp only [List.cons_append, lastBefore, lastFrom, h1 x (by simp), if_true]
    apply ih
    intro b hb
    exact h1 b (List.mem_cons_of_mem _ hb)

theorem upd_at_mem (hp : Heap) (pre : List Nat) (i : Nat) :
    upd_at hp pre i ∈ head :: atLevel hp i pre := lastFrom_mem _ _

theorem advance_level {adv : Int → Bool} {hp : Heap} {pre post : List Nat}
    (c : Ctx adv hp pre post) {i : Nat} (hi : i ≤ MAX_HEIGHT) {a : Nat}
    (ha : a ∈ head :: atLevel hp i pre) :
    advance adv hp i hp.length a = some (upd_at hp pre i) := by
  obtain ⟨l1, l2, hs⟩ := List.append_of_mem ha
  have hl := c.linked i hi
  rw [atLevel_append] at hl
  have hs2 : head :: (atLevel hp i pre ++ atLevel hp i post)
      = l1 ++ a :: (l2 ++ atLevel hp i post) := by
    rw [← List.cons_append, hs]
    simp
  have hsuf : Linked hp i a (l2 ++ atLevel hp i post) := LinkedF.suffix hl hs2
  have hsub : ∀ b ∈ l2, b ∈ atLevel hp i pre := by
    intro b hb
    cases l1 with
    | nil =>
      simp only [List.nil_append, List.cons.injEq] at hs
      rw [hs.2]
      exact hb
    | cons x r =>
      simp only [List.cons_append, List.cons.injEq] at hs
      rw [hs.2]
      simp [hb]
  have hlen2 : l2.length ≤ pre.length := by
    have h1 : l2.length ≤ (head :: atLevel hp i pre).length - 1 := by
      rw [hs]
      simp
    have h2 : (atLevel hp i pre).length ≤ pre.length := List.length_filter_le _ _
    simp only [List.length_cons] at h1
    omega
  have hlen3 : (atLevel hp i post).length ≤ post.length := List.length_filter_le _ _
  have hfuel : (l2 ++ atLevel hp i post).length < hp.length := by
    have := c.len
    simp only [List.length_append] at this ⊢
    omega
  rw [advance_spec adv hp i _ a hp.length hsuf ?_ hfuel]
  · rw [lastBefore_append, upd_at, lastFrom_split hs]
    · intro b hb
      exact c.hpre b (mem_atLevel.1 (hsub b hb)).1
    · intro b hb
      exact c.hpost b (mem_atLevel.1 hb).1
  · intro b hb
    rcases List.mem_append.1 hb with h | h
    · exact c.live b (List.mem_append_left _ (mem_atLevel.1 (hsub b h)).1)
    · exact c.live b (List.mem_append_right _ (mem_atLevel.1 h).1)

theorem upd_at_mem_below (hp : Heap) (pre : List Nat) {i j : Nat} (hij : i ≤ j) :
    upd_at hp pre j ∈ head :: atLevel hp i pre := by
  rcases List.mem_cons.1 (upd_at_mem hp pre j) with h | h
  · rw [h]
    simp
  · exact List.mem_cons_of_mem _ (atLevel_mono hij h)

theorem search_spec {adv : Int → Bool} {hp : Heap} {pre post : List Nat}
    (c : Ctx adv hp pre post) :
    ∀ (n a : Nat), n ≤ MAX_HEIGHT → a ∈ head :: atLevel hp n pre →
      search adv hp (n + 1) a = some (upd_at hp pre 0) := by
  intro n
  induction n with
  | zero =>
    intro a hn ha
    simp [search, advance_level c hn ha]
  | succ n ih =>
    intro a hn ha
    rw [search, advance_level c hn ha]
    exact ih _ (by omega) (upd_at_mem_below hp pre (Nat.le_succ n))

theorem setUpd_some {upd : List (Option Nat)} {i : Nat} (c : Nat) (h : i < upd.length) :
    setUpd upd i c = some (upd.set i (some c)) := by
  simp [setUpd, h]

theorem getUpd_set (upd : List (Option Nat)) (i j c : Nat) (h : i < upd.length) :
    getUpd (upd.set i (some c)) j = if j = i then some c else getUpd upd j := by
  unfold getUpd
  by_cases hj : j = i
  · subst hj
    simp [h]
  · have : i ≠ j := fun h => hj h.symm
    simp [hj, List.getElem?_set_ne this]

theorem descend_spec {adv : Int → Bool} {hp : Heap} {pre post : List Nat}
    (c : Ctx adv hp pre post) :
    ∀ (n a : Nat) (upd : List (Option Nat)), n ≤ MAX_HEIGHT → upd.length = MAX_HEIGHT + 1 →
      a ∈ head :: atLevel hp n pre →
      ∃ upd1, descend adv hp (n + 1) a upd = some (upd_at hp pre 0, upd1) ∧
        upd1.length = MAX_HEIGHT + 1 ∧
        (∀ i, i ≤ n → getUpd upd1 i = some (upd_at hp pre i)) ∧
        (∀ i, n < i → getUpd upd1 i = getUpd upd i) := by
  intro n
  induction n with
  | zero =>
    intro a upd hn hlen ha
    have h0 : 0 < upd.length := by rw [hlen]; simp [MAX_HEIGHT]
    refine ⟨upd.set 0 (some (upd_at hp pre 0)), ?_, by simpa using hlen, ?_, ?_⟩
    · simp [descend, advance_level c hn ha, setUpd_some _ h0]
    · intro i hi
      have : i = 0 := by omega
      subst this
      simp [getUpd_set _ _ _ _ h0]
    · intro i hi
      have : i ≠ 0 := by omega
      simp [getUpd_set _ _ _ _ h0, this]
  | succ n ih =>
    intro a upd hn hlen ha
    have h0 : n + 1 < upd.length := by rw [hlen]; omega
    obtain ⟨upd1, hd, hl1, hle, hgt⟩ :=
      ih (upd_at hp pre (n + 1)) (upd.set (n + 1) (some (upd_at hp pre (n + 1)))) (by omega)
        (by simpa using hlen) (upd_at_mem_below hp pre (Nat.le_succ n))
    refine ⟨upd1, ?_, hl1, ?_, ?_⟩
    · rw [descend, advance_level c hn ha]
      simp only [setUpd_some _ h0]
      exact hd
    · intro i hi
      by_cases hin : i ≤ n
      · exact hle i hin
      · have : i = n + 1 := by omega
        subst this
        rw [hgt _ (by omega), getUpd_set _ _ _ _ h0]
        simp
    · intro i hi
      rw [hgt i (by omega), getUpd_set _ _ _ _ h0]
      have : i ≠ n + 1 := by omega
      simp [this]

/-! ## Splitting the sorted chain at a target -/

theorem split_sorted (adv : Int → Bool)
    (hmono : ∀ x y : Int, x < y → adv y = true → adv x = true) (hp : Heap) :
    ∀ ns : List Nat, (ns.Pairwise fun a b => valOf hp a < valOf hp b) →
      ∃ pre post, ns = pre ++ post ∧ (∀ a ∈ pre, adv (valOf hp a) = true) ∧
        (∀ a ∈ post, adv (valOf hp a) = false) := by
  intro ns
  induction ns with
  | nil =>
    intro _
    exact ⟨[], [], rfl, by simp, by simp⟩
  | cons x r ih =>
    intro hs
    rw [List.pairwise_cons] at hs
    by_cases hx : adv (valOf hp x) = true
    · obtain ⟨pre, post, he, h1, h2⟩ := ih hs.2
      refine ⟨x :: pre, post, by rw [he]; rfl, ?_, h2⟩
      intro a ha
      rcases List.mem_cons.1 ha with h | h
      · rw [h]; exact hx
      · exact h1 a h
    · refine ⟨[], x :: r, rfl, by simp, ?_⟩
      intro a ha
      rcases List.mem_cons.1 ha with h | h
      · rw [h]; simpa using hx
      · by_contra hc
        exact hx (hmono _ _ (hs.1 a h) (by simpa using hc))

theorem comp_mono (v : Int) : ∀ x y : Int, x < y → comp y v = true → comp x v = true := by
  intro x y hxy h
  simp only [comp, decide_eq_true_eq] at h ⊢
  omega

theorem ncomp_mono (v : Int) :
    ∀ x y : Int, x < y → (!comp v y) = true → (!comp v x) = true := by
  intro x y hxy h
  simp only [comp, Bool.not_eq_true', decide_eq_false_iff_not] at h ⊢
  omega

theorem Inv.ctx {s : SkipList} {pre post : List Nat} (h : Inv s (pre ++ post))
    {t : Int → Bool} (h1 : ∀ a ∈ pre, t (valOf s.heap a) = true)
    (h2 : ∀ a ∈ post, t (valOf s.heap a) = false) : Ctx t s.heap pre post :=
  ⟨h.linked, h1, h2, h.live, h.len⟩

theorem upd_at_zero {s : SkipList} {pre post : List Nat} (h : Inv s (pre ++ post)) :
    upd_at s.heap pre 0 = lastFrom head pre := by
  unfold upd_at
  rw [atLevel_zero]
  intro a ha
  exact h.live a (List.mem_append_left _ ha)

theorem Inv.next_zero {s : SkipList} {pre post : List Nat} (h : Inv s (pre ++ post)) :
    readNext s.heap (lastFrom head pre) 0 = some post.head? := by
  have hl := h.linked 0 (Nat.zero_le _)
  rw [atLevel_zero h.live] at hl
  exact LinkedF.next_last hl

theorem Inv.search_eq {s : SkipList} {pre post : List Nat} (h : Inv s (pre ++ post))
    {t : Int → Bool} (h1 : ∀ a ∈ pre, t (valOf s.heap a) = true)
    (h2 : ∀ a ∈ post, t (valOf s.heap a) = false) :
    search t s.heap (s.curr_height + 1) head = some (lastFrom head pre) := by
  rw [search_spec (h.ctx h1 h2) s.curr_height head h.ch (by simp), upd_at_zero h]

theorem Inv.descend_eq {s : SkipList} {pre post : List Nat} (h : Inv s (pre ++ post))
    {t : Int → Bool} (h1 : ∀ a ∈ pre, t (valOf s.heap a) = true)
    (h2 : ∀ a ∈ post, t (valOf s.heap a) = false) :
    ∃ upd, descend t s.heap (s.curr_height + 1) head updateInit
        = some (lastFrom head pre, upd) ∧
      upd.length = MAX_HEIGHT + 1 ∧
      (∀ i, i ≤ s.curr_height → getUpd upd i = some (upd_at s.heap pre i)) ∧
      (∀ i, s.curr_height < i → getUpd upd i = none) := by
  obtain ⟨upd, hd, hl, hle, hgt⟩ :=
    descend_spec (h.ctx h1 h2) s.curr_height head updateInit h.ch (by simp [updateInit])
      (by simp)
  refine ⟨upd, by rw [hd, upd_at_zero h], hl, hle, ?_⟩
  intro i hi
  rw [hgt i hi]
  simp only [getUpd, updateInit]
  by_cases hlt : i < MAX_HEIGHT + 1
  · rw [List.getElem?_eq_getElem (by simpa using hlt)]
    simp
  · rw [List.getElem?_eq_none (by simpa using hlt)]
    rfl

/-! ## The queries on a split chain -/

theorem Inv.post_node {s : SkipList} {pre post : List Nat} (h : Inv s (pre ++ post))
    {c : Nat} (hc : c ∈ post) :
    ∃ n, getNode s.heap c = some n ∧ valOf s.heap c = n.val ∧ cntOf s.heap c = n.count ∧
      lvl s.heap c = n.next.length :=
  lvl_pos_getNode (h.live c (List.mem_append_right _ hc))

theorem Inv.find_eq {s : SkipList} {pre post : List Nat} (h : Inv s (pre ++ post)) (v : Int)
    (h1 : ∀ a ∈ pre, valOf s.heap a < v) (h2 : ∀ a ∈ post, v ≤ valOf s.heap a) :
    find s v = some (match post.head? with
      | none => false
      | some c => decide (valOf s.heap c = v)) := by
  have hs := h.search_eq (t := fun x => comp x v)
    (by intro a ha; simpa [comp] using h1 a ha)
    (by intro a ha; simpa [comp] using h2 a ha)
  unfold find
  simp only [hs, h.next_zero]
  cases post with
  | nil => rfl
  | cons c r =>
    obtain ⟨n, hg, hv, -, -⟩ := h.post_node (c := c) (by simp)
    simp only [List.head?_cons, hg, hv]
    congr 1
    rw [Bool.eq_iff_iff, equal_iff]
    simp

theorem Inv.count_eq {s : SkipList} {pre post : List Nat} (h : Inv s (pre ++ post)) (v : Int)
    (h1 : ∀ a ∈ pre, valOf s.heap a < v) (h2 : ∀ a ∈ post, v ≤ valOf s.heap a) :
    count_occurrence s v = some (match post.head? with
      | none => 0
      | some c => if valOf s.heap c = v then cntOf s.heap c else 0) := by
  have hs := h.search_eq (t := fun x => comp x v)
    (by intro a ha; simpa [comp] using h1 a ha)
    (by intro a ha; simpa [comp] using h2 a ha)
  unfold count_occurrence
  simp only [hs, h.next_zero]
  cases post with
  | nil => rfl
  | cons c r =>
    obtain ⟨n, hg, hv, hc, -⟩ := h.post_node (c := c) (by simp)
    simp only [List.head?_cons, hg, hv, hc]
    congr 1
    by_cases he : n.val = v
    · subst he
      simp [(equal_iff n.val n.val).2 rfl]
    · have : equal n.val v = false := by
        rw [← Bool.not_eq_true, equal_iff]
        exact he
      simp [he, this]

theorem Inv.lower_eq {s : SkipList} {pre post : List Nat} (h : Inv s (pre ++ post)) (v : Int)
    (h1 : ∀ a ∈ pre, valOf s.heap a < v) (h2 : ∀ a ∈ post, v ≤ valOf s.heap a) :
    lower_bound s v = some (match post.head? with
      | none => 0
      | some c => valOf s.heap c) := by
  have hs := h.search_eq (t := fun x => comp x v)
    (by intro a ha; simpa [comp] using h1 a ha)
    (by intro a ha; simpa [comp] using h2 a ha)
  unfold lower_bound
  simp only [hs, h.next_zero]
  cases post with
  | nil => rfl
  | cons c r =>
    obtain ⟨n, hg, hv, -, -⟩ := h.post_node (c := c) (by simp)
    simp only [List.head?_cons, hg, hv]

theorem Inv.upper_eq {s : SkipList} {pre post : List Nat} (h : Inv s (pre ++ post)) (v : Int)
    (h1 : ∀ a ∈ pre, valOf s.heap a ≤ v) (h2 : ∀ a ∈ post, v < valOf s.heap a) :
    upper_bound s v = some (match post.head? with
      | none => 0
      | some c => valOf s.heap c) := by
  have hs := h.search_eq (t := fun x => !comp v x)
    (by intro a ha; simpa [comp] using h1 a ha)
    (by intro a ha; simpa [comp] using h2 a ha)
  unfold upper_bound
  simp only [hs, h.next_zero]
  cases post with
  | nil => rfl
  | cons c r =>
    obtain ⟨n, hg, hv, -, -⟩ := h.post_node (c := c) (by simp)
    simp only [List.head?_cons, hg, hv]

/-! ## The traversals -/

theorem chainFrom_spec (hp : Heap) (i : Nat) :
    ∀ (l : List Nat) (a fuel : Nat), Linked hp i a l → l.length < fuel →
      chainFrom hp i fuel l.head? = some l := by
  intro l
  induction l with
  | nil =>
    intro a fuel _ hf
    cases fuel with
    | zero => simp at hf
    | succ f => rfl
  | cons b r ih =>
    intro a fuel hl hf
    cases fuel with
    | zero => simp at hf
    | succ f =>
      simp only [Linked, LinkedF] at hl
      have hb : readNext hp b i = some r.head? :=
        LinkedF.head_eq (f := fun x => readNext hp x i) hl.2
      simp only [List.head?_cons, chainFrom, hb]
      rw [ih b f hl.2 (by simpa using hf)]

theorem Inv.level_eq {s : SkipList} {ns : List Nat} (h : Inv s ns) {i : Nat}
    (hi : i ≤ MAX_HEIGHT) : level s i = some (atLevel s.heap i ns) := by
  have hl := h.linked i hi
  unfold level
  have hh : readNext s.heap head i = some (atLevel s.heap i ns).head? :=
    LinkedF.head_eq (f := fun x => readNext s.heap x i) hl
  rw [hh]
  apply chainFrom_spec _ _ _ head _ hl
  have : (atLevel s.heap i ns).length ≤ ns.length := List.length_filter_le _ _
  have := h.len
  omega

theorem nodesAt_spec (hp : Heap) :
    ∀ l : List Nat, (∀ a ∈ l, 0 < lvl hp a) →
      ∃ ns, nodesAt hp l = some ns ∧ ns.map (fun n => n.val) = l.map (valOf hp) ∧
        ns.map (fun n => (n.val, n.count)) = absList hp l := by
  intro l
  induction l with
  | nil =>
    intro _
    exact ⟨[], rfl, rfl, rfl⟩
  | cons a r ih =>
    intro hl
    obtain ⟨ns, h1, h2, h3⟩ := ih (fun x hx => hl x (List.mem_cons_of_mem _ hx))
    obtain ⟨n, hg, hv, hc, -⟩ := lvl_pos_getNode (hl a (by simp))
    refine ⟨n :: ns, by simp [nodesAt, hg, h1], by simp [h2, hv], ?_⟩
    simp only [absList, List.map_cons, hv, hc] at h3 ⊢
    rw [h3]

theorem Inv.levelVals_eq {s : SkipList} {ns : List Nat} (h : Inv s ns) {i : Nat}
    (hi : i ≤ MAX_HEIGHT) : levelVals s i = some ((atLevel s.heap i ns).map (valOf s.heap)) := by
  obtain ⟨l, h1, h2, -⟩ := nodesAt_spec s.heap (atLevel s.heap i ns)
    (fun a ha => h.live a (mem_atLevel.1 ha).1)
  simp [levelVals, levelNodes, h.level_eq hi, h1, h2]

theorem Inv.values_eq {s : SkipList} {ns : List Nat} (h : Inv s ns) :
    values s = some (ns.map (valOf s.heap)) := by
  unfold values
  rw [h.levelVals_eq (Nat.zero_le _), atLevel_zero h.live]

/-! ## Frame lemmas -/

theorem Linked.congr_read {hp hp1 : Heap} {i a : Nat} {l : List Nat} (h : Linked hp i a l)
    (hc : ∀ b ∈ a :: l, readNext hp1 b i = readNext hp b i) : Linked hp1 i a l :=
  LinkedF.congr (f := fun b => readNext hp b i) (g := fun b => readNext hp1 b i) h hc

theorem Linked.read_last {hp : Heap} {i a : Nat} {l1 l2 : List Nat}
    (h : Linked hp i a (l1 ++ l2)) : readNext hp (lastFrom a l1) i = some l2.head? :=
  LinkedF.next_last (f := fun b => readNext hp b i) h

theorem Linked.read_head {hp : Heap} {i a : Nat} {l : List Nat}
    (h : Linked hp i a l) : readNext hp a i = some l.head? :=
  LinkedF.head_eq (f := fun b => readNext hp b i) h

theorem valOf_append_lt (hp : Heap) (x : Option Node) {b : Nat} (h : b < hp.length) :
    valOf (hp ++ [x]) b = valOf hp b := by
  simp [valOf, getNode_append_lt hp x h]

theorem cntOf_append_lt (hp : Heap) (x : Option Node) {b : Nat} (h : b < hp.length) :
    cntOf (hp ++ [x]) b = cntOf hp b := by
  simp [cntOf, getNode_append_lt hp x h]

theorem lvl_append_lt (hp : Heap) (x : Option Node) {b : Nat} (h : b < hp.length) :
    lvl (hp ++ [x]) b = lvl hp b := by
  simp [lvl, getNode_append_lt hp x h]

theorem readNext_append_lt (hp : Heap) (x : Option Node) {b : Nat} (h : b < hp.length)
    (j : Nat) : readNext (hp ++ [x]) b j = readNext hp b j := by
  simp [readNext, getNode_append_lt hp x h]

theorem lvl_pos_lt {hp : Heap} {a : Nat} (h : 0 < lvl hp a) : a < hp.length := by
  obtain ⟨n, hg, -⟩ := lvl_pos_getNode h
  exact getNode_lt hg

theorem Inv.lt_length {s : SkipList} {ns : List Nat} (h : Inv s ns) {a : Nat} (ha : a ∈ ns) :
    a < s.heap.length := lvl_pos_lt (h.live a ha)

theorem Inv.head_lt {s : SkipList} {ns : List Nat} (h : Inv s ns) : head < s.heap.length :=
  lvl_pos_lt (by rw [h.head_lvl]; simp)

/-- The invariant only looks at the observations `valOf`, `cntOf`, `lvl`, `readNext`. -/
theorem Inv.transport {s t : SkipList} {ns : List Nat} (h : Inv s ns)
    (hch : t.curr_height = s.curr_height) (hlen : t.heap.length = s.heap.length)
    (hval : ∀ b, valOf t.heap b = valOf s.heap b)
    (hlvl : ∀ b, lvl t.heap b = lvl s.heap b)
    (hnext : ∀ b j, readNext t.heap b j = readNext s.heap b j)
    (hcnt0 : cntOf t.heap head = 0) (hcnt : ∀ a ∈ ns, 1 ≤ cntOf t.heap a) : Inv t ns := by
  have hat : ∀ i, atLevel t.heap i ns = atLevel s.heap i ns :=
    fun i => atLevel_congr (fun a _ => hlvl a)
  refine ⟨by rw [hlvl, h.head_lvl], hcnt0, by rw [hch]; exact h.ch, by rw [hlen]; exact h.len,
    h.nz, ?_, hcnt, ?_, ?_, ?_⟩
  · intro a ha
    rw [hlvl, hch]
    exact h.lv a ha
  · refine h.sorted.imp ?_
    intro a b hab
    rw [hval, hval]
    exact hab
  · intro i hi
    rw [hat]
    exact (h.linked i hi).congr_read (fun b _ => hnext b i)
  · rcases h.top with ht | ⟨a, ha, hl⟩
    · left
      rw [hch, ht]
    · right
      exact ⟨a, ha, by rw [hlvl, hch, hl]⟩

/-! ## `insert` on a value that is already stored -/

theorem Inv.insert_dup {s : SkipList} {pre r : List Nat} {c : Nat}
    (h : Inv s (pre ++ c :: r)) (v : Int) (height : Nat)
    (h1 : ∀ a ∈ pre, valOf s.heap a < v) (hc : valOf s.heap c = v) :
    ∃ n, getNode s.heap c = some n ∧
      insert s v height
        = some { s with heap := s.heap.set c (some { n with count := n.count + 1 }) } ∧
      Inv { s with heap := s.heap.set c (some { n with count := n.count + 1 }) }
        (pre ++ c :: r) ∧
      (∀ b, valOf (s.heap.set c (some { n with count := n.count + 1 })) b = valOf s.heap b) ∧
      (∀ b, cntOf (s.heap.set c (some { n with count := n.count + 1 })) b
        = if b = c then cntOf s.heap b + 1 else cntOf s.heap b) := by
  have h2 : ∀ a ∈ c :: r, v ≤ valOf s.heap a := by
    intro a ha
    rcases List.mem_cons.1 ha with e | e
    · rw [e, hc]
    · have := (List.pairwise_append.1 h.sorted).2.1
      rw [List.pairwise_cons] at this
      have := this.1 a e
      omega
  obtain ⟨upd, hd, -⟩ := h.descend_eq (t := fun x => comp x v)
    (by intro a ha; simpa [comp] using h1 a ha)
    (by intro a ha; simpa [comp] using h2 a ha)
  obtain ⟨n, hg, hv, hcn, hl⟩ := h.post_node (c := c) (by simp)
  have hclt := getNode_lt hg
  have heq : equal n.val v = true := by
    rw [equal_iff, ← hv, hc]
  have hval : ∀ b, valOf (s.heap.set c (some { n with count := n.count + 1 })) b
      = valOf s.heap b := by
    intro b
    by_cases hb : b = c
    · subst hb
      simp [valOf, getNode_set _ _ _ _ hclt, hg]
    · simp [valOf, getNode_set _ _ _ _ hclt, hb]
  have hcnt : ∀ b, cntOf (s.heap.set c (some { n with count := n.count + 1 })) b
      = if b = c then cntOf s.heap b + 1 else cntOf s.heap b := by
    intro b
    by_cases hb : b = c
    · subst hb
      simp [cntOf, getNode_set _ _ _ _ hclt, hg]
    · simp [cntOf, getNode_set _ _ _ _ hclt, hb]
  refine ⟨n, hg, ?_, ?_, hval, hcnt⟩
  · unfold insert
    simp only [hd, h.next_zero, List.head?_cons, hg, heq, if_true]
  · have hne : head ≠ c := by
      intro e
      apply h.nz
      rw [e]
      simp
    apply h.transport (t := { s with heap := s.heap.set c (some { n with count := n.count + 1 }) })
      rfl (by simp) hval
    · intro b
      by_cases hb : b = c
      · subst hb
        simp [lvl, getNode_set _ _ _ _ hclt, hg]
      · simp [lvl, getNode_set _ _ _ _ hclt, hb]
    · intro b j
      by_cases hb : b = c
      · subst hb
        simp [readNext, getNode_set _ _ _ _ hclt, hg]
      · simp [readNext, getNode_set _ _ _ _ hclt, hb]
    · show cntOf (s.heap.set c _) head = 0
      rw [hcnt, if_neg hne, h.head_cnt]
    · intro a ha
      show 1 ≤ cntOf (s.heap.set c _) a
      rw [hcnt]
      have := h.cnt a ha
      split <;> omega

/-! ## `insert` of a new value -/

theorem fillHead_spec :
    ∀ (n i : Nat) (upd : List (Option Nat)), i + n ≤ upd.length →
      ∃ upd1, fillHead upd i n = some upd1 ∧ upd1.length = upd.length ∧
        (∀ j, i ≤ j → j < i + n → getUpd upd1 j = some head) ∧
        (∀ j, j < i → getUpd upd1 j = getUpd upd j) := by
  intro n
  induction n with
  | zero =>
    intro i upd _
    exact ⟨upd, rfl, rfl, by intro j h1 h2; omega, fun _ _ => rfl⟩
  | succ n ih =>
    intro i upd hlen
    have hi : i < upd.length := by omega
    obtain ⟨upd1, hf, hl, h1, h2⟩ := ih (i + 1) (upd.set i (some head)) (by simp; omega)
    refine ⟨upd1, ?_, by simpa using hl, ?_, ?_⟩
    · simp only [fillHead, setUpd_some _ hi]
      exact hf
    · intro j hj1 hj2
      by_cases hji : j = i
      · subst hji
        rw [h2 j (by omega), getUpd_set _ _ _ _ hi]
        simp
      · exact h1 j (by omega) (by omega)
    · intro j hj
      rw [h2 j (by omega), getUpd_set _ _ _ _ hi]
      have : j ≠ i := by omega
      simp [this]

theorem splice_spec {hp0 : Heap} {pre post : List Nat} {nw height : Nat}
    {upd : List (Option Nat)}
    (hlink : ∀ j, j ≤ height → Linked hp0 j head (atLevel hp0 j pre ++ atLevel hp0 j post))
    (hnd : ∀ j, (head :: (atLevel hp0 j pre ++ atLevel hp0 j post)).Nodup)
    (hnw : nw ∉ head :: (pre ++ post))
    (hupd : ∀ j, j ≤ height → getUpd upd j = some (lastFrom head (atLevel hp0 j pre)))
    (hlnw : lvl hp0 nw = height + 1)
    (hlu : ∀ j, j ≤ height → j < lvl hp0 (lastFrom head (atLevel hp0 j pre))) :
    ∀ (n i : Nat) (hpi : Heap), i + n = height + 1 → SpliceInv hp0 pre post nw i hpi →
      ∃ hp1, splice upd nw hpi i n = some hp1 ∧ SpliceInv hp0 pre post nw (height + 1) hp1 := by
  intro n
  induction n with
  | zero =>
    intro i hpi hin inv
    have : i = height + 1 := by omega
    subst this
    exact ⟨hpi, rfl, inv⟩
  | succ n ih =>
    intro i hpi hin inv
    have hi : i ≤ height := by omega
    have hnwi : nw ∉ head :: (atLevel hp0 i pre ++ atLevel hp0 i post) := by
      intro hc
      apply hnw
      rcases List.mem_cons.1 hc with e | e
      · rw [e]; simp
      · apply List.mem_cons_of_mem
        rcases List.mem_append.1 e with e | e
        · exact List.mem_append_left _ (mem_atLevel.1 e).1
        · exact List.mem_append_right _ (mem_atLevel.1 e).1
    have hune : nw ≠ lastFrom head (atLevel hp0 i pre) := by
      intro e
      apply hnwi
      rw [e]
      rcases List.mem_cons.1 (lastFrom_mem head (atLevel hp0 i pre)) with m | m
      · rw [m]; simp
      · exact List.mem_cons_of_mem _ (List.mem_append_left _ m)
    have hr : readNext hpi (lastFrom head (atLevel hp0 i pre)) i
        = some (atLevel hp0 i post).head? := by
      rw [inv.untouched _ i (le_refl _)]
      exact (hlink i hi).read_last
    obtain ⟨hp1, hw1⟩ := writeNext_some (m := hpi) (a := nw) (i := i)
      (atLevel hp0 i post).head? (by rw [inv.shape.lvl, hlnw]; omega)
    obtain ⟨hp2, hw2⟩ := writeNext_some (m := hp1)
      (a := lastFrom head (atLevel hp0 i pre)) (i := i) (some nw)
      (by rw [(writeNext_shape hw1).lvl, inv.shape.lvl]; exact hlu i hi)
    have hstep : splice upd nw hpi i (n + 1) = splice upd nw hp2 (i + 1) n := by
      simp only [splice, hupd i hi, hr, hw1, hw2]
    rw [hstep]
    apply ih (i + 1) hp2 (by omega)
    refine ⟨inv.shape.trans ((writeNext_shape hw1).trans (writeNext_shape hw2)), ?_, ?_⟩
    · intro b j hj
      have hji : j ≠ i := by omega
      rw [writeNext_read hw2, writeNext_read hw1]
      simp only [hji, and_false, if_false]
      exact inv.untouched b j (by omega)
    · intro j hj
      by_cases hji : j = i
      · subst hji
        have hl : Linked hpi j head (atLevel hp0 j pre ++ atLevel hp0 j post) :=
          (hlink j hi).congr_read (fun b _ => inv.untouched b j (le_refl _))
        apply LinkedF.link_in (f := fun b => readNext hpi b j)
          (g := fun b => readNext hp2 b j) hl (hnd j) hnwi
        · show readNext hp2 nw j = _
          rw [writeNext_read hw2, writeNext_read hw1]
          simp [hune]
        · show readNext hp2 _ j = _
          rw [writeNext_read hw2]
          simp
        · intro b hb1 hb2
          show readNext hp2 b j = readNext hpi b j
          rw [writeNext_read hw2, writeNext_read hw1]
          simp [hb1, hb2]
      · apply (inv.done j (by omega)).congr_read
        intro b _
        rw [writeNext_read hw2, writeNext_read hw1]
        simp [hji]

theorem Inv.insert_fresh {s : SkipList} {pre post : List Nat} (h : Inv s (pre ++ post))
    (v : Int) (height : Nat) (hh : height ≤ MAX_HEIGHT)
    (h1 : ∀ a ∈ pre, valOf s.heap a < v) (h2 : ∀ a ∈ post, v < valOf s.heap a) :
    ∃ s1, insert s v height = some s1 ∧ Inv s1 (pre ++ s.heap.length :: post) ∧
      s1.heap.length = s.heap.length + 1 ∧
      s1.curr_height = max s.curr_height height ∧
      valOf s1.heap s.heap.length = v ∧ cntOf s1.heap s.heap.length = 1 ∧
      lvl s1.heap s.heap.length = height + 1 ∧
      (∀ b, b < s.heap.length → valOf s1.heap b = valOf s.heap b ∧
        cntOf s1.heap b = cntOf s.heap b ∧ lvl s1.heap b = lvl s.heap b) := by
  have hold : ∀ a ∈ pre ++ post, a < s.heap.length := fun a ha => h.lt_length ha
  have hhead := h.head_lt
  have hnode : getNode (s.heap ++ [some ⟨v, 1, List.replicate (height + 1) none⟩])
      s.heap.length = some ⟨v, 1, List.replicate (height + 1) none⟩ :=
    getNode_append_eq _ _
  generalize hnd0 : (some ⟨v, 1, List.replicate (height + 1) none⟩ : Option Node) = nd
    at hnode
  have hat : ∀ j (l : List Nat), (∀ a ∈ l, a < s.heap.length) →
      atLevel (s.heap ++ [nd]) j l = atLevel s.heap j l :=
    fun j l hl => atLevel_congr (fun a ha => lvl_append_lt _ _ (hl a ha))
  have hpre_old : ∀ a ∈ pre, a < s.heap.length :=
    fun a ha => hold a (List.mem_append_left _ ha)
  have hpost_old : ∀ a ∈ post, a < s.heap.length :=
    fun a ha => hold a (List.mem_append_right _ ha)
  have hlnw : lvl (s.heap ++ [nd]) s.heap.length = height + 1 := by
    unfold lvl
    rw [hnode, ← hnd0]
    simp
  have hvnw : valOf (s.heap ++ [nd]) s.heap.length = v := by
    unfold valOf
    rw [hnode, ← hnd0]
  have hcnw : cntOf (s.heap ++ [nd]) s.heap.length = 1 := by
    unfold cntOf
    rw [hnode, ← hnd0]
  have hpostle : ∀ a ∈ post, v ≤ valOf s.heap a := fun a ha => le_of_lt (h2 a ha)
  obtain ⟨upd, hd, hul, hule, -⟩ := h.descend_eq (t := fun x => comp x v)
    (by intro a ha; simpa [comp] using h1 a ha)
    (by intro a ha; simpa [comp] using hpostle a ha)
  have hfill : ∃ upd1, (if height > s.curr_height
        then fillHead upd (s.curr_height + 1) (height - s.curr_height)
        else some upd) = some upd1 ∧
      ∀ j, j ≤ height →
        getUpd upd1 j = some (lastFrom head (atLevel (s.heap ++ [nd]) j pre)) := by
    by_cases hgt : height > s.curr_height
    · obtain ⟨upd1, hf, -, hin, hlo⟩ :=
        fillHead_spec (height - s.curr_height) (s.curr_height + 1) upd
          (by rw [hul]; omega)
      refine ⟨upd1, by simp [hgt, hf], ?_⟩
      intro j hj
      rw [hat j pre hpre_old]
      by_cases hjc : j ≤ s.curr_height
      · rw [hlo j (by omega), hule j hjc]
        rfl
      · rw [hin j (by omega) (by omega), atLevel_nil_of_le]
        · rfl
        · intro a ha
          have := (h.lv a (List.mem_append_left _ ha)).2
          omega
    · refine ⟨upd, by simp [hgt], ?_⟩
      intro j hj
      rw [hat j pre hpre_old, hule j (by omega)]
      rfl
  obtain ⟨upd1, hfill, hupd⟩ := hfill
  have hlink : ∀ j, j ≤ MAX_HEIGHT → Linked (s.heap ++ [nd]) j head
      (atLevel (s.heap ++ [nd]) j pre ++ atLevel (s.heap ++ [nd]) j post) := by
    intro j hj
    rw [hat j pre hpre_old, hat j post hpost_old, ← atLevel_append]
    apply (h.linked j hj).congr_read
    intro b hb
    apply readNext_append_lt
    rcases List.mem_cons.1 hb with e | e
    · rw [e]; exact hhead
    · exact hold b (mem_atLevel.1 e).1
  have hnd : ∀ j, (head :: (atLevel (s.heap ++ [nd]) j pre
      ++ atLevel (s.heap ++ [nd]) j post)).Nodup := by
    intro j
    rw [hat j pre hpre_old, hat j post hpost_old, ← atLevel_append]
    exact h.head_nodup j
  have hnw : s.heap.length ∉ head :: (pre ++ post) := by
    intro hc
    rcases List.mem_cons.1 hc with e | e
    · rw [e] at hhead
      exact lt_irrefl _ hhead
    · exact lt_irrefl _ (hold _ e)
  have hlu : ∀ j, j ≤ height →
      j < lvl (s.heap ++ [nd]) (lastFrom head (atLevel (s.heap ++ [nd]) j pre)) := by
    intro j hj
    rcases List.mem_cons.1 (lastFrom_mem head (atLevel (s.heap ++ [nd]) j pre)) with e | e
    · rw [e, lvl_append_lt _ _ hhead, h.head_lvl]
      omega
    · exact (mem_atLevel.1 e).2
  obtain ⟨hp1, hsp, inv⟩ := splice_spec (fun j hj => hlink j (by omega)) hnd hnw hupd hlnw hlu
    (height + 1) 0 (s.heap ++ [nd]) (by omega)
    ⟨SameShape.refl _, fun _ _ _ => rfl, fun j hj => absurd hj (Nat.not_lt_zero j)⟩
  have hval_old : ∀ b, b < s.heap.length → valOf hp1 b = valOf s.heap b := by
    intro b hb
    rw [inv.shape.val, valOf_append_lt _ _ hb]
  have hcnt_old : ∀ b, b < s.heap.length → cntOf hp1 b = cntOf s.heap b := by
    intro b hb
    rw [inv.shape.cnt, cntOf_append_lt _ _ hb]
  have hlvl_old : ∀ b, b < s.heap.length → lvl hp1 b = lvl s.heap b := by
    intro b hb
    rw [inv.shape.lvl, lvl_append_lt _ _ hb]
  have hlvl_nw : lvl hp1 s.heap.length = height + 1 := by rw [inv.shape.lvl, hlnw]
  have hlen1 : hp1.length = s.heap.length + 1 := by
    rw [inv.shape.len]
    simp
  refine ⟨{ heap := hp1,
            curr_height := if height > s.curr_height then height else s.curr_height },
    ?_, ?_, hlen1, ?_, by rw [inv.shape.val, hvnw], by rw [inv.shape.cnt, hcnw], hlvl_nw,
    fun b hb => ⟨hval_old b hb, hcnt_old b hb, hlvl_old b hb⟩⟩
  · unfold insert
    simp only [hd, h.next_zero, hfill, hnd0, hsp]
    cases post with
    | nil => rfl
    | cons c r =>
      obtain ⟨n, hg, hv, -, -⟩ := h.post_node (c := c) (by simp)
      have hne : equal n.val v = false := by
        rw [← Bool.not_eq_true, equal_iff, ← hv]
        have := h2 c (by simp)
        omega
      simp only [List.head?_cons, hg, hne]
      rfl
  · have hmem : ∀ a, a ∈ pre ++ s.heap.length :: post ↔
        a = s.heap.length ∨ a ∈ pre ++ post := by
      intro a
      simp only [List.mem_append, List.mem_cons]
      tauto
    refine ⟨?_, ?_, ?_, ?_, ?_, ?_, ?_, ?_, ?_, ?_⟩
    · show lvl hp1 head = _
      rw [hlvl_old _ hhead, h.head_lvl]
    · show cntOf hp1 head = _
      rw [hcnt_old _ hhead, h.head_cnt]
    · show (if height > s.curr_height then height else s.curr_height) ≤ _
      have := h.ch
      split <;> omega
    · show _ < hp1.length
      have := h.len
      rw [hlen1]
      simp only [List.length_append, List.length_cons] at this ⊢
      omega
    · intro hc
      rcases (hmem _).1 hc with e | e
      · rw [e] at hhead
        exact lt_irrefl _ hhead
      · exact h.nz e
    · intro a ha
      show 1 ≤ lvl hp1 a ∧ lvl hp1 a ≤ (if height > s.curr_height then height
        else s.curr_height) + 1
      rcases (hmem _).1 ha with e | e
      · rw [e, hlvl_nw]
        split <;> omega
      · rw [hlvl_old _ (hold a e)]
        have := h.lv a e
        split <;> omega
    · intro a ha
      show 1 ≤ cntOf hp1 a
      rcases (hmem _).1 ha with e | e
      · rw [e, inv.shape.cnt, hcnw]
      · rw [hcnt_old _ (hold a e)]
        exact h.cnt a e
    · show List.Pairwise (fun a b => valOf hp1 a < valOf hp1 b) _
      have hs := List.pairwise_append.1 h.sorted
      have hvn : valOf hp1 s.heap.length = v := by rw [inv.shape.val, hvnw]
      rw [List.pairwise_append]
      refine ⟨?_, ?_, ?_⟩
      · refine hs.1.imp_of_mem ?_
        intro a b ha hb hab
        rw [hval_old _ (hpre_old a ha), hval_old _ (hpre_old b hb)]
        exact hab
      · rw [List.pairwise_cons]
        refine ⟨?_, ?_⟩
        · intro b hb
          rw [hvn, hval_old _ (hpost_old b hb)]
          exact h2 b hb
        · refine hs.2.1.imp_of_mem ?_
          intro a b ha hb hab
          rw [hval_old _ (hpost_old a ha), hval_old _ (hpost_old b hb)]
          exact hab
      · intro a ha b hb
        rw [hval_old _ (hpre_old a ha)]
        rcases List.mem_cons.1 hb with e | e
        · rw [e, hvn]
          exact h1 a ha
        · rw [hval_old _ (hpost_old b e)]
          exact hs.2.2 a ha b e
    · intro j hj
      show Linked hp1 j head (atLevel hp1 j _)
      have e1 : atLevel hp1 j pre = atLevel (s.heap ++ [nd]) j pre :=
        atLevel_congr (fun a _ => inv.shape.lvl a)
      have e2 : atLevel hp1 j post = atLevel (s.heap ++ [nd]) j post :=
        atLevel_congr (fun a _ => inv.shape.lvl a)
      rw [atLevel_append, e1]
      by_cases hjh : j ≤ height
      · have e3 : atLevel hp1 j (s.heap.length :: post)
            = s.heap.length :: atLevel (s.heap ++ [nd]) j post := by
          rw [← e2]
          simp only [atLevel]
          rw [List.filter_cons_of_pos]
          rw [hlvl_nw]
          simpa using Nat.lt_succ_of_le hjh
        rw [e3]
        exact inv.done j (by omega)
      · have e3 : atLevel hp1 j (s.heap.length :: post)
            = atLevel (s.heap ++ [nd]) j post := by
          rw [← e2]
          simp only [atLevel]
          rw [List.filter_cons_of_neg]
          rw [hlvl_nw]
          simpa using hjh
        rw [e3]
        exact (hlink j hj).congr_read (fun b _ => inv.untouched b j (by omega))
    · show (if height > s.curr_height then height else s.curr_height) = 0 ∨
        ∃ a ∈ pre ++ s.heap.length :: post, lvl hp1 a
          = (if height > s.curr_height then height else s.curr_height) + 1
      by_cases hgt : height > s.curr_height
      · right
        exact ⟨s.heap.length, (hmem _).2 (Or.inl rfl), by rw [hlvl_nw, if_pos hgt]⟩
      · rw [if_neg hgt]
        rcases h.top with ht | ⟨a, ha, hl⟩
        · exact Or.inl ht
        · right
          exact ⟨a, (hmem _).2 (Or.inr ha), by rw [hlvl_old _ (hold a ha), hl]⟩
  · show (if height > s.curr_height then height else s.curr_height) = _
    split
    · rw [max_eq_right]; omega
    · rw [max_eq_left]; omega

/-! ## `remove` -/

theorem atLevel_cons_pos {hp : Heap} {j c : Nat} (post : List Nat) (h : j < lvl hp c) :
    atLevel hp j (c :: post) = c :: atLevel hp j post := by
  simp only [atLevel]
  rw [List.filter_cons_of_pos]
  simpa using h

theorem atLevel_cons_neg {hp : Heap} {j c : Nat} (post : List Nat) (h : ¬ j < lvl hp c) :
    atLevel hp j (c :: post) = atLevel hp j post := by
  simp only [atLevel]
  rw [List.filter_cons_of_neg]
  simpa using h

theorem unlink_spec {hp : Heap} {pre post : List Nat} {c ch : Nat} {upd : List (Option Nat)}
    (hch : ch ≤ MAX_HEIGHT)
    (hlink : ∀ j, j ≤ MAX_HEIGHT →
      Linked hp j head (atLevel hp j pre ++ atLevel hp j (c :: post)))
    (hnd : ∀ j, (head :: (atLevel hp j pre ++ atLevel hp j (c :: post))).Nodup)
    (hc : c ∉ post)
    (hupd : ∀ j, j ≤ ch → getUpd upd j = some (lastFrom head (atLevel hp j pre)))
    (hk : lvl hp c ≤ ch + 1)
    (hlu : ∀ j, j ≤ MAX_HEIGHT → j < lvl hp (lastFrom head (atLevel hp j pre))) :
    ∀ (n i : Nat) (hpi : Heap), i + n = ch + 1 → i ≤ lvl hp c → UnlinkInv hp pre post i hpi →
      ∃ hp1, unlink upd c hpi i n = some hp1 ∧ UnlinkInv hp pre post (lvl hp c) hp1 := by
  intro n
  induction n with
  | zero =>
    intro i hpi hin hik inv
    have : i = lvl hp c := by omega
    subst this
    exact ⟨hpi, rfl, inv⟩
  | succ n ih =>
    intro i hpi hin hik inv
    have hi : i ≤ ch := by omega
    have hi16 : i ≤ MAX_HEIGHT := by omega
    have hr : readNext hpi (lastFrom head (atLevel hp i pre)) i
        = some (atLevel hp i (c :: post)).head? := by
      rw [inv.untouched _ i (le_refl _)]
      exact (hlink i hi16).read_last
    by_cases hlt : i < lvl hp c
    · rw [atLevel_cons_pos post hlt] at hr
      have hli := hlink i hi16
      rw [atLevel_cons_pos post hlt] at hli
      have hq : readNext hpi c i = some (atLevel hp i post).head? := by
        rw [inv.untouched _ i (le_refl _)]
        have hsuf : Linked hp i c (atLevel hp i post) :=
          LinkedF.suffix hli
            (show head :: (atLevel hp i pre ++ c :: atLevel hp i post)
              = (head :: atLevel hp i pre) ++ c :: atLevel hp i post by simp)
        exact hsuf.read_head
      obtain ⟨hp1, hw1⟩ := writeNext_some (m := hpi)
        (a := lastFrom head (atLevel hp i pre)) (i := i) (atLevel hp i post).head?
        (by rw [inv.shape.lvl]; exact hlu i hi16)
      have hstep : unlink upd c hpi i (n + 1) = unlink upd c hp1 (i + 1) n := by
        simp [unlink, hupd i hi, hr, hq, hw1]
      rw [hstep]
      apply ih (i + 1) hp1 (by omega) (by omega)
      refine ⟨inv.shape.trans (writeNext_shape hw1), ?_, ?_⟩
      · intro b j hj
        have hji : j ≠ i := by omega
        rw [writeNext_read hw1]
        simp only [hji, and_false, if_false]
        exact inv.untouched b j (by omega)
      · intro j hj
        by_cases hji : j = i
        · subst hji
          have hl : Linked hpi j head (atLevel hp j pre ++ c :: atLevel hp j post) :=
            hli.congr_read (fun b _ => inv.untouched b j (le_refl _))
          have hndj := hnd j
          rw [atLevel_cons_pos post hlt] at hndj
          apply LinkedF.link_out (f := fun b => readNext hpi b j)
            (g := fun b => readNext hp1 b j) hl hndj
          · show readNext hp1 _ j = readNext hpi c j
            rw [writeNext_read hw1, hq]
            simp
          · intro b hb
            show readNext hp1 b j = readNext hpi b j
            rw [writeNext_read hw1]
            simp [hb]
        · apply (inv.done j (by omega)).congr_read
          intro b _
          rw [writeNext_read hw1]
          simp [hji]
    · have hik2 : i = lvl hp c := by omega
      rw [atLevel_cons_neg post hlt] at hr
      have hne : (atLevel hp i post).head? ≠ some c := by
        intro e
        have := List.mem_of_mem_head? e
        exact hc (mem_atLevel.1 this).1
      refine ⟨hpi, ?_, by rw [← hik2]; exact inv⟩
      simp [unlink, hupd i hi, hr, hne]

theorem shrink_spec (hp : Heap)
    (hsome : ∀ j, j ≤ MAX_HEIGHT → ∃ p, readNext hp head j = some p) :
    ∀ h, h ≤ MAX_HEIGHT → ∃ h1, shrink hp h = some h1 ∧ h1 ≤ h ∧
      (∀ j, h1 < j → j ≤ h → readNext hp head j = some none) ∧
      (h1 = 0 ∨ ∃ b, readNext hp head h1 = some (some b)) := by
  intro h
  induction h with
  | zero =>
    intro _
    exact ⟨0, rfl, le_refl _, by intro j h1 h2; omega, Or.inl rfl⟩
  | succ h ih =>
    intro hh
    obtain ⟨p, hp1⟩ := hsome (h + 1) hh
    cases p with
    | none =>
      obtain ⟨h1, hs, hle, hnone, htop⟩ := ih (by omega)
      refine ⟨h1, by simp [shrink, hp1, hs], by omega, ?_, htop⟩
      intro j hj1 hj2
      by_cases hj : j = h + 1
      · rw [hj, hp1]
      · exact hnone j hj1 (by omega)
    | some b =>
      exact ⟨h + 1, by simp [shrink, hp1], le_refl _, by intro j h1 h2; omega,
        Or.inr ⟨b, hp1⟩⟩

theorem Inv.remove_absent {s : SkipList} {pre post : List Nat} (h : Inv s (pre ++ post))
    (v : Int) (h1 : ∀ a ∈ pre, valOf s.heap a < v) (h2 : ∀ a ∈ post, v < valOf s.heap a) :
    remove s v = some (false, s) := by
  have hpostle : ∀ a ∈ post, v ≤ valOf s.heap a := fun a ha => le_of_lt (h2 a ha)
  obtain ⟨upd, hd, -⟩ := h.descend_eq (t := fun x => comp x v)
    (by intro a ha; simpa [comp] using h1 a ha)
    (by intro a ha; simpa [comp] using hpostle a ha)
  unfold remove
  simp only [hd, h.next_zero]
  cases post with
  | nil => rfl
  | cons c r =>
    obtain ⟨n, hg, hv, -, -⟩ := h.post_node (c := c) (by simp)
    have hne : equal n.val v = false := by
      rw [← Bool.not_eq_true, equal_iff, ← hv]
      have := h2 c (by simp)
      omega
    simp [hg, hne]

theorem Inv.remove_found_full {s : SkipList} {pre post : List Nat} {c : Nat}
    (h : Inv s (pre ++ c :: post)) (v : Int)
    (h1 : ∀ a ∈ pre, valOf s.heap a < v) (hc : valOf s.heap c = v) :
    ∃ s1, remove s v = some (true, s1) ∧ Inv s1 (pre ++ post) ∧
      (∀ b ∈ pre ++ post, valOf s1.heap b = valOf s.heap b ∧
        cntOf s1.heap b = cntOf s.heap b) ∧
      s1.curr_height ≤ s.curr_height ∧ s1.heap.length = s.heap.length := by
  have h2 : ∀ a ∈ c :: post, v ≤ valOf s.heap a := by
    intro a ha
    rcases List.mem_cons.1 ha with e | e
    · rw [e, hc]
    · have := (List.pairwise_append.1 h.sorted).2.1
      rw [List.pairwise_cons] at this
      have := this.1 a e
      omega
  obtain ⟨upd, hd, -, hule, -⟩ := h.descend_eq (t := fun x => comp x v)
    (by intro a ha; simpa [comp] using h1 a ha)
    (by intro a ha; simpa [comp] using h2 a ha)
  obtain ⟨n, hg, hv, -, -⟩ := h.post_node (c := c) (by simp)
  have hclt := getNode_lt hg
  have heq : equal n.val v = true := by
    rw [equal_iff, ← hv, hc]
  have hcmem : c ∈ pre ++ c :: post := by simp
  have hnodup := h.nodup
  have hcpost : c ∉ post := by
    have := (List.nodup_append.1 hnodup).2.1
    exact (List.nodup_cons.1 this).1
  have hcpre : c ∉ pre := by
    intro hm
    exact (List.nodup_append.1 hnodup).2.2 hm (List.mem_cons_self _ _)
  have hsub : ∀ b, b ∈ pre ++ post → b ∈ pre ++ c :: post := by
    intro b hb
    simp only [List.mem_append, List.mem_cons] at hb ⊢
    tauto
  have hnec : ∀ b, b ∈ pre ++ post → b ≠ c := by
    intro b hb e
    rw [e] at hb
    rcases List.mem_append.1 hb with m | m
    · exact hcpre m
    · exact hcpost m
  have hhc : head ≠ c := by
    intro e
    apply h.nz
    rw [e]
    exact hcmem
  have hlink : ∀ j, j ≤ MAX_HEIGHT →
      Linked s.heap j head (atLevel s.heap j pre ++ atLevel s.heap j (c :: post)) := by
    intro j hj
    rw [← atLevel_append]
    exact h.linked j hj
  have hnd : ∀ j, (head :: (atLevel s.heap j pre ++ atLevel s.heap j (c :: post))).Nodup := by
    intro j
    rw [← atLevel_append]
    exact h.head_nodup j
  have hlu : ∀ j, j ≤ MAX_HEIGHT → j < lvl s.heap (lastFrom head (atLevel s.heap j pre)) := by
    intro j hj
    rcases List.mem_cons.1 (lastFrom_mem head (atLevel s.heap j pre)) with e | e
    · rw [e, h.head_lvl]
      omega
    · exact (mem_atLevel.1 e).2
  obtain ⟨hp1, hun, inv⟩ := unlink_spec h.ch hlink hnd hcpost
    (fun j hj => by rw [hule j hj]; rfl) (h.lv c hcmem).2 hlu
    (s.curr_height + 1) 0 s.heap (by omega) (Nat.zero_le _)
    ⟨SameShape.refl _, fun _ _ _ => rfl, fun j hj => absurd hj (Nat.not_lt_zero j)⟩
  have hclt1 : c < hp1.length := by rw [inv.shape.len]; exact hclt
  have hget2 : ∀ b, b ≠ c → getNode (hp1.set c none) b = getNode hp1 b := by
    intro b hb
    rw [getNode_set _ _ _ _ hclt1, if_neg hb]
  have hval2 : ∀ b, b ≠ c → valOf (hp1.set c none) b = valOf s.heap b := by
    intro b hb
    rw [← inv.shape.val]
    simp [valOf, hget2 b hb]
  have hcnt2 : ∀ b, b ≠ c → cntOf (hp1.set c none) b = cntOf s.heap b := by
    intro b hb
    rw [← inv.shape.cnt]
    simp [cntOf, hget2 b hb]
  have hlvl2 : ∀ b, b ≠ c → lvl (hp1.set c none) b = lvl s.heap b := by
    intro b hb
    rw [← inv.shape.lvl]
    simp [lvl, hget2 b hb]
  have hread2 : ∀ b j, b ≠ c → readNext (hp1.set c none) b j = readNext hp1 b j := by
    intro b j hb
    simp [readNext, hget2 b hb]
  have hat2 : ∀ j, atLevel (hp1.set c none) j (pre ++ post)
      = atLevel s.heap j pre ++ atLevel s.heap j post := by
    intro j
    rw [← atLevel_append]
    exact atLevel_congr (fun a ha => hlvl2 a (hnec a ha))
  have hlinked2 : ∀ j, j ≤ MAX_HEIGHT →
      Linked (hp1.set c none) j head (atLevel (hp1.set c none) j (pre ++ post)) := by
    intro j hj
    rw [hat2]
    have hl1 : Linked hp1 j head (atLevel s.heap j pre ++ atLevel s.heap j post) := by
      by_cases hjk : j < lvl s.heap c
      · exact inv.done j hjk
      · have := hlink j hj
        rw [atLevel_cons_neg post hjk] at this
        exact this.congr_read (fun b _ => inv.untouched b j (by omega))
    apply hl1.congr_read
    intro b hb
    apply hread2
    rcases List.mem_cons.1 hb with e | e
    · rw [e]; exact hhc
    · rw [← atLevel_append] at e
      exact hnec b (mem_atLevel.1 e).1
  have hsome : ∀ j, j ≤ MAX_HEIGHT → ∃ p, readNext (hp1.set c none) head j = some p := by
    intro j hj
    exact ⟨_, (hlinked2 j hj).read_head⟩
  obtain ⟨ch1, hsh, hle, hnone, htop⟩ := shrink_spec (hp1.set c none) hsome s.curr_height h.ch
  have hlv : ∀ a ∈ pre ++ post, 1 ≤ lvl (hp1.set c none) a ∧ lvl (hp1.set c none) a ≤ ch1 + 1 := by
    intro a ha
    have hold := h.lv a (hsub a ha)
    rw [hlvl2 a (hnec a ha)]
    refine ⟨hold.1, ?_⟩
    by_contra hcon
    have hj1 : ch1 < lvl s.heap a - 1 := by omega
    have hj2 : lvl s.heap a - 1 ≤ s.curr_height := by omega
    have hn := hnone _ hj1 hj2
    have hl := (hlinked2 (lvl s.heap a - 1) (by have := h.ch; omega)).read_head
    rw [hn] at hl
    have hmem : a ∈ atLevel (hp1.set c none) (lvl s.heap a - 1) (pre ++ post) := by
      rw [mem_atLevel, hlvl2 a (hnec a ha)]
      exact ⟨ha, by omega⟩
    have hnil : atLevel (hp1.set c none) (lvl s.heap a - 1) (pre ++ post) = [] := by
      simp only [Option.some.injEq] at hl
      exact List.head?_eq_none_iff.1 hl.symm
    rw [hnil] at hmem
    simp at hmem
  refine ⟨{ heap := hp1.set c none, curr_height := ch1 }, ?_, ?_, ?_, hle, ?_⟩
  · unfold remove
    simp only [hd, h.next_zero, List.head?_cons, hg, heq, if_true, hun, hsh]
  · refine ⟨?_, ?_, ?_, ?_, ?_, hlv, ?_, ?_, hlinked2, ?_⟩
    · show lvl (hp1.set c none) head = _
      rw [hlvl2 _ hhc, h.head_lvl]
    · show cntOf (hp1.set c none) head = _
      rw [hcnt2 _ hhc, h.head_cnt]
    · show ch1 ≤ _
      have := h.ch
      omega
    · show _ < (hp1.set c none).length
      have := h.len
      simp only [List.length_append, List.length_cons, List.length_set, inv.shape.len] at this ⊢
      omega
    · intro hm
      exact h.nz (hsub _ hm)
    · intro a ha
      show 1 ≤ cntOf (hp1.set c none) a
      rw [hcnt2 a (hnec a ha)]
      exact h.cnt a (hsub a ha)
    · show List.Pairwise (fun a b => valOf (hp1.set c none) a < valOf (hp1.set c none) b) _
      have hsl : List.Sublist (pre ++ post) (pre ++ c :: post) :=
        List.Sublist.append (List.Sublist.refl _) (List.sublist_cons_self _ _)
      refine (h.sorted.sublist hsl).imp_of_mem ?_
      intro a b ha hb hab
      rw [hval2 a (hnec a ha), hval2 b (hnec b hb)]
      exact hab
    · show ch1 = 0 ∨ ∃ a ∈ pre ++ post, lvl (hp1.set c none) a = ch1 + 1
      rcases htop with e | ⟨b, hb⟩
      · exact Or.inl e
      · right
        have hl := (hlinked2 ch1 (by have := h.ch; omega)).read_head
        rw [hb] at hl
        simp only [Option.some.injEq] at hl
        have hm := mem_atLevel.1 (List.mem_of_mem_head? hl.symm)
        refine ⟨b, hm.1, ?_⟩
        have := (hlv b hm.1).2
        omega
  · intro b hb
    exact ⟨hval2 b (hnec b hb), hcnt2 b (hnec b hb)⟩
  · show (hp1.set c none).length = s.heap.length
    rw [List.length_set, inv.shape.len]

theorem Inv.remove_found {s : SkipList} {pre post : List Nat} {c : Nat}
    (h : Inv s (pre ++ c :: post)) (v : Int)
    (h1 : ∀ a ∈ pre, valOf s.heap a < v) (hc : valOf s.heap c = v) :
    ∃ s1, remove s v = some (true, s1) ∧ Inv s1 (pre ++ post) ∧
      (∀ b ∈ pre ++ post, valOf s1.heap b = valOf s.heap b ∧
        cntOf s1.heap b = cntOf s.heap b) := by
  obtain ⟨s1, e1, e2, e3, -⟩ := h.remove_found_full v h1 hc
  exact ⟨s1, e1, e2, e3⟩

/-! ## The effect of a call on the stored (value, count) pairs -/

theorem absList_append (hp : Heap) (l1 l2 : List Nat) :
    absList hp (l1 ++ l2) = absList hp l1 ++ absList hp l2 := by
  simp [absList]

theorem absList_congr {hp hp1 : Heap} {l : List Nat}
    (h : ∀ a ∈ l, valOf hp1 a = valOf hp a ∧ cntOf hp1 a = cntOf hp a) :
    absList hp1 l = absList hp l := by
  unfold absList
  apply List.map_congr_left
  intro a ha
  rw [(h a ha).1, (h a ha).2]

theorem absList_fst_lt {hp : Heap} {l : List Nat} {v : Int} (h : ∀ a ∈ l, valOf hp a < v) :
    ∀ p ∈ absList hp l, p.1 < v := by
  intro p hp1
  simp only [absList, List.mem_map] at hp1
  obtain ⟨a, ha, rfl⟩ := hp1
  exact h a ha

theorem absList_fst_gt {hp : Heap} {l : List Nat} {v : Int} (h : ∀ a ∈ l, v < valOf hp a) :
    ∀ p ∈ absList hp l, v < p.1 := by
  intro p hp1
  simp only [absList, List.mem_map] at hp1
  obtain ⟨a, ha, rfl⟩ := hp1
  exact h a ha

/-- Split the chain of a state at `v`: the nodes below `v`, then the node holding
`v` if there is one, then the nodes above `v`. -/
theorem Inv.split3 {s : SkipList} {ns : List Nat} (h : Inv s ns) (v : Int) :
    ∃ pre post, (∀ a ∈ pre, valOf s.heap a < v) ∧ (∀ a ∈ post, v < valOf s.heap a) ∧
      (ns = pre ++ post ∨ ∃ c, ns = pre ++ c :: post ∧ valOf s.heap c = v) := by
  obtain ⟨pre, post, he, h1, h2⟩ := split_sorted (fun x => comp x v) (comp_mono v) s.heap ns
    h.sorted
  simp only [comp, decide_eq_true_eq, decide_eq_false_iff_not, not_lt] at h1 h2
  cases post with
  | nil => exact ⟨pre, [], h1, by simp, Or.inl he⟩
  | cons c r =>
    have hs := h.sorted
    rw [he] at hs
    have hcr := (List.pairwise_cons.1 (List.pairwise_append.1 hs).2.1).1
    by_cases hc : valOf s.heap c = v
    · refine ⟨pre, r, h1, ?_, Or.inr ⟨c, he, hc⟩⟩
      intro a ha
      have := hcr a ha
      omega
    · refine ⟨pre, c :: r, h1, ?_, Or.inl he⟩
      intro a ha
      have hge := h2 a ha
      rcases List.mem_cons.1 ha with e | e
      · rw [e] at hge ⊢
        omega
      · have := hcr a e
        have := h2 c (by simp)
        omega

theorem Inv.insert_step {s : SkipList} {ns : List Nat} (h : Inv s ns) (v : Int)
    (height : Nat) (hh : height ≤ MAX_HEIGHT) :
    ∃ s1 ns1, insert s v height = some s1 ∧ Inv s1 ns1 ∧
      ∃ A B : List (Int × Int), (∀ p ∈ A, p.1 < v) ∧ (∀ p ∈ B, v < p.1) ∧
        ((absList s.heap ns = A ++ B ∧ absList s1.heap ns1 = A ++ (v, 1) :: B) ∨
         (∃ k, absList s.heap ns = A ++ (v, k) :: B ∧
            absList s1.heap ns1 = A ++ (v, k + 1) :: B)) := by
  obtain ⟨pre, post, h1, h2, hsplit⟩ := h.split3 v
  rcases hsplit with he | ⟨c, he, hc⟩
  · subst he
    obtain ⟨s1, hins, hinv, -, -, hv, hcn, -, hold⟩ := h.insert_fresh v height hh h1 h2
    refine ⟨s1, _, hins, hinv, absList s.heap pre, absList s.heap post,
      absList_fst_lt h1, absList_fst_gt h2, Or.inl ⟨absList_append _ _ _, ?_⟩⟩
    have e1 : absList s1.heap pre = absList s.heap pre :=
      absList_congr (fun a ha =>
        ⟨(hold a (h.lt_length (List.mem_append_left _ ha))).1,
         (hold a (h.lt_length (List.mem_append_left _ ha))).2.1⟩)
    have e2 : absList s1.heap post = absList s.heap post :=
      absList_congr (fun a ha =>
        ⟨(hold a (h.lt_length (List.mem_append_right _ ha))).1,
         (hold a (h.lt_length (List.mem_append_right _ ha))).2.1⟩)
    rw [absList_append, e1]
    simp only [absList, List.map_cons, hv, hcn] at e2 ⊢
    rw [e2]
  · subst he
    obtain ⟨n, hg, hins, hinv, hval, hcnt⟩ := h.insert_dup v height h1 hc
    have hnodup := h.nodup
    have hcpost : c ∉ post := (List.nodup_cons.1 (List.nodup_append.1 hnodup).2.1).1
    have hcpre : c ∉ pre := fun hm =>
      (List.nodup_append.1 hnodup).2.2 hm (List.mem_cons_self _ _)
    refine ⟨_, _, hins, hinv, absList s.heap pre, absList s.heap post,
      absList_fst_lt h1, absList_fst_gt h2, Or.inr ⟨cntOf s.heap c, ?_, ?_⟩⟩
    · rw [absList_append]
      simp [absList, hc]
    · have e1 : absList (s.heap.set c (some { n with count := n.count + 1 })) pre
          = absList s.heap pre := by
        apply absList_congr
        intro a ha
        have : a ≠ c := fun e => hcpre (e ▸ ha)
        exact ⟨hval a, by rw [hcnt, if_neg this]⟩
      have e2 : absList (s.heap.set c (some { n with count := n.count + 1 })) post
          = absList s.heap post := by
        apply absList_congr
        intro a ha
        have : a ≠ c := fun e => hcpost (e ▸ ha)
        exact ⟨hval a, by rw [hcnt, if_neg this]⟩
      show absList (s.heap.set c _) (pre ++ c :: post) = _
      rw [absList_append, e1]
      simp only [absList, List.map_cons] at e2 ⊢
      rw [e2, hval, hcnt, hc]
      simp

theorem Inv.remove_step {s : SkipList} {ns : List Nat} (h : Inv s ns) (v : Int) :
    ∃ b s1 ns1, remove s v = some (b, s1) ∧ Inv s1 ns1 ∧
      ∃ A B : List (Int × Int), (∀ p ∈ A, p.1 < v) ∧ (∀ p ∈ B, v < p.1) ∧
        ((b = false ∧ s1 = s ∧ absList s.heap ns = A ++ B) ∨
         (b = true ∧ ∃ k, absList s.heap ns = A ++ (v, k) :: B ∧
            absList s1.heap ns1 = A ++ B)) := by
  obtain ⟨pre, post, h1, h2, hsplit⟩ := h.split3 v
  rcases hsplit with he | ⟨c, he, hc⟩
  · subst he
    exact ⟨false, s, _, h.remove_absent v h1 h2, h, absList s.heap pre, absList s.heap post,
      absList_fst_lt h1, absList_fst_gt h2, Or.inl ⟨rfl, rfl, absList_append _ _ _⟩⟩
  · subst he
    obtain ⟨s1, hrem, hinv, hold⟩ := h.remove_found v h1 hc
    refine ⟨true, s1, _, hrem, hinv, absList s.heap pre, absList s.heap post,
      absList_fst_lt h1, absList_fst_gt h2, Or.inr ⟨rfl, cntOf s.heap c, ?_, ?_⟩⟩
    · rw [absList_append]
      simp [absList, hc]
    · rw [← absList_append]
      exact absList_congr hold

/-! ## Reachable states -/

theorem inv_empty : Inv empty [] := by
  refine ⟨rfl, rfl, by simp [empty], by simp [empty], by simp, by simp, by simp,
    List.Pairwise.nil, ?_, Or.inl rfl⟩
  intro i hi
  simp only [atLevel, List.filter_nil, Linked, LinkedF, readNext, getNode, empty, head]
  simp only [List.getElem?_cons_zero, Option.join, Option.some_bind, id]
  rw [List.getElem?_eq_getElem (by simpa using Nat.lt_succ_of_le hi)]
  simp

theorem Inv.step_ok {s : SkipList} {ns : List Nat} (h : Inv s ns) (op : Op) :
    ∃ s1 ns1, SkipList.step s op = some s1 ∧ Inv s1 ns1 := by
  cases op with
  | insert v hgt =>
    obtain ⟨s1, ns1, hins, hinv, -⟩ := h.insert_step v hgt.val (by
      have := hgt.isLt
      show hgt.val ≤ 16
      omega)
    exact ⟨s1, ns1, hins, hinv⟩
  | remove v =>
    obtain ⟨b, s1, ns1, hrem, hinv, -⟩ := h.remove_step v
    exact ⟨s1, ns1, by simp [SkipList.step, hrem], hinv⟩

theorem runFrom_inv : ∀ (ops : List Op) (s : SkipList) (ns : List Nat), Inv s ns →
    ∃ s1 ns1, runFrom s ops = some s1 ∧ Inv s1 ns1 := by
  intro ops
  induction ops with
  | nil =>
    intro s ns h
    exact ⟨s, ns, rfl, h⟩
  | cons op rest ih =>
    intro s ns h
    obtain ⟨s1, ns1, hst, hinv⟩ := h.step_ok op
    obtain ⟨s2, ns2, hr, hinv2⟩ := ih s1 ns1 hinv
    exact ⟨s2, ns2, by simp [runFrom, hst, hr], hinv2⟩

theorem runFrom_append (s : SkipList) (l1 l2 : List Op) :
    runFrom s (l1 ++ l2) = (runFrom s l1).bind fun s1 => runFrom s1 l2 := by
  induction l1 generalizing s with
  | nil => rfl
  | cons op rest ih =>
    simp only [List.cons_append, runFrom]
    cases step s op with
    | none => rfl
    | some s1 => exact ih s1

theorem run_snoc (ops : List Op) (op : Op) :
    run (ops ++ [op]) = (run ops).bind fun s => step s op := by
  unfold run
  rw [runFrom_append]
  congr 1
  funext s1
  simp only [runFrom]
  cases step s1 op <;> rfl

/-- Every sequence of calls runs to completion: no call faults or runs out of fuel. -/
theorem run_total (ops : List Op) : ∃ s, run ops = some s := by
  obtain ⟨s, _, h, _⟩ := runFrom_inv ops empty [] inv_empty
  exact ⟨s, h⟩

theorem Reachable.inv {s : SkipList} (h : Reachable s) : ∃ ns, Inv s ns := by
  obtain ⟨ops, hr⟩ := h
  obtain ⟨s1, ns1, h1, hinv⟩ := runFrom_inv ops empty [] inv_empty
  unfold run at hr
  rw [hr] at h1
  cases h1
  exact ⟨ns1, hinv⟩

theorem Reachable.after_step {s s1 : SkipList} (h : Reachable s) {op : Op}
    (hs : SkipList.step s op = some s1) : Reachable s1 := by
  obtain ⟨ops, hr⟩ := h
  exact ⟨ops ++ [op], by rw [run_snoc, hr]; exact hs⟩

/-! ## The queries in terms of the stored values -/

theorem Inv.values_sorted {s : SkipList} {ns : List Nat} (h : Inv s ns) :
    (ns.map (valOf s.heap)).Pairwise (· < ·) := by
  rw [List.pairwise_map]
  exact h.sorted

theorem Inv.lower_bound_min {s : SkipList} {ns : List Nat} (h : Inv s ns) (v : Int)
    (hex : ∃ e ∈ ns.map (valOf s.heap), v ≤ e) :
    ∃ r, lower_bound s v = some r ∧ r ∈ ns.map (valOf s.heap) ∧ v ≤ r ∧
      ∀ e ∈ ns.map (valOf s.heap), v ≤ e → r ≤ e := by
  obtain ⟨pre, post, he, h1, h2⟩ := split_sorted (fun x => comp x v) (comp_mono v) s.heap ns
    h.sorted
  simp only [comp, decide_eq_true_eq, decide_eq_false_iff_not, not_lt] at h1 h2
  subst he
  obtain ⟨e, hmem, hve⟩ := hex
  obtain ⟨a, ha, rfl⟩ := List.mem_map.1 hmem
  cases post with
  | nil =>
    exfalso
    have := h1 a (by simpa using ha)
    omega
  | cons c r =>
    have hs := (List.pairwise_cons.1 (List.pairwise_append.1 h.sorted).2.1).1
    refine ⟨valOf s.heap c, by rw [h.lower_eq v h1 h2]; rfl,
      List.mem_map.2 ⟨c, by simp, rfl⟩, h2 c (by simp), ?_⟩
    intro e hmem2 hve2
    obtain ⟨b, hb, rfl⟩ := List.mem_map.1 hmem2
    rcases List.mem_append.1 hb with m | m
    · have := h1 b m
      omega
    · rcases List.mem_cons.1 m with m | m
      · rw [m]
      · exact le_of_lt (hs b m)

theorem Inv.lower_bound_mem {s : SkipList} {ns : List Nat} (h : Inv s ns) (v : Int)
    (hv : v ∈ ns.map (valOf s.heap)) : lower_bound s v = some v := by
  obtain ⟨r, hr, hmem, hge, hmin⟩ := h.lower_bound_min v ⟨v, hv, le_refl _⟩
  have := hmin v hv (le_refl _)
  have : r = v := by omega
  rw [hr, this]

theorem Inv.upper_bound_min {s : SkipList} {ns : List Nat} (h : Inv s ns) (v : Int)
    (hex : ∃ e ∈ ns.map (valOf s.heap), v < e) :
    ∃ r, upper_bound s v = some r ∧ r ∈ ns.map (valOf s.heap) ∧ v < r ∧
      (∀ e ∈ ns.map (valOf s.heap), v < e → r ≤ e) ∧
      (v ∈ ns.map (valOf s.heap) →
        ∃ l1 l2, ns.map (valOf s.heap) = l1 ++ v :: r :: l2) := by
  obtain ⟨pre, post, he, h1, h2⟩ := split_sorted (fun x => !comp v x) (ncomp_mono v) s.heap ns
    h.sorted
  simp only [comp, Bool.not_eq_true', decide_eq_false_iff_not, not_lt, Bool.not_eq_false',
    decide_eq_true_eq] at h1 h2
  subst he
  obtain ⟨e, hmem, hve⟩ := hex
  obtain ⟨a, ha, rfl⟩ := List.mem_map.1 hmem
  cases post with
  | nil =>
    exfalso
    have := h1 a (by simpa using ha)
    omega
  | cons c r =>
    have hs := (List.pairwise_cons.1 (List.pairwise_append.1 h.sorted).2.1).1
    refine ⟨valOf s.heap c, by rw [h.upper_eq v h1 h2]; rfl,
      List.mem_map.2 ⟨c, by simp, rfl⟩, h2 c (by simp), ?_, ?_⟩
    · intro e hmem2 hve2
      obtain ⟨b, hb, rfl⟩ := List.mem_map.1 hmem2
      rcases List.mem_append.1 hb with m | m
      · have := h1 b m
        omega
      · rcases List.mem_cons.1 m with m | m
        · rw [m]
        · exact le_of_lt (hs b m)
    · intro hv
      obtain ⟨b, hb, hbv⟩ := List.mem_map.1 hv
      have hbpre : b ∈ pre := by
        rcases List.mem_append.1 hb with m | m
        · exact m
        · have := h2 b m
          omega
      obtain ⟨p1, p2, hp⟩ := List.append_of_mem hbpre
      have hp2 : p2 = [] := by
        cases p2 with
        | nil => rfl
        | cons x t =>
          exfalso
          have hsp := (List.pairwise_append.1 h.sorted).1
          rw [hp] at hsp
          have hbx := (List.pairwise_cons.1 (List.pairwise_append.1 hsp).2.1).1 x (by simp)
          have := h1 x (by rw [hp]; simp)
          omega
      subst hp2
      refine ⟨p1.map (valOf s.heap), r.map (valOf s.heap), ?_⟩
      rw [hp]
      simp [hbv]

/-- The pairs stored in a state agree with `find`. -/
theorem Inv.find_abs {s : SkipList} {ns : List Nat} (h : Inv s ns) (v : Int) :
    find s v = some (decide (v ∈ ns.map (valOf s.heap))) := by
  obtain ⟨pre, post, h1, h2, hsplit⟩ := h.split3 v
  rcases hsplit with he | ⟨c, he, hc⟩
  · subst he
    rw [h.find_eq v h1 (fun a ha => le_of_lt (h2 a ha))]
    have hnot : v ∉ (pre ++ post).map (valOf s.heap) := by
      intro hm
      obtain ⟨a, ha, hav⟩ := List.mem_map.1 hm
      rcases List.mem_append.1 ha with m | m
      · have := h1 a m
        omega
      · have := h2 a m
        omega
    rw [decide_eq_false hnot]
    cases post with
    | nil => rfl
    | cons c r =>
      have := h2 c (by simp)
      have hne : ¬ valOf s.heap c = v := by omega
      simp [hne]
  · subst he
    have h2c : ∀ a ∈ c :: post, v ≤ valOf s.heap a := by
      intro a ha
      rcases List.mem_cons.1 ha with e | e
      · rw [e, hc]
      · exact le_of_lt (h2 a e)
    rw [h.find_eq v h1 h2c]
    have hin : v ∈ (pre ++ c :: post).map (valOf s.heap) :=
      List.mem_map.2 ⟨c, by simp, hc⟩
    rw [decide_eq_true hin]
    simp [hc]

theorem cntIn_append (l1 l2 : List (Int × Int)) (v : Int) :
    cntIn (l1 ++ l2) v = cntIn l1 v + cntIn l2 v := by
  simp [cntIn]

theorem cntIn_cons (p : Int × Int) (l : List (Int × Int)) (v : Int) :
    cntIn (p :: l) v = (if p.1 = v then p.2 else 0) + cntIn l v := by
  by_cases h : p.1 = v <;> simp [cntIn, List.filter_cons, h]

theorem cntIn_zero {l : List (Int × Int)} {v : Int} (h : ∀ p ∈ l, p.1 ≠ v) : cntIn l v = 0 := by
  unfold cntIn
  rw [List.filter_eq_nil_iff.2]
  · rfl
  · intro p hp
    simpa using h p hp

theorem cntIn_split {A B : List (Int × Int)} {v : Int} (hA : ∀ p ∈ A, p.1 < v)
    (hB : ∀ p ∈ B, v < p.1) : cntIn (A ++ B) v = 0 := by
  apply cntIn_zero
  intro p hp
  rcases List.mem_append.1 hp with m | m
  · have := hA p m
    omega
  · have := hB p m
    omega

theorem cntIn_split_mid {A B : List (Int × Int)} {v k : Int} (hA : ∀ p ∈ A, p.1 < v)
    (hB : ∀ p ∈ B, v < p.1) : cntIn (A ++ (v, k) :: B) v = k := by
  rw [cntIn_append, cntIn_cons, cntIn_zero, cntIn_zero]
  · simp
  · intro p hp
    have := hB p hp
    omega
  · intro p hp
    have := hA p hp
    omega

theorem cntIn_other (A B : List (Int × Int)) {v w : Int} (k : Int) (h : v ≠ w) :
    cntIn (A ++ (v, k) :: B) w = cntIn (A ++ B) w := by
  rw [cntIn_append, cntIn_cons, cntIn_append]
  simp [h]

/-- The pairs stored in a state agree with `count_occurrence`. -/
theorem Inv.count_abs {s : SkipList} {ns : List Nat} (h : Inv s ns) (v : Int) :
    count_occurrence s v = some (cntIn (absList s.heap ns) v) := by
  obtain ⟨pre, post, h1, h2, hsplit⟩ := h.split3 v
  rcases hsplit with he | ⟨c, he, hc⟩
  · subst he
    rw [h.count_eq v h1 (fun a ha => le_of_lt (h2 a ha)), absList_append,
      cntIn_split (absList_fst_lt h1) (absList_fst_gt h2)]
    cases post with
    | nil => rfl
    | cons c r =>
      have := h2 c (by simp)
      have hne : ¬ valOf s.heap c = v := by omega
      simp [hne]
  · subst he
    have h2c : ∀ a ∈ c :: post, v ≤ valOf s.heap a := by
      intro a ha
      rcases List.mem_cons.1 ha with e | e
      · rw [e, hc]
      · exact le_of_lt (h2 a e)
    rw [h.count_eq v h1 h2c, absList_append]
    have : absList s.heap (c :: post) = (v, cntOf s.heap c) :: absList s.heap post := by
      simp [absList, hc]
    rw [this, cntIn_split_mid (absList_fst_lt h1) (absList_fst_gt h2)]
    simp [hc]

theorem absList_fst (hp : Heap) (l : List Nat) :
    (absList hp l).map Prod.fst = l.map (valOf hp) := by
  simp [absList]

theorem Inv.levelNodes_eq {s : SkipList} {ns : List Nat} (h : Inv s ns) :
    ∃ l, levelNodes s 0 = some l ∧ l.map (fun n => (n.val, n.count)) = absList s.heap ns := by
  obtain ⟨l, h1, -, h3⟩ := nodesAt_spec s.heap ns h.live
  refine ⟨l, ?_, h3⟩
  simp [levelNodes, h.level_eq (Nat.zero_le _), atLevel_zero h.live, h1]

theorem Inv.cnt_pos {s : SkipList} {ns : List Nat} (h : Inv s ns) :
    ∀ p ∈ absList s.heap ns, 1 ≤ p.2 := by
  intro p hp
  obtain ⟨a, ha, rfl⟩ := List.mem_map.1 hp
  exact h.cnt a ha

theorem atLevel_succ_sublist (hp : Heap) (i : Nat) (l : List Nat) :
    (atLevel hp (i + 1) l).Sublist (atLevel hp i l) := by
  have : atLevel hp (i + 1) l = (atLevel hp i l).filter fun a => decide (i + 1 < lvl hp a) := by
    simp only [atLevel, List.filter_filter]
    apply List.filter_congr
    intro a _
    by_cases h : i + 1 < lvl hp a
    · have : i < lvl hp a := by omega
      simp [h, this]
    · simp [h]
  rw [this]
  exact List.filter_sublist _

theorem Inv.level_sorted {s : SkipList} {ns : List Nat} (h : Inv s ns) (i : Nat) :
    ((atLevel s.heap i ns).map (valOf s.heap)).Pairwise (· < ·) := by
  rw [List.pairwise_map]
  exact h.sorted.sublist (List.filter_sublist _)

theorem sinceLastRemove_snoc (v : Int) (ops : List Op) (op : Op) :
    sinceLastRemove v (ops ++ [op])
      = if op.isRemoveOf v then [] else sinceLastRemove v ops ++ [op] := by
  unfold sinceLastRemove
  rw [List.reverse_append]
  by_cases h : op.isRemoveOf v = true
  · simp [List.takeWhile_cons, h]
  · simp [List.takeWhile_cons, h]

theorem insertCalls_snoc (v : Int) (ops : List Op) (op : Op) :
    insertCalls v (ops ++ [op]) = insertCalls v ops + if op.isInsertOf v then 1 else 0 := by
  unfold insertCalls
  rw [List.countP_append]
  by_cases h : op.isInsertOf v = true <;> simp [List.countP_cons, h]

/-- The effect of one call on `count_occurrence(v)`. -/
theorem Inv.step_count {s s1 : SkipList} {ns : List Nat} (h : Inv s ns) {op : Op}
    (hs : SkipList.step s op = some s1) (v : Int) :
    ∃ k, count_occurrence s v = some k ∧
      count_occurrence s1 v
        = some (if op.isRemoveOf v then 0 else if op.isInsertOf v then k + 1 else k) := by
  refine ⟨_, h.count_abs v, ?_⟩
  cases op with
  | insert w hgt =>
    obtain ⟨s2, ns2, hins, hinv, A, B, hA, hB, hcase⟩ := h.insert_step w hgt.val (by
      have := hgt.isLt
      show hgt.val ≤ 16
      omega)
    simp only [SkipList.step] at hs
    rw [hins] at hs
    cases hs
    rw [hinv.count_abs v]
    simp only [Op.isRemoveOf, Op.isInsertOf, Bool.false_eq_true, if_false, decide_eq_true_eq]
    by_cases hw : w = v
    · subst hw
      simp only [if_true]
      rcases hcase with ⟨e1, e2⟩ | ⟨k, e1, e2⟩
      · rw [e1, e2, cntIn_split hA hB, cntIn_split_mid hA hB]
        rfl
      · rw [e1, e2, cntIn_split_mid hA hB, cntIn_split_mid hA hB]
    · simp only [hw, if_false]
      rcases hcase with ⟨e1, e2⟩ | ⟨k, e1, e2⟩
      · rw [e1, e2, cntIn_other A B 1 hw]
      · rw [e1, e2, cntIn_other A B _ hw, cntIn_other A B _ hw]
  | remove w =>
    obtain ⟨b, s2, ns2, hrem, hinv, A, B, hA, hB, hcase⟩ := h.remove_step w
    simp only [SkipList.step, hrem, Option.map_some', Option.some.injEq] at hs
    subst hs
    rw [hinv.count_abs v]
    simp only [Op.isRemoveOf, Op.isInsertOf, Bool.false_eq_true, if_false, decide_eq_true_eq]
    by_cases hw : w = v
    · subst hw
      simp only [if_true]
      rcases hcase with ⟨-, e0, e1⟩ | ⟨-, k, e1, e2⟩
      · have e3 := h.count_abs w
        rw [e1, cntIn_split hA hB] at e3
        rw [← hinv.count_abs w]
        show count_occurrence s2 w = some 0
        rw [e0]
        exact e3
      · rw [e2, cntIn_split hA hB]
    · simp only [hw, if_false]
      rcases hcase with ⟨-, e0, e1⟩ | ⟨-, k, e1, e2⟩
      · rw [← hinv.count_abs v, ← h.count_abs v]
        show count_occurrence s2 v = count_occurrence s v
        rw [e0]
      · rw [e1, e2, cntIn_other A B _ hw]

theorem count_trace : ∀ (ops : List Op) (s : SkipList), run ops = some s → ∀ v : Int,
    count_occurrence s v = some (insertCalls v (sinceLastRemove v ops) : Int) := by
  intro ops
  induction ops using List.reverseRecOn with
  | nil =>
    intro s hs v
    simp only [run, runFrom, Option.some.injEq] at hs
    subst hs
    rfl
  | append_singleton ops op ih =>
    intro s1 hs v
    rw [run_snoc] at hs
    obtain ⟨s, hr⟩ := run_total ops
    rw [hr] at hs
    simp only [Option.some_bind] at hs
    obtain ⟨ns, hinv⟩ := Reachable.inv ⟨ops, hr⟩
    obtain ⟨k, hk, hk1⟩ := hinv.step_count hs v
    rw [ih s hr v] at hk
    cases hk
    rw [hk1, sinceLastRemove_snoc]
    by_cases h1 : op.isRemoveOf v = true
    · simp [h1, insertCalls]
    · have h2 : op.isRemoveOf v = false := by simpa using h1
      simp only [h2, Bool.false_eq_true, if_false, insertCalls_snoc]
      by_cases h3 : op.isInsertOf v = true
      · simp [h3]
      · simp [h3]

theorem Inv.remove_find {s : SkipList} {ns : List Nat} (h : Inv s ns) (v : Int) :
    ∃ b s1, remove s v = some (b, s1) ∧ find s v = some b ∧ (b = false → s1 = s) := by
  obtain ⟨b, s1, ns1, hrem, -, A, B, hA, hB, hcase⟩ := h.remove_step v
  refine ⟨b, s1, hrem, ?_, ?_⟩
  · rw [h.find_abs v, ← absList_fst]
    rcases hcase with ⟨hb, -, e1⟩ | ⟨hb, k, e1, -⟩
    · rw [hb, e1, decide_eq_false]
      intro hm
      obtain ⟨p, hp, hpv⟩ := List.mem_map.1 hm
      rcases List.mem_append.1 hp with m | m
      · have := hA p m
        omega
      · have := hB p m
        omega
    · rw [hb, e1, decide_eq_true]
      exact List.mem_map.2 ⟨(v, k), by simp, rfl⟩
  · intro hb
    rcases hcase with ⟨-, e0, -⟩ | ⟨hb2, -⟩
    · exact e0
    · rw [hb] at hb2
      cases hb2

theorem Inv.insert_sums {s : SkipList} {ns : List Nat} (h : Inv s ns) (v : Int)
    (height : Nat) (hh : height ≤ MAX_HEIGHT) :
    ∃ s1 l l1, insert s v height = some s1 ∧ levelNodes s 0 = some l ∧
      levelNodes s1 0 = some l1 ∧
      (l1.map fun n => n.count).sum = (l.map fun n => n.count).sum + 1 ∧
      l1.length = l.length + (if v ∈ l.map (fun n => n.val) then 0 else 1) := by
  obtain ⟨s1, ns1, hins, hinv, A, B, hA, hB, hcase⟩ := h.insert_step v height hh
  obtain ⟨l, hl, hlabs⟩ := h.levelNodes_eq
  obtain ⟨l1, hl1, hl1abs⟩ := hinv.levelNodes_eq
  have hsum : ∀ l : List Node, (l.map fun n => n.count).sum
      = ((l.map fun n => (n.val, n.count)).map Prod.snd).sum := by
    intro l
    rw [List.map_map]
    rfl
  have hlen : ∀ l : List Node, l.length = (l.map fun n => (n.val, n.count)).length := by
    intro l
    simp
  have hvals : ∀ l : List Node, l.map (fun n => n.val)
      = (l.map fun n => (n.val, n.count)).map Prod.fst := by
    intro l
    rw [List.map_map]
    rfl
  refine ⟨s1, l, l1, hins, hl, hl1, ?_, ?_⟩
  · rw [hsum l, hsum l1, hlabs, hl1abs]
    rcases hcase with ⟨e1, e2⟩ | ⟨k, e1, e2⟩
    · rw [e1, e2]
      simp
      ring
    · rw [e1, e2]
      simp
      ring
  · rw [hlen l, hlen l1, hvals l, hlabs, hl1abs]
    rcases hcase with ⟨e1, e2⟩ | ⟨k, e1, e2⟩
    · rw [e1, e2]
      have hnot : v ∉ (A ++ B).map Prod.fst := by
        intro hm
        obtain ⟨p, hp, hpv⟩ := List.mem_map.1 hm
        rcases List.mem_append.1 hp with m | m
        · have := hA p m
          omega
        · have := hB p m
          omega
      rw [if_neg hnot]
      simp
      omega
    · rw [e1, e2]
      have hin : v ∈ (A ++ (v, k) :: B).map Prod.fst :=
        List.mem_map.2 ⟨(v, k), by simp, rfl⟩
      rw [if_pos hin]
      simp

theorem Inv.lower_absent {s : SkipList} {ns : List Nat} (h : Inv s ns) (v : Int)
    (hno : ∀ e ∈ ns.map (valOf s.heap), e < v) : lower_bound s v = some 0 := by
  obtain ⟨pre, post, he, h1, h2⟩ := split_sorted (fun x => comp x v) (comp_mono v) s.heap ns
    h.sorted
  simp only [comp, decide_eq_true_eq, decide_eq_false_iff_not, not_lt] at h1 h2
  subst he
  cases post with
  | nil => rw [h.lower_eq v h1 h2]; rfl
  | cons c r =>
    exfalso
    have := h2 c (by simp)
    have := hno (valOf s.heap c) (List.mem_map.2 ⟨c, by simp, rfl⟩)
    omega

theorem Inv.upper_absent {s : SkipList} {ns : List Nat} (h : Inv s ns) (v : Int)
    (hno : ∀ e ∈ ns.map (valOf s.heap), e ≤ v) : upper_bound s v = some 0 := by
  obtain ⟨pre, post, he, h1, h2⟩ := split_sorted (fun x => !comp v x) (ncomp_mono v) s.heap ns
    h.sorted
  simp only [comp, Bool.not_eq_true', decide_eq_false_iff_not, not_lt, Bool.not_eq_false',
    decide_eq_true_eq] at h1 h2
  subst he
  cases post with
  | nil => rw [h.upper_eq v h1 h2]; rfl
  | cons c r =>
    exfalso
    have := h2 c (by simp)
    have := hno (valOf s.heap c) (List.mem_map.2 ⟨c, by simp, rfl⟩)
    omega

theorem Inv.closest_empty {s : SkipList} (h : Inv s []) (v : Int) :
    closest_element s v = some 0 := by
  have hl := (h.linked 0 (Nat.zero_le _)).read_head
  simp only [atLevel, List.filter_nil, List.head?_nil] at hl
  unfold closest_element
  rw [hl]

theorem Inv.find_iff_count {s : SkipList} {ns : List Nat} (h : Inv s ns) (v : Int) :
    ∃ b k, find s v = some b ∧ count_occurrence s v = some k ∧ (b = true ↔ 0 < k) := by
  obtain ⟨pre, post, h1, h2, hsplit⟩ := h.split3 v
  rcases hsplit with he | ⟨c, he, hc⟩
  · subst he
    refine ⟨false, 0, ?_, ?_, by simp⟩
    · rw [h.find_eq v h1 (fun a ha => le_of_lt (h2 a ha))]
      cases post with
      | nil => rfl
      | cons c r =>
        have := h2 c (by simp)
        have hne : ¬ valOf s.heap c = v := by omega
        simp [hne]
    · rw [h.count_eq v h1 (fun a ha => le_of_lt (h2 a ha))]
      cases post with
      | nil => rfl
      | cons c r =>
        have := h2 c (by simp)
        have hne : ¬ valOf s.heap c = v := by omega
        simp [hne]
  · subst he
    have h2c : ∀ a ∈ c :: post, v ≤ valOf s.heap a := by
      intro a ha
      rcases List.mem_cons.1 ha with e | e
      · rw [e, hc]
      · exact le_of_lt (h2 a e)
    refine ⟨true, cntOf s.heap c, ?_, ?_, ?_⟩
    · rw [h.find_eq v h1 h2c]
      simp [hc]
    · rw [h.count_eq v h1 h2c]
      simp [hc]
    · have := h.cnt c (by simp)
      simp
      omega

/-! ## The claims -/

/-- C1: in every state reachable from the empty list by `insert` and `remove` calls
(with heights in `0..16`), the level-0 traversal from `head->next[0]` succeeds and
yields a strictly increasing sequence of values, so every stored value is held by
exactly one node. -/
theorem level0_strictly_increasing (s : SkipList) (hs : Reachable s) :
    ∃ l, values s = some l ∧ l.Pairwise (· < ·) ∧ ∀ v ∈ l, l.count v = 1 := by
  obtain ⟨ns, h⟩ := hs.inv
  refine ⟨_, h.values_eq, h.values_sorted, ?_⟩
  intro v hv
  apply List.count_eq_one_of_mem _ hv
  exact h.values_sorted.imp (fun hab => ne_of_lt hab)

theorem level0_strictly_increasing_witness :
    Reachable sample ∧ values sample = some [3, 5, 8] ∧
      ∃ l, values sample = some l ∧ l.Pairwise (· < ·) ∧ ∀ v ∈ l, l.count v = 1 :=
  ⟨⟨sampleOps, by decide⟩, by decide,
    level0_strictly_increasing sample ⟨sampleOps, by decide⟩⟩

/-- C2: in every reachable state, if some stored element is `≥ v` then
`lower_bound(v)` returns the least stored element that is `≥ v`. -/
theorem lower_bound_is_min (s : SkipList) (hs : Reachable s) (v : Int) (l : List Int)
    (hl : values s = some l) (hex : ∃ e ∈ l, v ≤ e) :
    ∃ r, lower_bound s v = some r ∧ r ∈ l ∧ v ≤ r ∧ ∀ e ∈ l, v ≤ e → r ≤ e := by
  obtain ⟨ns, h⟩ := hs.inv
  rw [h.values_eq] at hl
  cases hl
  exact h.lower_bound_min v hex

theorem lower_bound_is_min_witness :
    lower_bound sample 4 = some 5 ∧
      ∃ r, lower_bound sample 4 = some r ∧ r ∈ [3, 5, 8] ∧ (4 : Int) ≤ r ∧
        ∀ e ∈ [3, 5, 8], (4 : Int) ≤ e → r ≤ e :=
  ⟨by decide, lower_bound_is_min sample ⟨sampleOps, by decide⟩ 4 [3, 5, 8] (by decide)
    ⟨5, by decide, by decide⟩⟩

/-- C3: in every reachable state, if some stored element is `> v` then
`upper_bound(v)` returns the least stored element that is `> v`; when `v` itself is
stored, `lower_bound(v)` returns `v`, which differs from `upper_bound(v)`, and
`upper_bound(v)` is the value that follows `v` in the level-0 chain. -/
theorem upper_bound_is_min (s : SkipList) (hs : Reachable s) (v : Int) (l : List Int)
    (hl : values s = some l) (hex : ∃ e ∈ l, v < e) :
    ∃ r, upper_bound s v = some r ∧ r ∈ l ∧ v < r ∧ (∀ e ∈ l, v < e → r ≤ e) ∧
      (v ∈ l → lower_bound s v = some v ∧ lower_bound s v ≠ upper_bound s v ∧
        ∃ l1 l2, l = l1 ++ v :: r :: l2) := by
  obtain ⟨ns, h⟩ := hs.inv
  rw [h.values_eq] at hl
  cases hl
  obtain ⟨r, hr, hmem, hlt, hmin, hsucc⟩ := h.upper_bound_min v hex
  refine ⟨r, hr, hmem, hlt, hmin, ?_⟩
  intro hv
  refine ⟨h.lower_bound_mem v hv, ?_, hsucc hv⟩
  rw [h.lower_bound_mem v hv, hr]
  intro hc
  cases hc
  exact lt_irrefl _ hlt

theorem upper_bound_is_min_witness :
    upper_bound sample 5 = some 8 ∧
      ∃ r, upper_bound sample 5 = some r ∧ r ∈ [3, 5, 8] ∧ (5 : Int) < r ∧
        (∀ e ∈ [3, 5, 8], (5 : Int) < e → r ≤ e) ∧
        ((5 : Int) ∈ [3, 5, 8] → lower_bound sample 5 = some 5 ∧
          lower_bound sample 5 ≠ upper_bound sample 5 ∧
          ∃ l1 l2, [3, 5, 8] = l1 ++ (5 : Int) :: r :: l2) :=
  ⟨by decide, upper_bound_is_min sample ⟨sampleOps, by decide⟩ 5 [3, 5, 8] (by decide)
    ⟨8, by decide, by decide⟩⟩

/-- C4, at the failing input: after `insert(-2147483648)` and `insert(0)` the stored
values are `-2147483648` and `0`, and `closest_element(0)` returns `-2147483648`
although the stored element `0` is at distance zero. -/
theorem closest_element_overflow :
    (run [.insert (-2147483648) 0, .insert 0 0]).bind values = some [-2147483648, 0] ∧
      (run [.insert (-2147483648) 0, .insert 0 0]).bind (fun s => closest_element s 0)
        = some (-2147483648) := by
  decide

/-- C5: after any sequence of calls on the empty list, `count_occurrence(v)` is the
number of `insert(v)` calls made after the most recent `remove(v)` call; a further
call on another value leaves it unchanged; a further `remove(v)` makes it `0` and
makes `find(v)` false. -/
theorem count_occurrence_trace (ops : List Op) (s : SkipList) (hs : run ops = some s)
    (v : Int) :
    count_occurrence s v = some (insertCalls v (sinceLastRemove v ops) : Int) ∧
      (∀ op : Op, op.isInsertOf v = false → op.isRemoveOf v = false →
        ∃ s1, step s op = some s1 ∧ count_occurrence s1 v = count_occurrence s v) ∧
      (∃ s1, step s (.remove v) = some s1 ∧ count_occurrence s1 v = some 0 ∧
        find s1 v = some false) := by
  obtain ⟨ns, h⟩ := Reachable.inv ⟨ops, hs⟩
  refine ⟨count_trace ops s hs v, ?_, ?_⟩
  · intro op h1 h2
    obtain ⟨s1, ns1, hst, -⟩ := h.step_ok op
    obtain ⟨k, hk, hk1⟩ := h.step_count hst v
    refine ⟨s1, hst, ?_⟩
    rw [hk1, hk, h1, h2]
    rfl
  · obtain ⟨s1, ns1, hst, hinv⟩ := h.step_ok (.remove v)
    obtain ⟨k, hk, hk1⟩ := h.step_count hst v
    have h0 : count_occurrence s1 v = some 0 := by
      rw [hk1]
      simp [Op.isRemoveOf]
    refine ⟨s1, hst, h0, ?_⟩
    obtain ⟨b, k2, hb, hk2, hiff⟩ := hinv.find_iff_count v
    rw [h0] at hk2
    cases hk2
    rw [hb]
    cases b with
    | false => rfl
    | true => exact absurd (hiff.1 rfl) (lt_irrefl _)

theorem count_occurrence_trace_witness :
    (count_occurrence sample 3 = some 2 ∧
      (run (sampleOps ++ [.remove 3])).bind (fun s => count_occurrence s 3) = some 0) ∧
      (count_occurrence sample 3 = some (insertCalls 3 (sinceLastRemove 3 sampleOps) : Int) ∧
        (∀ op : Op, op.isInsertOf 3 = false → op.isRemoveOf 3 = false →
          ∃ s1, step sample op = some s1 ∧
            count_occurrence s1 3 = count_occurrence sample 3) ∧
        (∃ s1, step sample (.remove 3) = some s1 ∧ count_occurrence s1 3 = some 0 ∧
          find s1 3 = some false)) :=
  ⟨by decide, count_occurrence_trace sampleOps sample (by decide) 3⟩

/-- C6: in every reachable state `find(v)` and `count_occurrence(v)` return, and
`find(v)` is true exactly when `count_occurrence(v) > 0`; every node of the level-0
chain has a counter of at least one. -/
theorem find_iff_count_pos (s : SkipList) (hs : Reachable s) (v : Int) :
    (∃ b k, find s v = some b ∧ count_occurrence s v = some k ∧ (b = true ↔ 0 < k)) ∧
      ∃ l, levelNodes s 0 = some l ∧ ∀ n ∈ l, 1 ≤ n.count := by
  obtain ⟨ns, h⟩ := hs.inv
  refine ⟨h.find_iff_count v, ?_⟩
  obtain ⟨l, hl, habs⟩ := h.levelNodes_eq
  refine ⟨l, hl, ?_⟩
  intro n hn
  have : (n.val, n.count) ∈ absList s.heap ns := by
    rw [← habs]
    exact List.mem_map.2 ⟨n, hn, rfl⟩
  exact h.cnt_pos _ this

theorem find_iff_count_pos_witness :
    (find sample 8 = some true ∧ count_occurrence sample 8 = some 1) ∧
      ((∃ b k, find sample 8 = some b ∧ count_occurrence sample 8 = some k ∧
          (b = true ↔ 0 < k)) ∧
        ∃ l, levelNodes sample 0 = some l ∧ ∀ n ∈ l, 1 ≤ n.count) :=
  ⟨by decide, find_iff_count_pos sample ⟨sampleOps, by decide⟩ 8⟩

/-- C7: in every reachable state `remove(v)` returns, its flag equals the result of
`find(v)` before the call, and when the flag is false the state is unchanged. -/
theorem remove_flag_is_find (s : SkipList) (hs : Reachable s) (v : Int) :
    ∃ b s1, remove s v = some (b, s1) ∧ find s v = some b ∧ (b = false → s1 = s) := by
  obtain ⟨ns, h⟩ := hs.inv
  exact h.remove_find v

theorem remove_flag_is_find_witness :
    (remove sample 4 = some (false, sample) ∧ find sample 4 = some false) ∧
      ∃ b s1, remove sample 4 = some (b, s1) ∧ find sample 4 = some b ∧
        (b = false → s1 = sample) :=
  ⟨by decide, remove_flag_is_find sample ⟨sampleOps, by decide⟩ 4⟩

/-- C8: in every reachable state `insert(v)` with a height in `0..16` returns; it
raises the sum of the counters of the level-0 nodes by exactly one, and the number
of level-0 nodes by one if `v` was not stored and by zero if it was. -/
theorem insert_sizes (s : SkipList) (hs : Reachable s) (v : Int) (height : Nat)
    (hh : height ≤ MAX_HEIGHT) :
    ∃ s1 l l1, insert s v height = some s1 ∧ levelNodes s 0 = some l ∧
      levelNodes s1 0 = some l1 ∧
      (l1.map fun n => n.count).sum = (l.map fun n => n.count).sum + 1 ∧
      l1.length = l.length + (if v ∈ l.map (fun n => n.val) then 0 else 1) := by
  obtain ⟨ns, h⟩ := hs.inv
  exact h.insert_sums v height hh

theorem insert_sizes_witness :
    ((levelNodes sample 0).map (fun l => l.length) = some 3 ∧
      ((insert sample 3 7).bind fun s1 => levelNodes s1 0).map (fun l => l.length)
        = some 3) ∧
      ∃ s1 l l1, insert sample 3 7 = some s1 ∧ levelNodes sample 0 = some l ∧
        levelNodes s1 0 = some l1 ∧
        (l1.map fun n => n.count).sum = (l.map fun n => n.count).sum + 1 ∧
        l1.length = l.length + (if (3 : Int) ∈ l.map (fun n => n.val) then 0 else 1) :=
  ⟨by decide, insert_sizes sample ⟨sampleOps, by decide⟩ 3 7 (by decide)⟩

/-- C9, as the code behaves: the result with no qualifying element is the same as
the result when the stored value `0` is the answer. On the empty list
`lower_bound(0)`, `upper_bound(-1)` and `closest_element(0)` return `0`, and on the
list that stores only `0` they return `0` as well. -/
theorem absent_result_is_zero_counterexample :
    values empty = some [] ∧
      (run [.insert 0 0]).bind values = some [0] ∧
      lower_bound empty 0 = (run [.insert 0 0]).bind (fun s => lower_bound s 0) ∧
      upper_bound empty (-1) = (run [.insert 0 0]).bind (fun s => upper_bound s (-1)) ∧
      closest_element empty 0 = (run [.insert 0 0]).bind (fun s => closest_element s 0) := by
  decide

/-- C9, amended: in every reachable state, `lower_bound(v)` returns the
default-constructed value `0` when no stored element is `≥ v`, `upper_bound(v)`
returns `0` when no stored element is `> v`, and `closest_element(v)` returns `0`
when the list is empty. -/
theorem absent_result_is_default (s : SkipList) (hs : Reachable s) (v : Int) (l : List Int)
    (hl : values s = some l) :
    ((∀ e ∈ l, e < v) → lower_bound s v = some 0) ∧
      ((∀ e ∈ l, e ≤ v) → upper_bound s v = some 0) ∧
      (l = [] → closest_element s v = some 0) := by
  obtain ⟨ns, h⟩ := hs.inv
  rw [h.values_eq] at hl
  cases hl
  refine ⟨h.lower_absent v, h.upper_absent v, ?_⟩
  intro hnil
  have : ns = [] := List.map_eq_nil_iff.1 hnil
  subst this
  exact h.closest_empty v

theorem absent_result_is_default_witness :
    lower_bound sample 9 = some 0 ∧ upper_bound sample 8 = some 0 ∧
      closest_element empty 7 = some 0 :=
  ⟨(absent_result_is_default sample ⟨sampleOps, by decide⟩ 9 [3, 5, 8] (by decide)).1
      (by decide),
    (absent_result_is_default sample ⟨sampleOps, by decide⟩ 8 [3, 5, 8] (by decide)).2.1
      (by decide),
    (absent_result_is_default empty ⟨[], rfl⟩ 7 [] (by decide)).2.2 rfl⟩

/-- C10: in every reachable state, for every level `i` below `MAX_HEIGHT` the chain
from the head through `next[i + 1]` is a subsequence of the chain through `next[i]`,
and on every level `0..MAX_HEIGHT` the values along the chain are strictly
increasing. -/
theorem levels_nested_and_sorted (s : SkipList) (hs : Reachable s) :
    (∀ i, i < MAX_HEIGHT → ∃ l0 l1, level s i = some l0 ∧ level s (i + 1) = some l1 ∧
        l1.Sublist l0) ∧
      (∀ i, i ≤ MAX_HEIGHT → ∃ vs, levelVals s i = some vs ∧ vs.Pairwise (· < ·)) := by
  obtain ⟨ns, h⟩ := hs.inv
  refine ⟨?_, ?_⟩
  · intro i hi
    exact ⟨_, _, h.level_eq (le_of_lt hi), h.level_eq hi, atLevel_succ_sublist _ _ _⟩
  · intro i hi
    exact ⟨_, h.levelVals_eq hi, h.level_sorted i⟩

theorem levels_nested_and_sorted_witness :
    (level sample 0 = some [2, 1, 3] ∧ level sample 1 = some [1, 3] ∧
      levelVals sample 1 = some [5, 8]) ∧
      ((∀ i, i < MAX_HEIGHT → ∃ l0 l1, level sample i = some l0 ∧
          level sample (i + 1) = some l1 ∧ l1.Sublist l0) ∧
        (∀ i, i ≤ MAX_HEIGHT → ∃ vs, levelVals sample i = some vs ∧
          vs.Pairwise (· < ·))) :=
  ⟨by decide, levels_nested_and_sorted sample ⟨sampleOps, by decide⟩⟩

/-! ## `closest_element` away from the 32-bit boundary -/

theorem lastFrom_max (hp : Heap) : ∀ (l : List Nat) (x : Nat), l ≠ [] →
    (l.Pairwise fun a b => valOf hp a < valOf hp b) →
    lastFrom x l ∈ l ∧ ∀ a ∈ l, valOf hp a ≤ valOf hp (lastFrom x l) := by
  intro l
  induction l with
  | nil =>
    intro x hne
    exact absurd rfl hne
  | cons y t ih =>
    intro x _ hs
    cases t with
    | nil =>
      refine ⟨by simp [lastFrom], ?_⟩
      intro a ha
      rw [List.mem_singleton.1 ha]
      exact le_refl _
    | cons z u =>
      have hs2 := List.pairwise_cons.1 hs
      obtain ⟨hm, hmax⟩ := ih y (List.cons_ne_nil z u) hs2.2
      refine ⟨List.mem_cons_of_mem _ hm, ?_⟩
      intro a ha
      rcases List.mem_cons.1 ha with e | e
      · rw [e]
        exact le_of_lt (hs2.1 _ hm)
      · exact hmax a e

theorem wrap32_id {x : Int} (h1 : -2147483648 ≤ x) (h2 : x < 2147483648) : wrap32 x = x := by
  unfold wrap32
  omega

theorem diff32_eq {e v : Int} (h : |e - v| < 2147483648) : abs32 (sub32 e v) = |e - v| := by
  have h1 := abs_lt.1 h
  have h0 := abs_nonneg (e - v)
  have e1 : sub32 e v = e - v := wrap32_id (by omega) (by omega)
  unfold abs32
  rw [e1]
  exact wrap32_id (by omega) h

theorem Inv.closest_min {s : SkipList} {ns : List Nat} (h : Inv s ns) (hne : ns ≠ [])
    (v : Int) (hno : ∀ e ∈ ns.map (valOf s.heap), |e - v| < 2147483648) :
    ∃ r, closest_element s v = some r ∧ r ∈ ns.map (valOf s.heap) ∧
      (∀ e ∈ ns.map (valOf s.heap), |r - v| ≤ |e - v|) ∧
      (∀ e ∈ ns.map (valOf s.heap), |e - v| = |r - v| → r ≤ e) := by
  obtain ⟨pre, post, he, h1, h2⟩ := split_sorted (fun x => comp x v) (comp_mono v) s.heap ns
    h.sorted
  simp only [comp, decide_eq_true_eq, decide_eq_false_iff_not, not_lt] at h1 h2
  subst he
  have hhead : readNext s.heap head 0 = some (pre ++ post).head? := by
    have hl := h.linked 0 (Nat.zero_le _)
    rw [atLevel_zero h.live] at hl
    exact hl.read_head
  have hs := h.search_eq (t := fun x => comp x v)
    (by intro a ha; simpa [comp] using h1 a ha)
    (by intro a ha; simpa [comp] using h2 a ha)
  have hn := h.next_zero
  have hsorted := List.pairwise_append.1 h.sorted
  have habs_lt : ∀ e : Int, e < v → |e - v| = v - e := by
    intro e hlt
    rw [abs_of_neg (by omega)]
    omega
  have habs_ge : ∀ e : Int, v ≤ e → |e - v| = e - v := by
    intro e hge
    exact abs_of_nonneg (by omega)
  have hmemcases : ∀ e ∈ (pre ++ post).map (valOf s.heap),
      (∃ a ∈ pre, valOf s.heap a = e) ∨ (∃ a ∈ post, valOf s.heap a = e) := by
    intro e hm
    obtain ⟨a, ha, hae⟩ := List.mem_map.1 hm
    rcases List.mem_append.1 ha with m | m
    · exact Or.inl ⟨a, m, hae⟩
    · exact Or.inr ⟨a, m, hae⟩
  have hpostmin : ∀ c r, post = c :: r → ∀ a ∈ post, valOf s.heap c ≤ valOf s.heap a := by
    intro c r hp a ha
    rw [hp] at ha
    rcases List.mem_cons.1 ha with e | e
    · rw [e]
    · have := hsorted.2.1
      rw [hp] at this
      exact le_of_lt ((List.pairwise_cons.1 this).1 a e)
  cases hpre : pre with
  | nil =>
    subst hpre
    cases hpost : post with
    | nil =>
      subst hpost
      exact absurd rfl hne
    | cons c r =>
      obtain ⟨n, hg, hv, -, -⟩ := h.post_node (c := c) (by rw [hpost]; simp)
      have hmin := hpostmin c r hpost
      have hcv := h2 c (by rw [hpost]; simp)
      subst hpost
      refine ⟨valOf s.heap c, ?_, List.mem_map.2 ⟨c, by simp, rfl⟩, ?_, ?_⟩
      · unfold closest_element
        simp only [List.nil_append, List.head?_cons, lastFrom] at hhead hs hn
        simp [hhead, hs, hn, hg, hv]
      · intro e hm
        rcases hmemcases e hm with ⟨a, ha, rfl⟩ | ⟨a, ha, rfl⟩
        · simp at ha
        · have := hmin a ha
          have := h2 a ha
          rw [habs_ge _ hcv, habs_ge _ (h2 a ha)]
          omega
      · intro e hm htie
        rcases hmemcases e hm with ⟨a, ha, rfl⟩ | ⟨a, ha, rfl⟩
        · simp at ha
        · exact hmin a ha
  | cons p0 pt =>
    have hpne : pre ≠ [] := by rw [hpre]; exact List.cons_ne_nil _ _
    obtain ⟨hbm, hbmax⟩ := lastFrom_max s.heap pre head hpne hsorted.1
    have hbv := h1 _ hbm
    obtain ⟨nb, hgb, hvb, -, -⟩ := lvl_pos_getNode (h.live _ (List.mem_append_left _ hbm))
    have hbne : lastFrom head pre ≠ head := by
      intro e
      apply h.nz
      rw [← e]
      exact List.mem_append_left _ hbm
    have hh2 : ∃ x, readNext s.heap head 0 = some (some x) := by
      rw [hhead, hpre]
      exact ⟨p0, rfl⟩
    obtain ⟨x, hx⟩ := hh2
    rw [← hpre]
    cases hpost : post with
    | nil =>
      subst hpost
      refine ⟨valOf s.heap (lastFrom head pre), ?_, List.mem_map.2 ⟨_, by simpa using hbm, rfl⟩,
        ?_, ?_⟩
      · unfold closest_element
        simp only [List.head?_nil] at hn
        simp [hx, hs, hn, hbne, hgb, hvb]
      · intro e hm
        rcases hmemcases e hm with ⟨a, ha, rfl⟩ | ⟨a, ha, rfl⟩
        · have := hbmax a ha
          have := h1 a ha
          rw [habs_lt _ hbv, habs_lt _ (h1 a ha)]
          omega
        · simp at ha
      · intro e hm htie
        rcases hmemcases e hm with ⟨a, ha, rfl⟩ | ⟨a, ha, rfl⟩
        · have := hbmax a ha
          rw [habs_lt _ hbv, habs_lt _ (h1 a ha)] at htie
          omega
        · simp at ha
    | cons c r =>
      obtain ⟨nc, hgc, hvc, -, -⟩ := h.post_node (c := c) (by rw [hpost]; simp)
      have hmin := hpostmin c r hpost
      have hcv := h2 c (by rw [hpost]; simp)
      have hd1 := diff32_eq (hno (valOf s.heap (lastFrom head pre))
        (List.mem_map.2 ⟨_, List.mem_append_left _ hbm, rfl⟩))
      have hd2 := diff32_eq (hno (valOf s.heap c)
        (List.mem_map.2 ⟨c, by rw [hpost]; simp, rfl⟩))
      rw [habs_lt _ hbv] at hd1
      rw [habs_ge _ hcv] at hd2
      rw [← hpost]
      have hcl : closest_element s v
          = some (if v - valOf s.heap (lastFrom head pre) ≤ valOf s.heap c - v
              then valOf s.heap (lastFrom head pre) else valOf s.heap c) := by
        unfold closest_element
        rw [hpost] at hn
        simp only [List.head?_cons] at hn
        rw [hvb] at hd1
        rw [hvc] at hd2
        simp [hx, hs, hn, hbne, hgb, hgc, hvb, hvc, hd1, hd2]
      by_cases hcmp : v - valOf s.heap (lastFrom head pre) ≤ valOf s.heap c - v
      · rw [if_pos hcmp] at hcl
        refine ⟨_, hcl, List.mem_map.2 ⟨_, List.mem_append_left _ hbm, rfl⟩, ?_, ?_⟩
        · intro e hm
          rcases hmemcases e hm with ⟨a, ha, rfl⟩ | ⟨a, ha, rfl⟩
          · have := hbmax a ha
            rw [habs_lt _ hbv, habs_lt _ (h1 a ha)]
            omega
          · have := hmin a ha
            rw [habs_lt _ hbv, habs_ge _ (h2 a ha)]
            omega
        · intro e hm htie
          rcases hmemcases e hm with ⟨a, ha, rfl⟩ | ⟨a, ha, rfl⟩
          · have := hbmax a ha
            rw [habs_lt _ hbv, habs_lt _ (h1 a ha)] at htie
            omega
          · have := h2 a ha
            omega
      · rw [if_neg hcmp] at hcl
        refine ⟨_, hcl, List.mem_map.2 ⟨c, by rw [hpost]; simp, rfl⟩, ?_, ?_⟩
        · intro e hm
          rcases hmemcases e hm with ⟨a, ha, rfl⟩ | ⟨a, ha, rfl⟩
          · have := hbmax a ha
            rw [habs_ge _ hcv, habs_lt _ (h1 a ha)]
            omega
          · have := hmin a ha
            rw [habs_ge _ hcv, habs_ge _ (h2 a ha)]
            omega
        · intro e hm htie
          rcases hmemcases e hm with ⟨a, ha, rfl⟩ | ⟨a, ha, rfl⟩
          · have := hbmax a ha
            rw [habs_ge _ hcv, habs_lt _ (h1 a ha)] at htie
            omega
          · exact hmin a ha

/-- After any sequence of calls, no counter exceeds the number of calls made, so
the counters stay below `2^31` as long as fewer than `2^31` calls are made. -/
theorem count_le_calls (ops : List Op) (s : SkipList) (hs : run ops = some s) (v : Int) :
    ∃ k, count_occurrence s v = some k ∧ 0 ≤ k ∧ k ≤ (ops.length : Int) := by
  refine ⟨_, count_trace ops s hs v, by positivity, ?_⟩
  have h1 : insertCalls v (sinceLastRemove v ops) ≤ (sinceLastRemove v ops).length :=
    List.countP_le_length _
  have h2 : (sinceLastRemove v ops).length ≤ ops.length := by
    unfold sinceLastRemove
    rw [List.length_reverse]
    have := (List.takeWhile_sublist (fun op => !op.isRemoveOf v) (l := ops.reverse)).length_le
    rw [List.length_reverse] at this
    exact this
  exact_mod_cast le_trans h1 h2

/-! ## The top level -/

theorem lastFrom_eq_getLast (a : Nat) (l : List Nat) : lastFrom a l = l.getLast?.getD a := by
  induction l generalizing a with
  | nil => rfl
  | cons b r ih =>
    rw [lastFrom, ih b]
    cases r with
    | nil => rfl
    | cons c t =>
      rw [List.getLast?_cons_cons, List.getLast?_eq_getLast _ (List.cons_ne_nil c t)]
      rfl

theorem Inv.above_empty {s : SkipList} {ns : List Nat} (h : Inv s ns) {i : Nat}
    (h1 : s.curr_height < i) (h2 : i ≤ MAX_HEIGHT) : readNext s.heap head i = some none := by
  have hl := (h.linked i h2).read_head
  rw [atLevel_nil_of_le] at hl
  · exact hl
  · intro a ha
    have := (h.lv a ha).2
    omega

theorem Inv.top_nonempty {s : SkipList} {ns : List Nat} (h : Inv s ns)
    (h1 : 0 < s.curr_height) : ∃ b, readNext s.heap head s.curr_height = some (some b) := by
  rcases h.top with e | ⟨a, ha, hl⟩
  · omega
  · have hr := (h.linked s.curr_height h.ch).read_head
    have hm : a ∈ atLevel s.heap s.curr_height ns := mem_atLevel.2 ⟨ha, by omega⟩
    cases hat : atLevel s.heap s.curr_height ns with
    | nil =>
      rw [hat] at hm
      simp at hm
    | cons b r =>
      rw [hat] at hr
      exact ⟨b, hr⟩

theorem Inv.empty_height {s : SkipList} (h : Inv s []) : s.curr_height = 0 := by
  rcases h.top with e | ⟨a, ha, -⟩
  · exact e
  · simp at ha

theorem Inv.insert_height {s : SkipList} {ns : List Nat} (h : Inv s ns) (v : Int)
    (height : Nat) (hh : height ≤ MAX_HEIGHT) :
    ∃ s1 ns1, insert s v height = some s1 ∧ Inv s1 ns1 ∧
      s1.curr_height
        = if find s v = some false ∧ s.curr_height < height then height
          else s.curr_height := by
  obtain ⟨pre, post, h1, h2, hsplit⟩ := h.split3 v
  rcases hsplit with he | ⟨c, he, hc⟩
  · subst he
    obtain ⟨s1, hins, hinv, -, hch, -⟩ := h.insert_fresh v height hh h1 h2
    refine ⟨s1, _, hins, hinv, ?_⟩
    have hf : find s v = some false := by
      rw [h.find_abs v, decide_eq_false]
      intro hm
      obtain ⟨a, ha, hav⟩ := List.mem_map.1 hm
      rcases List.mem_append.1 ha with m | m
      · have := h1 a m
        omega
      · have := h2 a m
        omega
    rw [hch]
    by_cases hlt : s.curr_height < height
    · rw [if_pos ⟨hf, hlt⟩, max_eq_right (le_of_lt hlt)]
    · rw [if_neg (fun hc => hlt hc.2), max_eq_left (by omega)]
  · subst he
    obtain ⟨n, hg, hins, hinv, -⟩ := h.insert_dup v height h1 hc
    refine ⟨_, _, hins, hinv, ?_⟩
    have hf : find s v = some true := by
      rw [h.find_abs v, decide_eq_true]
      exact List.mem_map.2 ⟨c, by simp, hc⟩
    rw [if_neg]
    rw [hf]
    intro hcon
    cases hcon.1

theorem Inv.remove_height {s : SkipList} {ns : List Nat} (h : Inv s ns) (v : Int) :
    ∃ b s1 ns1, remove s v = some (b, s1) ∧ Inv s1 ns1 ∧
      s1.curr_height ≤ s.curr_height ∧ s1.heap.length = s.heap.length := by
  obtain ⟨pre, post, h1, h2, hsplit⟩ := h.split3 v
  rcases hsplit with he | ⟨c, he, hc⟩
  · subst he
    exact ⟨false, s, _, h.remove_absent v h1 h2, h, le_refl _, rfl⟩
  · subst he
    obtain ⟨s1, hrem, hinv, -, hle, hlen⟩ := h.remove_found_full v h1 hc
    exact ⟨true, s1, _, hrem, hinv, hle, hlen⟩

/-! ## The descent and the level chains -/

theorem atLevel_filter_pre {hp : Heap} {pre post : List Nat} {v : Int} (i : Nat)
    (h1 : ∀ a ∈ pre, valOf hp a < v) (h2 : ∀ a ∈ post, v ≤ valOf hp a) :
    (atLevel hp i (pre ++ post)).filter (fun a => decide (valOf hp a < v))
      = atLevel hp i pre := by
  rw [atLevel_append, List.filter_append]
  have e1 : (atLevel hp i pre).filter (fun a => decide (valOf hp a < v)) = atLevel hp i pre := by
    rw [List.filter_eq_self]
    intro a ha
    simpa using h1 a (mem_atLevel.1 ha).1
  have e2 : (atLevel hp i post).filter (fun a => decide (valOf hp a < v)) = [] := by
    rw [List.filter_eq_nil_iff]
    intro a ha
    have := h2 a (mem_atLevel.1 ha).1
    simpa using this
  rw [e1, e2, List.append_nil]

theorem find_first_post {hp : Heap} {pre post : List Nat} {v : Int}
    (h1 : ∀ a ∈ pre, valOf hp a < v) (h2 : ∀ a ∈ post, v ≤ valOf hp a) :
    (pre ++ post).find? (fun a => decide (v ≤ valOf hp a)) = post.head? := by
  induction pre with
  | nil =>
    cases post with
    | nil => rfl
    | cons c r => simp [List.find?_cons, h2 c (by simp)]
  | cons x r ih =>
    have hx := h1 x (by simp)
    have : ¬ v ≤ valOf hp x := by omega
    simp only [List.cons_append, List.find?_cons, this, decide_False]
    exact ih (fun a ha => h1 a (List.mem_cons_of_mem _ ha))

theorem Inv.descent_update {s : SkipList} {ns : List Nat} (h : Inv s ns) (v : Int) :
    ∃ curr upd,
      descend (fun x => comp x v) s.heap (s.curr_height + 1) head updateInit = some (curr, upd) ∧
      (∀ i, i ≤ s.curr_height → ∃ li, level s i = some li ∧
        getUpd upd i
          = some ((li.filter fun a => decide (valOf s.heap a < v)).getLast?.getD head)) ∧
      ∃ l0, level s 0 = some l0 ∧ getUpd upd 0 = some curr ∧
        readNext s.heap curr 0 = some (l0.find? fun a => decide (v ≤ valOf s.heap a)) := by
  obtain ⟨pre, post, he, h1, h2⟩ := split_sorted (fun x => comp x v) (comp_mono v) s.heap ns
    h.sorted
  simp only [comp, decide_eq_true_eq, decide_eq_false_iff_not, not_lt] at h1 h2
  subst he
  obtain ⟨upd, hd, -, hule, -⟩ := h.descend_eq (t := fun x => comp x v)
    (by intro a ha; simpa [comp] using h1 a ha)
    (by intro a ha; simpa [comp] using h2 a ha)
  refine ⟨_, upd, hd, ?_, ?_⟩
  · intro i hi
    refine ⟨_, h.level_eq (le_trans hi h.ch), ?_⟩
    rw [hule i hi, atLevel_filter_pre i h1 h2, upd_at, lastFrom_eq_getLast]
  · refine ⟨_, h.level_eq (Nat.zero_le _), ?_, ?_⟩
    · rw [hule 0 (Nat.zero_le _), upd_at_zero h]
    · rw [h.next_zero, atLevel_zero h.live, find_first_post h1 h2]

/-! ## `insert` of a stored value -/

theorem Inv.insert_stored {s : SkipList} {ns : List Nat} (h : Inv s ns) (v : Int)
    (hv : v ∈ ns.map (valOf s.heap)) (height : Nat) (coin : Nat → Bool) (k : Nat) :
    ∃ c n, getNode s.heap c = some n ∧ n.val = v ∧
      insert s v height
        = some { s with heap := s.heap.set c (some { n with count := n.count + 1 }) } ∧
      insert_rand coin s k v
        = some ({ s with heap := s.heap.set c (some { n with count := n.count + 1 }) }, k) := by
  obtain ⟨pre, post, h1, h2, hsplit⟩ := h.split3 v
  rcases hsplit with he | ⟨c, he, hc⟩
  · exfalso
    subst he
    obtain ⟨a, ha, hav⟩ := List.mem_map.1 hv
    rcases List.mem_append.1 ha with m | m
    · have := h1 a m
      omega
    · have := h2 a m
      omega
  · subst he
    obtain ⟨n, hg, hins, -⟩ := h.insert_dup v height h1 hc
    refine ⟨c, n, hg, ?_, hins, ?_⟩
    · have : valOf s.heap c = n.val := by simp [valOf, hg]
      rw [← this, hc]
    · have h2c : ∀ a ∈ c :: post, v ≤ valOf s.heap a := by
        intro a ha
        rcases List.mem_cons.1 ha with e | e
        · rw [e, hc]
        · exact le_of_lt (h2 a e)
      obtain ⟨upd, hd, -⟩ := h.descend_eq (t := fun x => comp x v)
        (by intro a ha; simpa [comp] using h1 a ha)
        (by intro a ha; simpa [comp] using h2c a ha)
      have heq : equal n.val v = true := by
        rw [equal_iff]
        have : valOf s.heap c = n.val := by simp [valOf, hg]
        rw [← this, hc]
      unfold insert_rand
      simp only [hd, h.next_zero, List.head?_cons, hg, heq, if_true]

theorem set_count_frame {hp : Heap} {c : Nat} {n : Node} (hg : getNode hp c = some n)
    (k : Int) :
    (hp.set c (some { n with count := k })).length = hp.length ∧
      (∀ a i, readNext (hp.set c (some { n with count := k })) a i = readNext hp a i) ∧
      (∀ a, a ≠ c → getNode (hp.set c (some { n with count := k })) a = getNode hp a) ∧
      getNode (hp.set c (some { n with count := k })) c
        = some { val := n.val, count := k, next := n.next } := by
  have hclt := getNode_lt hg
  refine ⟨by simp, ?_, ?_, ?_⟩
  · intro a i
    by_cases ha : a = c
    · subst ha
      simp [readNext, getNode_set _ _ _ _ hclt, hg]
    · simp [readNext, getNode_set _ _ _ _ hclt, ha]
  · intro a ha
    rw [getNode_set _ _ _ _ hclt, if_neg ha]
  · rw [getNode_set _ _ _ _ hclt, if_pos rfl]

/-! ## `rand_height` -/

theorem rand_height_loop_spec (coin : Nat → Bool) :
    ∀ (m fuel k h : Nat), h + m = MAX_HEIGHT → m < fuel →
      ∃ k1, rand_height_loop coin fuel k h
        = some (h + min m (leadingRun (flips coin k m)), k1) := by
  intro m
  induction m with
  | zero =>
    intro fuel k h hm hf
    cases fuel with
    | zero => omega
    | succ f =>
      have : ¬ h < MAX_HEIGHT := by omega
      exact ⟨k + 1, by simp [rand_height_loop, this]⟩
  | succ m ih =>
    intro fuel k h hm hf
    cases fuel with
    | zero => omega
    | succ f =>
      have hlt : h < MAX_HEIGHT := by omega
      have hfl : flips coin k (m + 1) = coin k :: flips coin (k + 1) m := by
        simp only [flips, List.range_succ_eq_map, List.map_cons, List.map_map, Nat.add_zero]
        congr 1
        apply List.map_congr_left
        intro j _
        simp only [Function.comp]
        congr 1
        omega
      by_cases hc : coin k = true
      · obtain ⟨k1, hk1⟩ := ih f (k + 1) (h + 1) (by omega) (by omega)
        refine ⟨k1, ?_⟩
        simp only [rand_height_loop, hc, hlt, decide_True, Bool.and_self, if_true, hk1]
        rw [hfl]
        simp only [leadingRun, List.takeWhile_cons, hc, if_true, List.length_cons]
        congr 2
        omega
      · refine ⟨k + 1, ?_⟩
        simp only [rand_height_loop, hc, Bool.false_and, Bool.false_eq_true, if_false]
        rw [hfl]
        simp [leadingRun, List.takeWhile_cons, hc]

theorem leadingRun_flips_min (coin : Nat → Bool) :
    ∀ (m k n : Nat), m ≤ n →
      min m (leadingRun (flips coin k m)) = min m (leadingRun (flips coin k n)) := by
  intro m
  induction m with
  | zero =>
    intro k n _
    simp
  | succ m ih =>
    intro k n hn
    cases n with
    | zero => omega
    | succ n =>
      have hfl : ∀ q, flips coin k (q + 1) = coin k :: flips coin (k + 1) q := by
        intro q
        simp only [flips, List.range_succ_eq_map, List.map_cons, List.map_map, Nat.add_zero]
        congr 1
        apply List.map_congr_left
        intro j _
        simp only [Function.comp]
        congr 1
        omega
      rw [hfl m, hfl n]
      by_cases hc : coin k = true
      · have := ih (k + 1) n (by omega)
        simp only [leadingRun, List.takeWhile_cons, hc, if_true, List.length_cons] at this ⊢
        omega
      · simp [leadingRun, List.takeWhile_cons, hc]

theorem rand_height_spec (coin : Nat → Bool) (k n : Nat) (hn : MAX_HEIGHT ≤ n) :
    ∃ k1, rand_height coin k = some (min MAX_HEIGHT (leadingRun (flips coin k n)), k1) := by
  obtain ⟨k1, h⟩ := rand_height_loop_spec coin MAX_HEIGHT (MAX_HEIGHT + 1) k 0 (by omega)
    (by omega)
  refine ⟨k1, ?_⟩
  rw [rand_height, h, Nat.zero_add, leadingRun_flips_min coin MAX_HEIGHT k n hn]

theorem rand_height_le (coin : Nat → Bool) (k : Nat) :
    ∃ h k1, rand_height coin k = some (h, k1) ∧ h ≤ MAX_HEIGHT := by
  obtain ⟨k1, h⟩ := rand_height_spec coin k MAX_HEIGHT (le_refl _)
  exact ⟨_, k1, h, Nat.min_le_left _ _⟩

/-- The member `insert` with the generator in place does what `insert` does with
the height that `rand_height` returns. -/
theorem insert_rand_of_insert (coin : Nat → Bool) (s s1 : SkipList) (k : Nat) (v : Int)
    (h k1 : Nat) (hr : rand_height coin k = some (h, k1)) (hi : insert s v h = some s1) :
    ∃ k2, insert_rand coin s k v = some (s1, k2) := by
  unfold insert at hi
  unfold insert_rand
  simp only [hr]
  cases hd : descend (fun x => comp x v) s.heap (s.curr_height + 1) head updateInit with
  | none => simp [hd] at hi
  | some p =>
    obtain ⟨curr, update⟩ := p
    simp only [hd] at hi ⊢
    cases hnx : readNext s.heap curr 0 with
    | none => simp [hnx] at hi
    | some nx =>
      simp only [hnx] at hi ⊢
      generalize (if h > s.curr_height
          then fillHead update (s.curr_height + 1) (h - s.curr_height)
          else some update) = U at hi ⊢
      cases nx with
      | none =>
        simp only at hi ⊢
        cases U with
        | none => simp at hi
        | some u =>
          simp only at hi ⊢
          generalize splice u s.heap.length
            (s.heap ++ [some ⟨v, 1, List.replicate (h + 1) none⟩]) 0 (h + 1) = S at hi ⊢
          cases S with
          | none => simp at hi
          | some hp1 =>
            simp only [Option.some.injEq] at hi
            subst hi
            exact ⟨k1, rfl⟩
      | some a =>
        simp only at hi ⊢
        cases hg : getNode s.heap a with
        | none => simp [hg] at hi
        | some n =>
          simp only [hg] at hi ⊢
          by_cases heq : equal n.val v = true
          · simp only [heq, if_true, Option.some.injEq] at hi ⊢
            subst hi
            exact ⟨k, rfl⟩
          · simp only [heq] at hi ⊢
            cases U with
            | none => simp at hi
            | some u =>
              simp only at hi ⊢
              generalize splice u s.heap.length
                (s.heap ++ [some ⟨v, 1, List.replicate (h + 1) none⟩]) 0 (h + 1) = S at hi ⊢
              cases S with
              | none => simp at hi
              | some hp1 =>
                simp only [Bool.false_eq_true, if_false, Option.some.injEq] at hi
                subst hi
                exact ⟨k1, by simp⟩

/-! ## The answers computed on the sorted list of pairs -/

theorem find_split {α : Type} (p : α → Bool) (A B : List α)
    (hA : ∀ x ∈ A, p x = false) (hB : ∀ x ∈ B, p x = true) :
    (A ++ B).find? p = B.head? := by
  induction A with
  | nil =>
    cases B with
    | nil => rfl
    | cons c r => simp [List.find?_cons, hB c (by simp)]
  | cons x r ih =>
    simp only [List.cons_append, List.find?_cons, hA x (by simp)]
    exact ih (fun a ha => hA a (List.mem_cons_of_mem _ ha))

theorem filter_split_left {α : Type} (p : α → Bool) (A B : List α)
    (hA : ∀ x ∈ A, p x = true) (hB : ∀ x ∈ B, p x = false) :
    (A ++ B).filter p = A := by
  rw [List.filter_append, List.filter_eq_self.2 hA, List.filter_eq_nil_iff.2, List.append_nil]
  intro x hx
  rw [hB x hx]
  simp

theorem filter_split_right {α : Type} (p : α → Bool) (A B : List α)
    (hA : ∀ x ∈ A, p x = false) (hB : ∀ x ∈ B, p x = true) :
    (A ++ B).filter p = B := by
  rw [List.filter_append, List.filter_eq_self.2 hB, List.filter_eq_nil_iff.2, List.nil_append]
  intro x hx
  rw [hA x hx]
  simp

theorem specInsert_absent {A B : List (Int × Int)} {v : Int} (hA : ∀ p ∈ A, p.1 < v)
    (hB : ∀ p ∈ B, v < p.1) : specInsert v (A ++ B) = A ++ (v, 1) :: B := by
  unfold specInsert
  rw [cntIn_split hA hB, filter_split_left, filter_split_right]
  · rfl
  · intro p hp
    have := hA p hp
    simp
    omega
  · intro p hp
    simpa using hB p hp
  · intro p hp
    simpa using hA p hp
  · intro p hp
    have := hB p hp
    simp
    omega

theorem specInsert_present {A B : List (Int × Int)} {v : Int} (k : Int)
    (hA : ∀ p ∈ A, p.1 < v) (hB : ∀ p ∈ B, v < p.1) :
    specInsert v (A ++ (v, k) :: B) = A ++ (v, k + 1) :: B := by
  have e1 : (A ++ (v, k) :: B).filter (fun p => decide (p.1 < v)) = A := by
    apply filter_split_left
    · intro p hp
      simpa using hA p hp
    · intro p hp
      rcases List.mem_cons.1 hp with e | e
      · rw [e]
        simp
      · have := hB p e
        simp
        omega
  have e2 : (A ++ (v, k) :: B).filter (fun p => decide (v < p.1)) = B := by
    rw [show A ++ (v, k) :: B = (A ++ [(v, k)]) ++ B by simp]
    apply filter_split_right
    · intro p hp
      rcases List.mem_append.1 hp with e | e
      · have := hA p e
        simp
        omega
      · rw [List.mem_singleton.1 e]
        simp
    · intro p hp
      simpa using hB p hp
  unfold specInsert
  rw [cntIn_split_mid hA hB, e1, e2]

theorem specRemove_absent {A B : List (Int × Int)} {v : Int} (hA : ∀ p ∈ A, p.1 < v)
    (hB : ∀ p ∈ B, v < p.1) : specRemove v (A ++ B) = A ++ B := by
  unfold specRemove
  rw [List.filter_eq_self]
  intro p hp
  rcases List.mem_append.1 hp with m | m
  · have := hA p m
    simp
    omega
  · have := hB p m
    simp
    omega

theorem specRemove_present {A B : List (Int × Int)} {v : Int} (k : Int)
    (hA : ∀ p ∈ A, p.1 < v) (hB : ∀ p ∈ B, v < p.1) :
    specRemove v (A ++ (v, k) :: B) = A ++ B := by
  unfold specRemove
  have hA2 : A.filter (fun p => decide (p.1 ≠ v)) = A := by
    rw [List.filter_eq_self]
    intro p hp
    have := hA p hp
    simp
    omega
  have hB2 : B.filter (fun p => decide (p.1 ≠ v)) = B := by
    rw [List.filter_eq_self]
    intro p hp
    have := hB p hp
    simp
    omega
  rw [List.filter_append, List.filter_cons_of_neg (by simp), hA2, hB2]

theorem Inv.unique {s : SkipList} {ns ns1 : List Nat} (h : Inv s ns) (h1 : Inv s ns1) :
    ns = ns1 := by
  have e := h.level_eq (Nat.zero_le _)
  rw [h1.level_eq (Nat.zero_le _), atLevel_zero h.live, atLevel_zero h1.live] at e
  exact (Option.some.inj e).symm

theorem Inv.step_abs {s s1 : SkipList} {ns : List Nat} (h : Inv s ns) {op : Op}
    (hs : SkipList.step s op = some s1) :
    ∃ ns1, Inv s1 ns1 ∧ absList s1.heap ns1 = specStep (absList s.heap ns) op := by
  cases op with
  | insert w hgt =>
    obtain ⟨s2, ns2, hins, hinv, A, B, hA, hB, hcase⟩ := h.insert_step w hgt.val (by
      have := hgt.isLt
      show hgt.val ≤ 16
      omega)
    simp only [SkipList.step] at hs
    rw [hins] at hs
    cases hs
    refine ⟨ns2, hinv, ?_⟩
    simp only [specStep]
    rcases hcase with ⟨e1, e2⟩ | ⟨k, e1, e2⟩
    · rw [e1, e2, specInsert_absent hA hB]
    · rw [e1, e2, specInsert_present k hA hB]
  | remove w =>
    obtain ⟨b, s2, ns2, hrem, hinv, A, B, hA, hB, hcase⟩ := h.remove_step w
    simp only [SkipList.step, hrem, Option.map_some', Option.some.injEq] at hs
    subst hs
    simp only [specStep]
    rcases hcase with ⟨-, e0, e1⟩ | ⟨-, k, e1, e2⟩
    · subst e0
      exact ⟨ns, h, by rw [e1, specRemove_absent hA hB]⟩
    · exact ⟨ns2, hinv, by rw [e1, e2, specRemove_present k hA hB]⟩

theorem run_abs : ∀ (ops : List Op) (s : SkipList), run ops = some s →
    ∃ ns, Inv s ns ∧ absList s.heap ns = specRun ops := by
  intro ops
  induction ops using List.reverseRecOn with
  | nil =>
    intro s hs
    simp only [run, runFrom, Option.some.injEq] at hs
    subst hs
    exact ⟨[], inv_empty, rfl⟩
  | append_singleton ops op ih =>
    intro s1 hs
    rw [run_snoc] at hs
    obtain ⟨s, hr⟩ := run_total ops
    rw [hr] at hs
    simp only [Option.some_bind] at hs
    obtain ⟨ns, hinv, habs⟩ := ih s hr
    obtain ⟨ns1, hinv1, habs1⟩ := hinv.step_abs hs
    refine ⟨ns1, hinv1, ?_⟩
    rw [habs1, habs, specRun, specRun, List.foldl_append]
    rfl

theorem specStep_callOf (m : List (Int × Int)) (op1 op2 : Op) (h : callOf op1 = callOf op2) :
    specStep m op1 = specStep m op2 := by
  cases op1 <;> cases op2 <;> simp only [callOf, Prod.mk.injEq] at h <;>
    simp_all [specStep]

theorem specRun_callOf : ∀ (ops1 ops2 : List Op) (m : List (Int × Int)),
    ops1.map callOf = ops2.map callOf → ops1.foldl specStep m = ops2.foldl specStep m := by
  intro ops1
  induction ops1 with
  | nil =>
    intro ops2 m h
    cases ops2 with
    | nil => rfl
    | cons b t => simp at h
  | cons a r ih =>
    intro ops2 m h
    cases ops2 with
    | nil => simp at h
    | cons b t =>
      simp only [List.map_cons, List.cons.injEq] at h
      simp only [List.foldl_cons]
      rw [specStep_callOf m a b h.1]
      exact ih t _ h.2

/-! ## `closest_element` on a split chain -/

theorem Inv.closest_eq {s : SkipList} {pre post : List Nat} (h : Inv s (pre ++ post))
    (v : Int) (h1 : ∀ a ∈ pre, valOf s.heap a < v) (h2 : ∀ a ∈ post, v ≤ valOf s.heap a) :
    closest_element s v
      = some (closestOf (pre.getLast?.map (valOf s.heap)) (post.head?.map (valOf s.heap)) v) := by
  have hhead : readNext s.heap head 0 = some (pre ++ post).head? := by
    have hl := h.linked 0 (Nat.zero_le _)
    rw [atLevel_zero h.live] at hl
    exact hl.read_head
  have hs := h.search_eq (t := fun x => comp x v)
    (by intro a ha; simpa [comp] using h1 a ha)
    (by intro a ha; simpa [comp] using h2 a ha)
  have hn := h.next_zero
  rw [lastFrom_eq_getLast] at hs hn
  cases hgl : pre.getLast? with
  | none =>
    have hpre : pre = [] := List.getLast?_eq_none_iff.1 hgl
    subst hpre
    simp only [List.getLast?_nil, Option.getD_none, List.nil_append] at hs hn hhead
    cases hpost : post with
    | nil =>
      rw [hpost] at hhead
      unfold closest_element
      simp [hhead, closestOf]
    | cons c r =>
      obtain ⟨n, hg, hv, -, -⟩ := h.post_node (c := c) (by rw [hpost]; simp)
      rw [hpost] at hhead hn
      simp only [List.head?_cons] at hhead hn
      unfold closest_element
      simp [hhead, hs, hn, hg, hv, closestOf]
  | some b =>
    have hbm : b ∈ pre := List.mem_of_getLast?_eq_some hgl
    rw [hgl] at hs hn
    simp only [Option.getD_some] at hs hn
    obtain ⟨nb, hgb, hvb, -, -⟩ := lvl_pos_getNode (h.live _ (List.mem_append_left _ hbm))
    have hbne : b ≠ head := by
      intro e
      apply h.nz
      rw [← e]
      exact List.mem_append_left _ hbm
    have hx : ∃ x, readNext s.heap head 0 = some (some x) := by
      rw [hhead]
      cases pre with
      | nil => simp at hbm
      | cons p0 pt => exact ⟨p0, rfl⟩
    obtain ⟨x, hx⟩ := hx
    cases hpost : post with
    | nil =>
      rw [hpost] at hn
      simp only [List.head?_nil] at hn
      unfold closest_element
      simp [hx, hs, hn, hbne, hgb, hvb, closestOf]
    | cons c r =>
      obtain ⟨nc, hgc, hvc, -, -⟩ := h.post_node (c := c) (by rw [hpost]; simp)
      rw [hpost] at hn
      simp only [List.head?_cons] at hn
      unfold closest_element
      simp [hx, hs, hn, hbne, hgb, hgc, hvb, hvc, closestOf]

/-- The answers of the queries are the answers computed on the stored pairs. -/
theorem Inv.queries_abs {s : SkipList} {ns : List Nat} (h : Inv s ns) (v : Int) :
    find s v = some (specFind (absList s.heap ns) v) ∧
      count_occurrence s v = some (cntIn (absList s.heap ns) v) ∧
      lower_bound s v = some (specLower (absList s.heap ns) v) ∧
      upper_bound s v = some (specUpper (absList s.heap ns) v) ∧
      closest_element s v = some (specClosest (absList s.heap ns) v) ∧
      (remove s v).map Prod.fst = some (specFind (absList s.heap ns) v) := by
  have hfind : find s v = some (specFind (absList s.heap ns) v) := by
    rw [h.find_abs v, specFind, absList_fst]
  refine ⟨hfind, h.count_abs v, ?_, ?_, ?_, ?_⟩
  · obtain ⟨pre, post, he, h1, h2⟩ := split_sorted (fun x => comp x v) (comp_mono v) s.heap ns
      h.sorted
    simp only [comp, decide_eq_true_eq, decide_eq_false_iff_not, not_lt] at h1 h2
    subst he
    rw [h.lower_eq v h1 h2, specLower, absList_append, find_split]
    · cases post with
      | nil => rfl
      | cons c r => rfl
    · intro p hp
      have := absList_fst_lt h1 p hp
      simp
      omega
    · intro p hp
      obtain ⟨a, ha, rfl⟩ := List.mem_map.1 hp
      simpa using h2 a ha
  · obtain ⟨pre, post, he, h1, h2⟩ := split_sorted (fun x => !comp v x) (ncomp_mono v) s.heap
      ns h.sorted
    simp only [comp, Bool.not_eq_true', decide_eq_false_iff_not, not_lt, Bool.not_eq_false',
      decide_eq_true_eq] at h1 h2
    subst he
    rw [h.upper_eq v h1 h2, specUpper, absList_append, find_split]
    · cases post with
      | nil => rfl
      | cons c r => rfl
    · intro p hp
      obtain ⟨a, ha, rfl⟩ := List.mem_map.1 hp
      have := h1 a ha
      simp
      omega
    · intro p hp
      simpa using absList_fst_gt h2 p hp
  · obtain ⟨pre, post, he, h1, h2⟩ := split_sorted (fun x => comp x v) (comp_mono v) s.heap ns
      h.sorted
    simp only [comp, decide_eq_true_eq, decide_eq_false_iff_not, not_lt] at h1 h2
    subst he
    have hA : ∀ p ∈ absList s.heap pre, p.1 < v := absList_fst_lt h1
    have hB : ∀ p ∈ absList s.heap post, v ≤ p.1 := by
      intro p hp
      obtain ⟨a, ha, rfl⟩ := List.mem_map.1 hp
      exact h2 a ha
    rw [h.closest_eq v h1 h2, specClosest, absList_append, find_split, filter_split_left]
    · congr 2
      · simp only [absList, List.getLast?_map, Option.map_map]
        rfl
      · cases post with
        | nil => rfl
        | cons c r => rfl
    · intro p hp
      simpa using hA p hp
    · intro p hp
      have := hB p hp
      simp
      omega
    · intro p hp
      have := hA p hp
      simp
      omega
    · intro p hp
      simpa using hB p hp
  · obtain ⟨b, s1, hrem, hf, -⟩ := h.remove_find v
    rw [hrem, ← hfind, hf]
    rfl

/-! ## `main` -/

theorem served_nil (N : Int) : served N [] = [] := by
  simp [served]

theorem served_stop {N : Int} (h : ¬ N > 0) (reqs : List (Int × Int)) : served N reqs = [] := by
  have : N.toNat = 0 := by omega
  simp [served, this]

theorem served_cons {N : Int} (h : N > 0) (r : Int × Int) (rest : List (Int × Int)) :
    served N (r :: rest)
      = if 1 ≤ r.1 ∧ r.1 ≤ 7 then r :: served (N - 1) rest else [] := by
  have : N.toNat = (N - 1).toNat + 1 := by omega
  simp only [served, this, List.take_succ_cons, List.takeWhile_cons]
  by_cases hc : 1 ≤ r.1 ∧ r.1 ≤ 7
  · simp [hc]
  · simp [hc]

theorem Inv.insert_rand_abs {s : SkipList} {ns : List Nat} (h : Inv s ns)
    (coin : Nat → Bool) (k : Nat) (v : Int) :
    ∃ s1 ns1 k1, insert_rand coin s k v = some (s1, k1) ∧ Inv s1 ns1 ∧
      absList s1.heap ns1 = specInsert v (absList s.heap ns) := by
  obtain ⟨hgt, k1, hr, hle⟩ := rand_height_le coin k
  obtain ⟨s1, ns1, hins, -, -⟩ := h.insert_step v hgt hle
  obtain ⟨k2, hk2⟩ := insert_rand_of_insert coin s s1 k v hgt k1 hr hins
  have hst : SkipList.step s (.insert v ⟨hgt, Nat.lt_succ_of_le hle⟩) = some s1 := hins
  obtain ⟨ns2, hinv2, habs⟩ := h.step_abs hst
  exact ⟨s1, ns2, k2, hk2, hinv2, habs⟩

theorem Inv.remove_abs {s : SkipList} {ns : List Nat} (h : Inv s ns) (v : Int) :
    ∃ b s1 ns1, remove s v = some (b, s1) ∧ Inv s1 ns1 ∧
      absList s1.heap ns1 = specRemove v (absList s.heap ns) := by
  obtain ⟨b, s1, ns1, hrem, -, -⟩ := h.remove_step v
  have hst : SkipList.step s (.remove v) = some s1 := by simp [SkipList.step, hrem]
  obtain ⟨ns2, hinv2, habs⟩ := h.step_abs hst
  exact ⟨b, s1, ns2, hrem, hinv2, habs⟩

theorem enoughInput_tail {N : Int} {r : Int × Int} {rest : List (Int × Int)}
    (hr : 1 ≤ r.1 ∧ r.1 ≤ 7) :
    enoughInput N (r :: rest) ↔ enoughInput (N - 1) rest := by
  constructor
  · intro h
    rcases h with h | ⟨q, hq, hs⟩
    · left
      simp only [List.length_cons, Nat.cast_add, Nat.cast_one] at h
      omega
    · right
      rcases List.mem_cons.1 hq with e | e
      · rw [e] at hs
        exact absurd hr hs
      · exact ⟨q, e, hs⟩
  · intro h
    rcases h with h | ⟨q, hq, hs⟩
    · left
      simp only [List.length_cons, Nat.cast_add, Nat.cast_one]
      omega
    · exact Or.inr ⟨q, List.mem_cons_of_mem _ hq, hs⟩

theorem main_loop_spec (coin : Nat → Bool) :
    ∀ (reqs : List (Int × Int)) (N : Int) (s : SkipList) (ns : List Nat) (k : Nat)
      (out : List String), Inv s ns → enoughInput N reqs →
      main_loop coin reqs N s k out
        = some (out ++ specLines (served N reqs) (absList s.heap ns)) := by
  intro reqs
  induction reqs with
  | nil =>
    intro N s ns k out _ he
    have hN : ¬ N > 0 := by
      rcases he with h | ⟨q, hq, -⟩
      · simp only [List.length_nil, Nat.cast_zero] at h
        omega
      · simp at hq
    simp [main_loop, hN, served_nil, specLines]
  | cons r rest ih =>
    intro N s ns k out h he
    obtain ⟨choice, value⟩ := r
    by_cases hN : N > 0
    · rw [served_cons hN]
      obtain ⟨hf, hc, hl, hu, hcl, -⟩ := h.queries_abs value
      simp only [main_loop, hN, if_true]
      have het : 1 ≤ choice ∧ choice ≤ 7 → enoughInput (N - 1) rest :=
        fun hr => (enoughInput_tail (r := (choice, value)) hr).1 he
      by_cases h1 : choice = 1
      · obtain ⟨s1, ns1, k1, hins, hinv, habs⟩ := h.insert_rand_abs coin k value
        simp only [h1, if_true, hins, ih (N - 1) s1 ns1 k1 out hinv (het (by omega)), habs]
        simp [specLines]
      · by_cases h2 : choice = 2
        · obtain ⟨b, s1, ns1, hrem, hinv, habs⟩ := h.remove_abs value
          simp only [h2, hrem, ih (N - 1) s1 ns1 k out hinv (het (by omega)), habs]
          simp [specLines]
        · by_cases h3 : choice = 3
          · simp only [h3, hf, ih (N - 1) s ns k _ h (het (by omega))]
            simp [specLines]
          · by_cases h4 : choice = 4
            · simp only [h4, hc, ih (N - 1) s ns k _ h (het (by omega))]
              simp [specLines]
            · by_cases h5 : choice = 5
              · simp only [h5, hl, ih (N - 1) s ns k _ h (het (by omega))]
                simp [specLines]
              · by_cases h6 : choice = 6
                · simp only [h6, hu, ih (N - 1) s ns k _ h (het (by omega))]
                  simp [specLines]
                · by_cases h7 : choice = 7
                  · simp only [h7, hcl, ih (N - 1) s ns k _ h (het (by omega))]
                    simp [specLines]
                  · have hout : ¬ (1 ≤ choice ∧ choice ≤ 7) := by omega
                    simp [h1, h2, h3, h4, h5, h6, h7, hout, specLines]
    · rw [served_stop hN]
      simp [main_loop, hN, specLines]

theorem main_loop_short (coin : Nat → Bool) :
    ∀ (reqs : List (Int × Int)) (N : Int) (s : SkipList) (ns : List Nat) (k : Nat)
      (out : List String), Inv s ns → ¬ enoughInput N reqs →
      main_loop coin reqs N s k out = none := by
  intro reqs
  induction reqs with
  | nil =>
    intro N s ns k out _ he
    have hN : N > 0 := by
      by_contra hc
      apply he
      left
      simp only [List.length_nil, Nat.cast_zero]
      omega
    simp [main_loop, hN]
  | cons r rest ih =>
    intro N s ns k out h he
    obtain ⟨choice, value⟩ := r
    have hr : 1 ≤ choice ∧ choice ≤ 7 := by
      by_contra hc
      exact he (Or.inr ⟨(choice, value), by simp, hc⟩)
    have hN : N > 0 := by
      by_contra hc
      apply he
      left
      have : (0 : Int) ≤ (((choice, value) :: rest).length : Int) := Int.natCast_nonneg _
      omega
    have het : ¬ enoughInput (N - 1) rest :=
      fun hc => he ((enoughInput_tail (r := (choice, value)) hr).2 hc)
    obtain ⟨hf, hc, hl, hu, hcl, -⟩ := h.queries_abs value
    simp only [main_loop, hN, if_true]
    by_cases h1 : choice = 1
    · obtain ⟨s1, ns1, k1, hins, hinv, -⟩ := h.insert_rand_abs coin k value
      simp only [h1, if_true, hins, ih (N - 1) s1 ns1 k1 out hinv het]
    · by_cases h2 : choice = 2
      · obtain ⟨b, s1, ns1, hrem, hinv, -⟩ := h.remove_abs value
        simp only [h2, hrem, ih (N - 1) s1 ns1 k out hinv het]
        simp
      · by_cases h3 : choice = 3
        · simp only [h3, hf, ih (N - 1) s ns k _ h het]
          simp
        · by_cases h4 : choice = 4
          · simp only [h4, hc, ih (N - 1) s ns k _ h het]
            simp
          · by_cases h5 : choice = 5
            · simp only [h5, hl, ih (N - 1) s ns k _ h het]
              simp
            · by_cases h6 : choice = 6
              · simp only [h6, hu, ih (N - 1) s ns k _ h het]
                simp
              · by_cases h7 : choice = 7
                · simp only [h7, hcl, ih (N - 1) s ns k _ h het]
                  simp
                · omega

theorem specLines_length : ∀ (l : List (Int × Int)) (m : List (Int × Int)),
    (∀ r ∈ l, 1 ≤ r.1 ∧ r.1 ≤ 7) →
      (specLines l m).length = (l.filter fun r => decide (3 ≤ r.1)).length := by
  intro l
  induction l with
  | nil =>
    intro m _
    rfl
  | cons r rest ih =>
    intro m hl
    obtain ⟨choice, value⟩ := r
    have hr := hl (choice, value) (by simp)
    have ih2 := fun m => ih m (fun r hr => hl r (List.mem_cons_of_mem _ hr))
    simp only at hr
    by_cases h1 : choice = 1
    · simp [specLines, h1, ih2]
    · by_cases h2 : choice = 2
      · simp [specLines, h2, ih2]
      · have h3 : 3 ≤ choice := by omega
        have e : ((choice, value) :: rest).filter (fun r => decide (3 ≤ r.1))
            = (choice, value) :: rest.filter (fun r => decide (3 ≤ r.1)) := by
          rw [List.filter_cons_of_pos]
          simpa using h3
        rw [e]
        simp only [specLines, h1, h2, if_false, List.length_cons]
        split_ifs
        all_goals simp only [List.length_cons, ih2]
        omega

theorem served_choice (N : Int) (reqs : List (Int × Int)) :
    ∀ r ∈ served N reqs, 1 ≤ r.1 ∧ r.1 ≤ 7 := by
  intro r hr
  have := List.mem_takeWhile_imp hr
  simpa using this

theorem nodesAt_mem (hp : Heap) : ∀ (l : List Nat) (nodes : List Node),
    nodesAt hp l = some nodes → ∀ n ∈ nodes, ∃ a ∈ l, getNode hp a = some n := by
  intro l
  induction l with
  | nil =>
    intro nodes h n hn
    simp only [nodesAt, Option.some.injEq] at h
    subst h
    simp at hn
  | cons a r ih =>
    intro nodes h n hn
    simp only [nodesAt] at h
    cases hg : getNode hp a with
    | none => simp [hg] at h
    | some na =>
      cases hr : nodesAt hp r with
      | none => simp [hg, hr] at h
      | some nr =>
        simp only [hg, hr, Option.some.injEq] at h
        subst h
        rcases List.mem_cons.1 hn with e | e
        · exact ⟨a, by simp, by rw [e, hg]⟩
        · obtain ⟨b, hb, hgb⟩ := ih nr hr n e
          exact ⟨b, List.mem_cons_of_mem _ hb, hgb⟩

/-- C11: in every reachable state `curr_height` is at most `MAX_HEIGHT` and is the
highest level with a real node: `head->next[i]` is null for `curr_height < i ≤ 16`,
`head->next[curr_height]` is non-null when `curr_height > 0`, and `curr_height` is `0`
on the empty list. `insert` sets it to the drawn height when the value was absent and
the height exceeds it, and leaves it alone otherwise; `remove` never raises it, and
the levels it drops are empty. -/
theorem curr_height_is_top_level (s : SkipList) (hs : Reachable s) :
    s.curr_height ≤ MAX_HEIGHT ∧
      (∀ i, s.curr_height < i → i ≤ MAX_HEIGHT → readNext s.heap head i = some none) ∧
      (0 < s.curr_height → ∃ b, readNext s.heap head s.curr_height = some (some b)) ∧
      (values s = some [] → s.curr_height = 0) ∧
      (∀ (v : Int) (height : Nat), height ≤ MAX_HEIGHT →
        ∃ s1, insert s v height = some s1 ∧
          s1.curr_height
            = if find s v = some false ∧ s.curr_height < height then height
              else s.curr_height) ∧
      (∀ v : Int, ∃ b s1, remove s v = some (b, s1) ∧ s1.curr_height ≤ s.curr_height ∧
        ∀ j, s1.curr_height < j → j ≤ s.curr_height →
          readNext s1.heap head j = some none) := by
  obtain ⟨ns, h⟩ := hs.inv
  refine ⟨h.ch, fun i h1 h2 => h.above_empty h1 h2, h.top_nonempty, ?_, ?_, ?_⟩
  · intro hv
    rw [h.values_eq] at hv
    have : ns = [] := List.map_eq_nil_iff.1 (Option.some.inj hv)
    subst this
    exact h.empty_height
  · intro v height hh
    obtain ⟨s1, ns1, hins, -, hch⟩ := h.insert_height v height hh
    exact ⟨s1, hins, hch⟩
  · intro v
    obtain ⟨b, s1, ns1, hrem, hinv, hle, -⟩ := h.remove_height v
    refine ⟨b, s1, hrem, hle, ?_⟩
    intro j h1 h2
    exact hinv.above_empty h1 (le_trans h2 h.ch)

theorem curr_height_is_top_level_witness :
    (sample.curr_height = 2 ∧ readNext sample.heap head 2 = some (some 1) ∧
      readNext sample.heap head 3 = some none) ∧
      (sample.curr_height ≤ MAX_HEIGHT ∧
        (∀ i, sample.curr_height < i → i ≤ MAX_HEIGHT →
          readNext sample.heap head i = some none) ∧
        (0 < sample.curr_height →
          ∃ b, readNext sample.heap head sample.curr_height = some (some b)) ∧
        (values sample = some [] → sample.curr_height = 0) ∧
        (∀ (v : Int) (height : Nat), height ≤ MAX_HEIGHT →
          ∃ s1, insert sample v height = some s1 ∧
            s1.curr_height
              = if find sample v = some false ∧ sample.curr_height < height then height
                else sample.curr_height) ∧
        (∀ v : Int, ∃ b s1, remove sample v = some (b, s1) ∧
          s1.curr_height ≤ sample.curr_height ∧
          ∀ j, s1.curr_height < j → j ≤ sample.curr_height →
            readNext s1.heap head j = some none)) :=
  ⟨by decide, curr_height_is_top_level sample ⟨sampleOps, by decide⟩⟩

/-- C12: with the coin flips given as a sequence of booleans, `rand_height` returns,
and its result is the minimum of `MAX_HEIGHT` and the length of the leading run of
successes among the next `n` flips, for any `n ≥ MAX_HEIGHT`; it lies in `0..16`. -/
theorem rand_height_is_capped_run (coin : Nat → Bool) (k n : Nat) (hn : MAX_HEIGHT ≤ n) :
    ∃ h k1, rand_height coin k = some (h, k1) ∧
      h = min MAX_HEIGHT (leadingRun (flips coin k n)) ∧ h ≤ MAX_HEIGHT := by
  obtain ⟨k1, h⟩ := rand_height_spec coin k n hn
  exact ⟨_, k1, h, rfl, Nat.min_le_left _ _⟩

theorem rand_height_is_capped_run_witness :
    (rand_height (fun i => decide (i ≠ 8)) 5 = some (3, 9) ∧
      rand_height (fun _ => true) 0 = some (16, 17) ∧
      leadingRun (flips (fun i => decide (i ≠ 8)) 5 20) = 3) ∧
      ∃ h k1, rand_height (fun i => decide (i ≠ 8)) 5 = some (h, k1) ∧
        h = min MAX_HEIGHT (leadingRun (flips (fun i => decide (i ≠ 8)) 5 20)) ∧
        h ≤ MAX_HEIGHT :=
  ⟨by decide, rand_height_is_capped_run (fun i => decide (i ≠ 8)) 5 20 (by decide)⟩

/-- On an input that ends before the loop of `main` does, `main` reads `choice` past the
end of the input: a fault. -/
theorem main_short_input (coin : Nat → Bool) (N : Int) (reqs : List (Int × Int))
    (hin : ¬ enoughInput N reqs) : main coin N reqs = none :=
  main_loop_short coin reqs N empty [] 0 [] inv_empty hin

/-- C13: on a well-formed input, one that holds a request for every round of the loop
(at least `N` requests, or a request whose choice is outside `1..7`), `main` returns,
and the lines it writes are the lines expected for the requests it serves (those
among the first `N` that come before the first choice outside `1..7`), in request
order, computed on the sorted list of (value, count) pairs: one line for each request
with a choice in `3..7`, none for `1` and `2`. -/
theorem main_output (coin : Nat → Bool) (N : Int) (reqs : List (Int × Int))
    (hin : enoughInput N reqs) :
    main coin N reqs = some (specLines (served N reqs) []) ∧
      (specLines (served N reqs) []).length
        = ((served N reqs).filter fun r => decide (3 ≤ r.1)).length := by
  refine ⟨?_, specLines_length _ _ (served_choice N reqs)⟩
  have := main_loop_spec coin reqs N empty [] 0 [] inv_empty hin
  simpa [main, absList] using this

theorem main_output_witness :
    (main (fun i => i % 3 != 0) 9
        [(1, 5), (1, 3), (1, 8), (1, 3), (4, 3), (3, 8), (5, 4), (0, 0), (7, 6)]
      = some ["2", "1", "5"] ∧
      main (fun i => i % 3 != 0) 7 [(1, 5), (1, 3), (1, 8), (1, 3), (4, 3), (3, 8), (5, 4)]
        = some ["2", "1", "5"] ∧
      main (fun i => i % 3 != 0) 8 [(1, 5), (1, 3), (1, 8), (1, 3), (4, 3), (3, 8), (5, 4)]
        = none) ∧
      enoughInput 9
        [(1, 5), (1, 3), (1, 8), (1, 3), (4, 3), (3, 8), (5, 4), (0, 0), (7, 6)] ∧
      (main (fun i => i % 3 != 0) 9
          [(1, 5), (1, 3), (1, 8), (1, 3), (4, 3), (3, 8), (5, 4), (0, 0), (7, 6)]
        = some (specLines (served 9
            [(1, 5), (1, 3), (1, 8), (1, 3), (4, 3), (3, 8), (5, 4), (0, 0), (7, 6)]) []) ∧
        (specLines (served 9
            [(1, 5), (1, 3), (1, 8), (1, 3), (4, 3), (3, 8), (5, 4), (0, 0), (7, 6)])
            []).length
          = ((served 9
              [(1, 5), (1, 3), (1, 8), (1, 3), (4, 3), (3, 8), (5, 4), (0, 0),
                (7, 6)]).filter fun r => decide (3 ≤ r.1)).length) :=
  ⟨by decide, by decide, main_output _ _ _ (by decide)⟩

/-- C17: in every reachable state the descent of `insert` and `remove` for a target
`v` returns; for every level `i ≤ curr_height` the slot `update[i]` holds the last
node of the level-`i` chain whose value is below `v`, or the head if there is none,
and `update[0]->next[0]` is the first node of the level-0 chain whose value is not
below `v`. -/
theorem descent_records_update (s : SkipList) (hs : Reachable s) (v : Int) :
    ∃ curr upd,
      descend (fun x => comp x v) s.heap (s.curr_height + 1) head updateInit = some (curr, upd) ∧
      (∀ i, i ≤ s.curr_height → ∃ li, level s i = some li ∧
        getUpd upd i
          = some ((li.filter fun a => decide (valOf s.heap a < v)).getLast?.getD head)) ∧
      ∃ l0, level s 0 = some l0 ∧ getUpd upd 0 = some curr ∧
        readNext s.heap curr 0 = some (l0.find? fun a => decide (v ≤ valOf s.heap a)) := by
  obtain ⟨ns, h⟩ := hs.inv
  exact h.descent_update v

theorem descent_records_update_witness :
    ((descend (fun x => comp x 6) sample.heap (sample.curr_height + 1) head updateInit).map
        (fun r => (r.1, getUpd r.2 0, getUpd r.2 1, getUpd r.2 2))
        = some (1, some 1, some 1, some 1) ∧
      (descend (fun x => comp x 4) sample.heap (sample.curr_height + 1) head updateInit).map
        (fun r => (r.1, getUpd r.2 0, getUpd r.2 1, getUpd r.2 2))
        = some (2, some 2, some 0, some 0)) ∧
      ∃ curr upd,
        descend (fun x => comp x 4) sample.heap (sample.curr_height + 1) head updateInit
          = some (curr, upd) ∧
        (∀ i, i ≤ sample.curr_height → ∃ li, level sample i = some li ∧
          getUpd upd i
            = some ((li.filter fun a => decide (valOf sample.heap a < 4)).getLast?.getD
                head)) ∧
        ∃ l0, level sample 0 = some l0 ∧ getUpd upd 0 = some curr ∧
          readNext sample.heap curr 0
            = some (l0.find? fun a => decide (4 ≤ valOf sample.heap a)) :=
  ⟨by decide, descent_records_update sample ⟨sampleOps, by decide⟩ 4⟩

/-- C18: in every reachable state, `insert(v)` of a stored value `v` returns the state
in which the node holding `v` has its counter raised by one and nothing else differs:
the heap has the same cells, every link `next[i]` of every node and `curr_height` are
unchanged, and the number of calls of `rand()` made so far is unchanged, whatever
height would have been drawn. -/
theorem insert_stored_changes_only_count (s : SkipList) (hs : Reachable s) (v : Int)
    (l : List Int) (hl : values s = some l) (hv : v ∈ l) (height : Nat)
    (coin : Nat → Bool) (k : Nat) :
    ∃ c n s1, getNode s.heap c = some n ∧ n.val = v ∧
      s1 = { s with heap := s.heap.set c (some { n with count := n.count + 1 }) } ∧
      insert s v height = some s1 ∧ insert_rand coin s k v = some (s1, k) ∧
      s1.curr_height = s.curr_height ∧ s1.heap.length = s.heap.length ∧
      (∀ a i, readNext s1.heap a i = readNext s.heap a i) ∧
      (∀ a, a ≠ c → getNode s1.heap a = getNode s.heap a) ∧
      getNode s1.heap c = some { val := n.val, count := n.count + 1, next := n.next } := by
  obtain ⟨ns, h⟩ := hs.inv
  rw [h.values_eq] at hl
  cases hl
  obtain ⟨c, n, hg, hval, hins, hrand⟩ := h.insert_stored v hv height coin k
  obtain ⟨f1, f2, f3, f4⟩ := set_count_frame hg (n.count + 1)
  exact ⟨c, n, _, hg, hval, rfl, hins, hrand, rfl, f1, f2, f3, f4⟩

theorem insert_stored_changes_only_count_witness :
    ((insert sample 3 9).map (fun s1 => s1.heap.length) = some 4 ∧
      (insert_rand (fun _ => true) sample 7 3).map Prod.snd = some 7) ∧
      ∃ c n s1, getNode sample.heap c = some n ∧ n.val = 3 ∧
        s1 = { sample with
                heap := sample.heap.set c (some { n with count := n.count + 1 }) } ∧
        insert sample 3 9 = some s1 ∧
        insert_rand (fun _ => true) sample 7 3 = some (s1, 7) ∧
        s1.curr_height = sample.curr_height ∧ s1.heap.length = sample.heap.length ∧
        (∀ a i, readNext s1.heap a i = readNext sample.heap a i) ∧
        (∀ a, a ≠ c → getNode s1.heap a = getNode sample.heap a) ∧
        getNode s1.heap c = some { val := n.val, count := n.count + 1, next := n.next } :=
  ⟨by decide, insert_stored_changes_only_count sample ⟨sampleOps, by decide⟩ 3 [3, 5, 8]
    (by decide) (by decide) 9 (fun _ => true) 7⟩

/-- C19: two sequences of calls that differ only in the heights drawn lead to states
that give the same answers: `find`, `count_occurrence`, `lower_bound`, `upper_bound`,
`closest_element` and the flag of `remove` return, and their results are the answers
computed on the sorted list of (value, count) pairs, which does not use the heights. -/
theorem answers_independent_of_heights (ops1 ops2 : List Op)
    (hcalls : ops1.map callOf = ops2.map callOf) (s1 s2 : SkipList)
    (h1 : run ops1 = some s1) (h2 : run ops2 = some s2) (v : Int) :
    (find s1 v = some (specFind (specRun ops1) v) ∧ find s2 v = find s1 v) ∧
      (count_occurrence s1 v = some (cntIn (specRun ops1) v) ∧
        count_occurrence s2 v = count_occurrence s1 v) ∧
      (lower_bound s1 v = some (specLower (specRun ops1) v) ∧
        lower_bound s2 v = lower_bound s1 v) ∧
      (upper_bound s1 v = some (specUpper (specRun ops1) v) ∧
        upper_bound s2 v = upper_bound s1 v) ∧
      (closest_element s1 v = some (specClosest (specRun ops1) v) ∧
        closest_element s2 v = closest_element s1 v) ∧
      ((remove s1 v).map Prod.fst = some (specFind (specRun ops1) v) ∧
        (remove s2 v).map Prod.fst = (remove s1 v).map Prod.fst) := by
  obtain ⟨ns1, hinv1, habs1⟩ := run_abs ops1 s1 h1
  obtain ⟨ns2, hinv2, habs2⟩ := run_abs ops2 s2 h2
  have hspec : specRun ops2 = specRun ops1 := (specRun_callOf ops1 ops2 [] hcalls).symm
  obtain ⟨a1, a2, a3, a4, a5, a6⟩ := hinv1.queries_abs v
  obtain ⟨b1, b2, b3, b4, b5, b6⟩ := hinv2.queries_abs v
  rw [habs1] at a1 a2 a3 a4 a5 a6
  rw [habs2, hspec] at b1 b2 b3 b4 b5 b6
  exact ⟨⟨a1, by rw [a1, b1]⟩, ⟨a2, by rw [a2, b2]⟩, ⟨a3, by rw [a3, b3]⟩,
    ⟨a4, by rw [a4, b4]⟩, ⟨a5, by rw [a5, b5]⟩, ⟨a6, by rw [a6, b6]⟩⟩

theorem answers_independent_of_heights_witness :
    (specRun sampleOps = [(3, 2), (5, 1), (8, 1)] ∧
      (run sampleOps2).bind (fun s => closest_element s 6) = some 5) ∧
      ∃ s2, run sampleOps2 = some s2 ∧
        (find sample 6 = some (specFind (specRun sampleOps) 6) ∧ find s2 6 = find sample 6) ∧
        (count_occurrence sample 6 = some (cntIn (specRun sampleOps) 6) ∧
          count_occurrence s2 6 = count_occurrence sample 6) ∧
        (lower_bound sample 6 = some (specLower (specRun sampleOps) 6) ∧
          lower_bound s2 6 = lower_bound sample 6) ∧
        (upper_bound sample 6 = some (specUpper (specRun sampleOps) 6) ∧
          upper_bound s2 6 = upper_bound sample 6) ∧
        (closest_element sample 6 = some (specClosest (specRun sampleOps) 6) ∧
          closest_element s2 6 = closest_element sample 6) ∧
        ((remove sample 6).map Prod.fst = some (specFind (specRun sampleOps) 6) ∧
          (remove s2 6).map Prod.fst = (remove sample 6).map Prod.fst) :=
  ⟨by decide, (run sampleOps2).getD empty, by decide,
    answers_independent_of_heights sampleOps sampleOps2 (by decide) sample
      ((run sampleOps2).getD empty) (by decide) (by decide) 6⟩

/-- C20: in every reachable state no call faults. In the embedding an access faults,
and the call yields `none`, when `next[i]` is read or written on a node whose array
has no index `i`, when `update[i]` is written with `i > 16` or read before it is
written, or when a null or deleted node is dereferenced. `curr_height` and every
drawn height are at most `MAX_HEIGHT`, every real node has between `1` and
`curr_height + 1` links and the head has `MAX_HEIGHT + 1`, and `insert` (with any
height in `0..16`, or with the generator in place), `remove` and the five queries
all return. -/
theorem accesses_in_bounds (s : SkipList) (hs : Reachable s) (v : Int) :
    s.curr_height ≤ MAX_HEIGHT ∧
      (∀ (coin : Nat → Bool) (k : Nat),
        ∃ h k1, rand_height coin k = some (h, k1) ∧ h ≤ MAX_HEIGHT) ∧
      (∃ hd, getNode s.heap head = some hd ∧ hd.next.length = MAX_HEIGHT + 1) ∧
      (∃ l, levelNodes s 0 = some l ∧
        ∀ n ∈ l, 1 ≤ n.next.length ∧ n.next.length ≤ s.curr_height + 1) ∧
      (∀ height, height ≤ MAX_HEIGHT → (insert s v height).isSome = true) ∧
      (∀ (coin : Nat → Bool) (k : Nat), (insert_rand coin s k v).isSome = true) ∧
      (remove s v).isSome = true ∧ (find s v).isSome = true ∧
      (count_occurrence s v).isSome = true ∧ (lower_bound s v).isSome = true ∧
      (upper_bound s v).isSome = true ∧ (closest_element s v).isSome = true := by
  obtain ⟨ns, h⟩ := hs.inv
  obtain ⟨a1, a2, a3, a4, a5, -⟩ := h.queries_abs v
  refine ⟨h.ch, rand_height_le, ?_, ?_, ?_, ?_, ?_, by rw [a1]; rfl, by rw [a2]; rfl,
    by rw [a3]; rfl, by rw [a4]; rfl, by rw [a5]; rfl⟩
  · have hpos : 0 < lvl s.heap head := by rw [h.head_lvl]; simp
    obtain ⟨n, hg, -, -, hl⟩ := lvl_pos_getNode hpos
    exact ⟨n, hg, by rw [← hl, h.head_lvl]⟩
  · obtain ⟨l, hl, -⟩ := h.levelNodes_eq
    refine ⟨l, hl, ?_⟩
    have hn : nodesAt s.heap ns = some l := by
      simpa [levelNodes, h.level_eq (Nat.zero_le _), atLevel_zero h.live] using hl
    intro n hmem
    obtain ⟨a, ha, hg⟩ := nodesAt_mem s.heap ns l hn n hmem
    have hlv := h.lv a ha
    have : lvl s.heap a = n.next.length := by simp [lvl, hg]
    rw [this] at hlv
    exact hlv
  · intro height hh
    obtain ⟨s1, ns1, hins, -⟩ := h.insert_step v height hh
    rw [hins]
    rfl
  · intro coin k
    obtain ⟨s1, ns1, k1, hins, -⟩ := h.insert_rand_abs coin k v
    rw [hins]
    rfl
  · obtain ⟨b, s1, ns1, hrem, -⟩ := h.remove_step v
    rw [hrem]
    rfl

theorem accesses_in_bounds_witness :
    (insert sample 4 16).map (fun s1 => s1.curr_height) = some 16 ∧
      sample.curr_height ≤ MAX_HEIGHT ∧
      (∀ height, height ≤ MAX_HEIGHT → (insert sample 4 height).isSome = true) ∧
      (remove sample 4).isSome = true ∧ (closest_element sample 4).isSome = true :=
  ⟨by decide, (accesses_in_bounds sample ⟨sampleOps, by decide⟩ 4).1,
    (accesses_in_bounds sample ⟨sampleOps, by decide⟩ 4).2.2.2.2.1,
    (accesses_in_bounds sample ⟨sampleOps, by decide⟩ 4).2.2.2.2.2.2.1,
    (accesses_in_bounds sample ⟨sampleOps, by decide⟩ 4).2.2.2.2.2.2.2.2.2.2.2⟩

end SkipList

namespace BigInt

/-! ## Digits and values -/

theorem char_eq_of_toNat {c d : Char} (h : c.toNat = d.toNat) : c = d := by
  rw [← Char.ofNat_toNat c, ← Char.ofNat_toNat d, h]

theorem zero_toNat : ('0' : Char).toNat = 48 := by decide

theorem char_eq_zero_iff (c : Char) : c = '0' ↔ c.toNat = 48 := by
  constructor
  · intro h
    rw [h]
    exact zero_toNat
  · intro h
    exact char_eq_of_toNat (by rw [h, zero_toNat])

theorem dv_zero : dv '0' = 0 := by decide

theorem dv_le {c : Char} (h : IsDigit c) : dv c ≤ 9 := by
  unfold dv
  omega

theorem dv_eq_zero_iff {c : Char} (h : IsDigit c) : dv c = 0 ↔ c = '0' := by
  rw [char_eq_zero_iff]
  unfold dv
  omega

theorem dv_inj {c d : Char} (hc : IsDigit c) (hd : IsDigit d) (h : dv c = dv d) : c = d := by
  apply char_eq_of_toNat
  unfold dv at h
  omega

theorem digitVal_eq {c : Char} (h : IsDigit c) : digitVal c = (dv c : Int) := by
  unfold digitVal dv
  omega

theorem digitChar_fin : ∀ n : Fin 10, (digitChar (n.val : Int)).toNat = n.val + 48 := by
  decide

theorem digitChar_toNat {d : Int} (h0 : 0 ≤ d) (h9 : d ≤ 9) :
    (digitChar d).toNat = (d + 48).toNat := by
  have key := digitChar_fin ⟨d.toNat, by omega⟩
  have e : ((d.toNat : Nat) : Int) = d := Int.toNat_of_nonneg h0
  simp only [e] at key
  omega

theorem digitChar_isDigit {d : Int} (h0 : 0 ≤ d) (h9 : d ≤ 9) : IsDigit (digitChar d) := by
  unfold IsDigit
  rw [digitChar_toNat h0 h9]
  omega

theorem dv_digitChar {d : Int} (h0 : 0 ≤ d) (h9 : d ≤ 9) : (dv (digitChar d) : Int) = d := by
  unfold dv
  rw [digitChar_toNat h0 h9]
  omega

theorem foldl_value (s : List Char) (acc : Nat) :
    s.foldl (fun acc c => 10 * acc + dv c) acc = acc * 10 ^ s.length + value s := by
  induction s generalizing acc with
  | nil => simp [value]
  | cons c r ih =>
    simp only [List.foldl_cons, List.length_cons, value]
    rw [ih, ih (10 * 0 + dv c)]
    ring

theorem value_nil : value [] = 0 := rfl

theorem value_cons (c : Char) (s : List Char) :
    value (c :: s) = dv c * 10 ^ s.length + value s := by
  unfold value
  rw [List.foldl_cons, foldl_value]
  simp [value]

theorem value_append (s t : List Char) :
    value (s ++ t) = value s * 10 ^ t.length + value t := by
  unfold value
  rw [List.foldl_append, foldl_value]
  rfl

theorem value_snoc (s : List Char) (c : Char) : value (s ++ [c]) = 10 * value s + dv c := by
  rw [value_append, value_cons]
  simp [value_nil]
  ring

theorem value_lt {s : List Char} (h : ∀ c ∈ s, IsDigit c) : value s < 10 ^ s.length := by
  induction s with
  | nil => simp [value_nil]
  | cons c r ih =>
    have h1 := dv_le (h c (by simp))
    have h2 := ih (fun x hx => h x (List.mem_cons_of_mem _ hx))
    rw [value_cons, List.length_cons, pow_succ]
    nlinarith

theorem value_single (c : Char) : value [c] = dv c := by
  rw [value_cons]
  simp [value_nil]

theorem canon_single {c : Char} (h : IsDigit c) : Canon [c] := by
  refine ⟨by simp, ?_, ?_⟩
  · intro x hx
    rw [List.mem_singleton.1 hx]
    exact h
  · intro hh
    simp only [List.head?_cons, Option.some.injEq] at hh
    rw [hh]

theorem canon_zero : Canon ['0'] := canon_single (by decide)

theorem Canon.pow_le {s : List Char} (h : Canon s) (hz : s ≠ ['0']) :
    10 ^ (s.length - 1) ≤ value s := by
  obtain ⟨hne, hd, hl⟩ := h
  cases s with
  | nil => exact absurd rfl hne
  | cons c r =>
    have hc : c ≠ '0' := by
      intro e
      apply hz
      apply hl
      rw [e]
      rfl
    have hdc := hd c (by simp)
    have : 1 ≤ dv c := by
      have := (dv_eq_zero_iff hdc).not.2 hc
      omega
    rw [value_cons]
    simp only [List.length_cons, Nat.add_sub_cancel]
    have hp : 0 < 10 ^ r.length := pow_pos (by omega) _
    nlinarith [Nat.zero_le (value r)]

theorem Canon.value_eq_zero {s : List Char} (h : Canon s) : value s = 0 ↔ s = ['0'] := by
  constructor
  · intro hv
    by_contra hz
    have := h.pow_le hz
    have hp : 0 < 10 ^ (s.length - 1) := pow_pos (by omega) _
    omega
  · intro e
    rw [e]
    decide

theorem value_dropZeros (s : List Char) :
    value (s.dropWhile fun c => decide (c = '0')) = value s := by
  induction s with
  | nil => rfl
  | cons c r ih =>
    by_cases hc : c = '0'
    · rw [List.dropWhile_cons_of_pos (by simpa using hc), ih, value_cons, hc, dv_zero]
      simp
    · rw [List.dropWhile_cons_of_neg (by simpa using hc)]

theorem skipZeros_spec {s : List Char} (h : ∀ c ∈ s, IsDigit c) :
    Canon (skipZeros s) ∧ value (skipZeros s) = value s := by
  unfold skipZeros
  simp only
  by_cases hr : (s.dropWhile fun c => decide (c = '0')) = []
  · rw [if_pos hr]
    refine ⟨canon_zero, ?_⟩
    rw [← value_dropZeros s, hr]
    decide
  · rw [if_neg hr]
    refine ⟨⟨hr, ?_, ?_⟩, value_dropZeros s⟩
    · intro c hc
      exact h c ((List.dropWhile_sublist _).subset hc)
    · intro hh
      exfalso
      cases hd : (s.dropWhile fun c => decide (c = '0')) with
      | nil => exact hr hd
      | cons x t =>
        rw [hd] at hh
        simp only [List.head?_cons, Option.some.injEq] at hh
        have := List.head_dropWhile_not (fun c => decide (c = '0')) s hr
        simp only [hd, List.head_cons, hh, decide_True] at this
        exact absurd this (by simp)

theorem stripLead_spec : ∀ (s : List Char), s ≠ [] → (∀ c ∈ s, IsDigit c) →
    Canon (stripLead s) ∧ value (stripLead s) = value s := by
  intro s
  induction s with
  | nil =>
    intro h
    exact absurd rfl h
  | cons c r ih =>
    intro _ hd
    cases r with
    | nil =>
      simp only [stripLead]
      exact ⟨canon_single (hd c (by simp)), trivial⟩
    | cons d t =>
      by_cases hc : c = '0'
      · simp only [stripLead, hc, if_true]
        obtain ⟨h1, h2⟩ := ih (by simp) (fun x hx => hd x (List.mem_cons_of_mem _ hx))
        refine ⟨h1, ?_⟩
        rw [h2, value_cons '0', dv_zero]
        simp
      · simp only [stripLead, hc, if_false]
        refine ⟨⟨by simp, hd, ?_⟩, trivial⟩
        intro hh
        simp only [List.head?_cons, Option.some.injEq] at hh
        exact absurd hh hc

theorem digits_eq_of_value : ∀ (s t : List Char), s.length = t.length →
    (∀ c ∈ s, IsDigit c) → (∀ c ∈ t, IsDigit c) → value s = value t → s = t := by
  intro s
  induction s with
  | nil =>
    intro t hl _ _ _
    exact (List.length_eq_zero.1 hl.symm).symm
  | cons c1 r1 ih =>
    intro t hl hs ht hv
    cases t with
    | nil => simp at hl
    | cons c2 r2 =>
      have hl2 : r1.length = r2.length := by simpa using hl
      have d1 := dv_le (hs c1 (by simp))
      have d2 := dv_le (ht c2 (by simp))
      have v1 := value_lt (fun x hx => hs x (List.mem_cons_of_mem _ hx))
      have v2 := value_lt (fun x hx => ht x (List.mem_cons_of_mem _ hx))
      rw [value_cons, value_cons, hl2] at hv
      rw [hl2] at v1
      have hdv : dv c1 = dv c2 := by
        by_contra hne
        rcases Nat.lt_or_gt_of_ne hne with hlt | hgt
        · nlinarith
        · nlinarith
      rw [hdv] at hv
      have hc := dv_inj (hs c1 (by simp)) (ht c2 (by simp)) hdv
      have hr := ih r2 hl2 (fun x hx => hs x (List.mem_cons_of_mem _ hx))
        (fun x hx => ht x (List.mem_cons_of_mem _ hx)) (by omega)
      rw [hc, hr]

theorem Canon.length_lt {s t : List Char} (hs : Canon s) (ht : Canon t)
    (h : s.length < t.length) : value s < value t := by
  have h1 := value_lt hs.2.1
  have hz : t ≠ ['0'] := by
    intro e
    rw [e] at h
    have h5 : s.length < 1 := h
    have := List.length_pos.2 hs.1
    omega
  have h2 := ht.pow_le hz
  have h3 : 10 ^ s.length ≤ 10 ^ (t.length - 1) :=
    Nat.pow_le_pow_right (by omega) (by omega)
  exact lt_of_lt_of_le h1 (le_trans h3 h2)

theorem canon_unique {s t : List Char} (hs : Canon s) (ht : Canon t)
    (h : value s = value t) : s = t := by
  have hl : s.length = t.length := by
    by_contra hne
    rcases Nat.lt_or_gt_of_ne hne with hlt | hgt
    · have := hs.length_lt ht hlt
      omega
    · have := ht.length_lt hs hgt
      omega
  exact digits_eq_of_value s t hl hs.2.1 ht.2.1 h

/-! ## `compareStrings` -/

theorem compareChars_spec : ∀ (s t : List Char), s.length = t.length →
    (∀ c ∈ s, IsDigit c) → (∀ c ∈ t, IsDigit c) →
    compareChars s t
      = if value s < value t then -1 else if value s = value t then 0 else 1 := by
  intro s
  induction s with
  | nil =>
    intro t hl _ _
    have : t = [] := List.length_eq_zero.1 hl.symm
    subst this
    simp [compareChars, value_nil]
  | cons c1 r1 ih =>
    intro t hl hs ht
    cases t with
    | nil => simp at hl
    | cons c2 r2 =>
      have hl2 : r1.length = r2.length := by simpa using hl
      have hd1 := hs c1 (by simp)
      have hd2 := ht c2 (by simp)
      have d1 := dv_le hd1
      have d2 := dv_le hd2
      have v1 := value_lt (fun x hx => hs x (List.mem_cons_of_mem _ hx))
      have v2 := value_lt (fun x hx => ht x (List.mem_cons_of_mem _ hx))
      have hr := ih r2 hl2 (fun x hx => hs x (List.mem_cons_of_mem _ hx))
        (fun x hx => ht x (List.mem_cons_of_mem _ hx))
      rw [value_cons, value_cons, hl2]
      rw [hl2] at v1
      by_cases hc : c1 = c2
      · subst hc
        simp only [compareChars, ne_eq, not_true_eq_false, if_false, hr,
          Nat.add_lt_add_iff_left, Nat.add_left_cancel_iff]
      · simp only [compareChars, ne_eq, hc, not_false_eq_true, if_true]
        have hne : dv c1 ≠ dv c2 := fun e => hc (dv_inj hd1 hd2 e)
        by_cases hlt : c1.toNat < c2.toNat
        · have : dv c1 < dv c2 := by
            unfold dv
            omega
          rw [if_pos hlt, if_pos (by nlinarith)]
        · have : dv c2 < dv c1 := by
            unfold dv at hne ⊢
            omega
          rw [if_neg hlt, if_neg (by nlinarith), if_neg (by nlinarith)]

theorem compareStrings_spec {s t : List Char} (hs : Canon s) (ht : Canon t) :
    compareStrings s t
      = if value s < value t then -1 else if value s = value t then 0 else 1 := by
  unfold compareStrings
  by_cases hl : s.length = t.length
  · simp only [hl, ne_eq, not_true_eq_false, if_false]
    exact compareChars_spec s t hl hs.2.1 ht.2.1
  · simp only [ne_eq, hl, not_false_eq_true, if_true]
    rcases Nat.lt_or_gt_of_ne hl with hlt | hgt
    · rw [if_pos hlt, if_pos (hs.length_lt ht hlt)]
    · have := ht.length_lt hs hgt
      rw [if_neg (by omega), if_neg (by omega), if_neg (by omega)]

theorem compareStrings_lt {s t : List Char} (hs : Canon s) (ht : Canon t) :
    compareStrings s t < 0 ↔ value s < value t := by
  rw [compareStrings_spec hs ht]
  split_ifs <;> omega

theorem compareStrings_ge {s t : List Char} (hs : Canon s) (ht : Canon t) :
    compareStrings s t ≥ 0 ↔ value t ≤ value s := by
  rw [compareStrings_spec hs ht]
  split_ifs <;> omega

/-! ## `sub` -/

theorem padZeros_eq (n : Nat) : ∀ (fuel : Nat) (b : List Char), n - b.length ≤ fuel →
    padZeros n fuel b = List.replicate (n - b.length) '0' ++ b := by
  intro fuel
  induction fuel with
  | zero =>
    intro b h
    have : n - b.length = 0 := by omega
    simp [padZeros, this]
  | succ f ih =>
    intro b h
    by_cases hlt : b.length < n
    · simp only [padZeros, hlt, if_true]
      rw [ih ('0' :: b) (by simp; omega)]
      have : n - b.length = (n - ('0' :: b).length) + 1 := by
        simp
        omega
      rw [this, List.replicate_succ']
      simp
    · have : n - b.length = 0 := by omega
      simp [padZeros, hlt, this]

theorem value_zeros (k : Nat) (s : List Char) : value (List.replicate k '0' ++ s) = value s := by
  induction k with
  | zero => rfl
  | succ k ih =>
    rw [List.replicate_succ, List.cons_append, value_cons, dv_zero, ih]
    simp

theorem subLoop_spec : ∀ (z : List (Char × Char)) (br : Int) (acc : List Char),
    (∀ p ∈ z, IsDigit p.1 ∧ IsDigit p.2) → (br = 0 ∨ br = 1) →
    ∃ ds br1, subLoop z br acc = (ds ++ acc, br1) ∧ ds.length = z.length ∧
      (∀ c ∈ ds, IsDigit c) ∧ (br1 = 0 ∨ br1 = 1) ∧
      (value (z.map Prod.fst).reverse : Int) - value (z.map Prod.snd).reverse - br
        = value ds - br1 * 10 ^ z.length := by
  intro z
  induction z with
  | nil =>
    intro br acc _ hbr
    refine ⟨[], br, rfl, rfl, by simp, hbr, ?_⟩
    simp [value_nil]
  | cons p rest ih =>
    intro br acc hd hbr
    obtain ⟨ca, cb⟩ := p
    have hp := hd (ca, cb) (by simp)
    have ha : digitVal ca = (dv ca : Int) := digitVal_eq hp.1
    have hb : digitVal cb = (dv cb : Int) := digitVal_eq hp.2
    have la : dv ca ≤ 9 := dv_le hp.1
    have lb : dv cb ≤ 9 := dv_le hp.2
    have hrest : ∀ p ∈ rest, IsDigit p.1 ∧ IsDigit p.2 :=
      fun q hq => hd q (List.mem_cons_of_mem _ hq)
    simp only [List.map_cons, List.reverse_cons, value_snoc, List.length_cons]
    by_cases hneg : digitVal ca - digitVal cb - br < 0
    · obtain ⟨ds, br1, hs, hl, hdig, hb1, hv⟩ :=
        ih 1 (digitChar (digitVal ca - digitVal cb - br + 10) :: acc) hrest (Or.inr rfl)
      have h0 : 0 ≤ digitVal ca - digitVal cb - br + 10 := by
        rcases hbr with e | e <;> omega
      have h9 : digitVal ca - digitVal cb - br + 10 ≤ 9 := by omega
      refine ⟨ds ++ [digitChar (digitVal ca - digitVal cb - br + 10)], br1, ?_, ?_, ?_, hb1, ?_⟩
      · simp only [subLoop, hneg, if_true, hs]
        simp
      · simp [hl]
      · intro c hc
        rcases List.mem_append.1 hc with m | m
        · exact hdig c m
        · rw [List.mem_singleton.1 m]
          exact digitChar_isDigit h0 h9
      · rw [value_snoc]
        have hdc := dv_digitChar h0 h9
        push_cast
        rw [hdc, pow_succ]
        linarith
    · obtain ⟨ds, br1, hs, hl, hdig, hb1, hv⟩ :=
        ih 0 (digitChar (digitVal ca - digitVal cb - br) :: acc) hrest (Or.inl rfl)
      have h0 : 0 ≤ digitVal ca - digitVal cb - br := by omega
      have h9 : digitVal ca - digitVal cb - br ≤ 9 := by
        rcases hbr with e | e <;> omega
      refine ⟨ds ++ [digitChar (digitVal ca - digitVal cb - br)], br1, ?_, ?_, ?_, hb1, ?_⟩
      · simp only [subLoop, hneg, if_false, hs]
        simp
      · simp [hl]
      · intro c hc
        rcases List.mem_append.1 hc with m | m
        · exact hdig c m
        · rw [List.mem_singleton.1 m]
          exact digitChar_isDigit h0 h9
      · rw [value_snoc]
        have hdc := dv_digitChar h0 h9
        push_cast
        rw [hdc, pow_succ]
        linarith

theorem sub_spec {a b : List Char} (ha : Canon a) (hb : Canon b) (hle : value b ≤ value a) :
    Canon (sub a b) ∧ value (sub a b) = value a - value b ∧ subBorrow a b = 0 := by
  have hlen : b.length ≤ a.length := by
    by_contra hc
    have := ha.length_lt hb (by omega)
    omega
  have hpad : padZeros a.length a.length b
      = List.replicate (a.length - b.length) '0' ++ b := padZeros_eq _ _ _ (by omega)
  have hplen : (padZeros a.length a.length b).length = a.length := by
    rw [hpad]
    simp
    omega
  have hpval : value (padZeros a.length a.length b) = value b := by
    rw [hpad, value_zeros]
  have hpdig : ∀ c ∈ padZeros a.length a.length b, IsDigit c := by
    intro c hc
    rw [hpad] at hc
    rcases List.mem_append.1 hc with m | m
    · rw [(List.mem_replicate.1 m).2]
      decide
    · exact hb.2.1 c m
  have hfst : ((subPairs a b).map Prod.fst).reverse = a := by
    unfold subPairs
    rw [List.map_reverse, List.reverse_reverse, List.map_fst_zip]
    omega
  have hsnd : ((subPairs a b).map Prod.snd).reverse = padZeros a.length a.length b := by
    unfold subPairs
    rw [List.map_reverse, List.reverse_reverse, List.map_snd_zip]
    omega
  have hzl : (subPairs a b).length = a.length := by
    unfold subPairs
    rw [List.length_reverse, List.length_zip, hplen]
    simp
  have hzd : ∀ p ∈ subPairs a b, IsDigit p.1 ∧ IsDigit p.2 := by
    intro p hp
    unfold subPairs at hp
    rw [List.mem_reverse] at hp
    exact ⟨ha.2.1 _ (List.of_mem_zip hp).1, hpdig _ (List.of_mem_zip hp).2⟩
  obtain ⟨ds, br1, hs, hl, hdig, hb1, hv⟩ := subLoop_spec (subPairs a b) 0 [] hzd (Or.inl rfl)
  rw [hfst, hsnd, hpval, hzl] at hv
  have hvl := value_lt hdig
  rw [hl, hzl] at hvl
  have hal := value_lt ha.2.1
  simp only [List.append_nil] at hs
  have hbr : br1 = 0 := by
    rcases hb1 with e | e
    · exact e
    · exfalso
      rw [e] at hv
      have h1 : (value ds : Int) < 10 ^ a.length := by exact_mod_cast hvl
      have h2 : (value b : Int) ≤ value a := by exact_mod_cast hle
      linarith
  have hval : value ds = value a - value b := by
    rw [hbr] at hv
    have h2 : (value b : Int) ≤ value a := by exact_mod_cast hle
    have : (value ds : Int) = value a - value b := by linarith
    omega
  obtain ⟨hc1, hc2⟩ := skipZeros_spec hdig
  refine ⟨?_, ?_, ?_⟩
  · unfold sub
    rw [hs]
    exact hc1
  · unfold sub
    rw [hs]
    simp only
    rw [hc2, hval]
  · unfold subBorrow
    rw [hs]
    exact hbr

/-! ## `div` and `mod` -/

theorem divInner_spec {b : List Char} (hb : Canon b) (hb0 : 0 < value b) :
    ∀ (fuel : Nat) (cur : List Char) (count : Int), Canon cur → value cur / value b < fuel →
      ∃ r, divInner b fuel cur count = some (r, count + (value cur / value b : Nat)) ∧
        Canon r ∧ value r = value cur % value b := by
  intro fuel
  induction fuel with
  | zero =>
    intro cur count _ h
    exact absurd h (Nat.not_lt_zero _)
  | succ f ih =>
    intro cur count hc hf
    by_cases hge : value b ≤ value cur
    · obtain ⟨hs1, hs2, -⟩ := sub_spec hc hb hge
      have hdiv : value cur / value b = (value cur - value b) / value b + 1 :=
        Nat.div_eq_sub_div hb0 hge
      have hmod : value cur % value b = (value cur - value b) % value b :=
        Nat.mod_eq_sub_mod hge
      obtain ⟨r, hr, hcr, hvr⟩ := ih (sub cur b) (count + 1) hs1 (by rw [hs2]; omega)
      refine ⟨r, ?_, hcr, by rw [hvr, hs2, hmod]⟩
      simp only [divInner, (compareStrings_ge hc hb).2 hge, if_true, hr, hs2, hdiv]
      push_cast
      congr 2
      ring
    · have hlt : value cur < value b := by omega
      refine ⟨cur, ?_, hc, (Nat.mod_eq_of_lt hlt).symm⟩
      have hn : ¬ compareStrings cur b ≥ 0 := fun h => hge ((compareStrings_ge hc hb).1 h)
      simp only [divInner, hn, if_false, Nat.div_eq_of_lt hlt]
      simp

theorem modInner_eq (b : List Char) : ∀ (fuel : Nat) (cur : List Char) (count : Int),
    modInner b fuel cur = (divInner b fuel cur count).map Prod.fst := by
  intro fuel
  induction fuel with
  | zero =>
    intro cur count
    rfl
  | succ f ih =>
    intro cur count
    by_cases h : compareStrings cur b ≥ 0
    · simp only [modInner, divInner, h, if_true]
      exact ih _ _
    · simp only [modInner, divInner, h, if_false]
      rfl

theorem modLoop_eq (fuel : Nat) (b : List Char) : ∀ (rest cur : List Char) (q : List Int),
    modLoop fuel b rest cur = (divLoop fuel b rest cur q).map Prod.fst := by
  intro rest
  induction rest with
  | nil =>
    intro cur q
    rfl
  | cons c r ih =>
    intro cur q
    simp only [modLoop, divLoop, modInner_eq b fuel _ 0]
    cases divInner b fuel (stripLead (cur ++ [c])) 0 with
    | none => rfl
    | some p =>
      obtain ⟨cur1, count⟩ := p
      exact ih cur1 _

theorem divLoop_spec {b : List Char} (hb : Canon b) (hb0 : 0 < value b) {fuel : Nat}
    (hf : 10 ≤ fuel) :
    ∀ (rest cur : List Char) (q : List Int), (∀ c ∈ rest, IsDigit c) →
      (∀ c ∈ cur, IsDigit c) → value cur < value b →
      ∃ cur1 q1, divLoop fuel b rest cur q = some (cur1, q ++ q1) ∧
        q1.length = rest.length ∧ (∀ k ∈ q1, 0 ≤ k ∧ k ≤ 9) ∧
        (∀ c ∈ cur1, IsDigit c) ∧ (rest ≠ [] → Canon cur1) ∧ value cur1 < value b ∧
        10 ^ rest.length * value cur + value rest
          = value b * value (q1.map digitChar) + value cur1 := by
  intro rest
  induction rest with
  | nil =>
    intro cur q _ hc hlt
    refine ⟨cur, [], by simp [divLoop], rfl, by simp, hc, by simp, hlt, ?_⟩
    simp [value_nil]
  | cons c r ih =>
    intro cur q hr hc hlt
    have hdc := hr c (by simp)
    have hdig : ∀ x ∈ cur ++ [c], IsDigit x := by
      intro x hx
      rcases List.mem_append.1 hx with m | m
      · exact hc x m
      · rw [List.mem_singleton.1 m]
        exact hdc
    obtain ⟨hs1, hs2⟩ := stripLead_spec (cur ++ [c]) (by simp) hdig
    rw [value_snoc] at hs2
    have hdv := dv_le hdc
    have hx : value (stripLead (cur ++ [c])) / value b ≤ 9 := by
      rw [hs2]
      apply Nat.le_of_lt_succ
      rw [Nat.div_lt_iff_lt_mul hb0]
      nlinarith
    obtain ⟨cur1, hin, hc1, hv1⟩ := divInner_spec hb hb0 fuel (stripLead (cur ++ [c])) 0 hs1
      (by omega)
    have hlt1 : value cur1 < value b := by
      rw [hv1]
      exact Nat.mod_lt _ hb0
    have hdm := Nat.div_add_mod (value (stripLead (cur ++ [c]))) (value b)
    rw [← hv1, hs2] at hdm
    rw [hs2] at hx hin
    generalize (10 * value cur + dv c) / value b = N at hdm hx hin
    have hcount0 : (0 : Int) ≤ (0 : Int) + (N : Nat) := by omega
    have hcount9 : (0 : Int) + (N : Nat) ≤ 9 := by omega
    obtain ⟨cur2, q2, hl, hlen, hq, hd2, hcan2, hlt2, hnum⟩ :=
      ih cur1 (q ++ [(0 : Int) + (N : Nat)])
        (fun x hx => hr x (List.mem_cons_of_mem _ hx)) hc1.2.1 hlt1
    have hcur2 : Canon cur2 := by
      cases r with
      | nil =>
        simp only [divLoop, Option.some.injEq, Prod.mk.injEq] at hl
        rw [← hl.1]
        exact hc1
      | cons d t => exact hcan2 (by simp)
    refine ⟨cur2, ((0 : Int) + (N : Nat)) :: q2, ?_, ?_, ?_, hd2, fun _ => hcur2, hlt2, ?_⟩
    · simp only [divLoop, hin, hl]
      simp
    · simp [hlen]
    · intro k hk
      rcases List.mem_cons.1 hk with e | e
      · rw [e]
        exact ⟨hcount0, hcount9⟩
      · exact hq k e
    · rw [List.map_cons, value_cons, value_cons, List.length_map, hlen, List.length_cons]
      have hdc2 : dv (digitChar ((0 : Int) + (N : Nat))) = N := by
        have := dv_digitChar hcount0 hcount9
        omega
      rw [hdc2]
      calc 10 ^ (r.length + 1) * value cur + (dv c * 10 ^ r.length + value r)
          = 10 ^ r.length * (10 * value cur + dv c) + value r := by ring
        _ = 10 ^ r.length * (value b * N + value cur1) + value r := by rw [hdm]
        _ = value b * N * 10 ^ r.length + (10 ^ r.length * value cur1 + value r) := by ring
        _ = value b * N * 10 ^ r.length
              + (value b * value (q2.map digitChar) + value cur2) := by rw [hnum]
        _ = value b * (N * 10 ^ r.length + value (q2.map digitChar)) + value cur2 := by ring

theorem div_mod_spec {a b : List Char} (ha : Canon a) (hb : Canon b) (hb0 : b ≠ ['0'])
    {fuel : Nat} (hf : 10 ≤ fuel) :
    ∃ q r, div fuel a b = some q ∧ mod fuel a b = some r ∧ Canon q ∧ Canon r ∧
      value q = value a / value b ∧ value r = value a % value b ∧
      (compareStrings a b ≥ 0 → ∃ cur counts, divLoop fuel b a [] [] = some (cur, counts) ∧
        counts.length = a.length ∧ ∀ k ∈ counts, 0 ≤ k ∧ k ≤ 9) := by
  have hvb : 0 < value b := by
    rcases Nat.eq_zero_or_pos (value b) with e | e
    · exact absurd (hb.value_eq_zero.1 e) hb0
    · exact e
  by_cases hlt : value a < value b
  · have hc : compareStrings a b < 0 := (compareStrings_lt ha hb).2 hlt
    refine ⟨['0'], a, by simp [div, hc], by simp [mod, hc], canon_zero, ha, ?_, ?_, ?_⟩
    · rw [Nat.div_eq_of_lt hlt]
      decide
    · rw [Nat.mod_eq_of_lt hlt]
    · intro hge
      omega
  · have hc : ¬ compareStrings a b < 0 := fun h => hlt ((compareStrings_lt ha hb).1 h)
    obtain ⟨cur1, q1, hl, hlen, hq, hd1, hcan, hlt1, hnum⟩ :=
      divLoop_spec hb hvb hf a [] [] ha.2.1 (by simp) (by simpa [value_nil] using hvb)
    simp only [List.nil_append, value_nil, Nat.mul_zero, Nat.zero_add] at hl hnum
    have hc1 : Canon cur1 := hcan ha.1
    have hqd : ∀ c ∈ q1.map digitChar, IsDigit c := by
      intro c hc
      obtain ⟨k, hk, rfl⟩ := List.mem_map.1 hc
      exact digitChar_isDigit (hq k hk).1 (hq k hk).2
    obtain ⟨hs1, hs2⟩ := skipZeros_spec hqd
    have huniq := (Nat.div_mod_unique hvb (a := value a) (c := value cur1)
      (d := value (q1.map digitChar))).2 ⟨by omega, hlt1⟩
    refine ⟨skipZeros (q1.map digitChar), cur1, ?_, ?_, hs1, hc1, ?_, huniq.2.symm, ?_⟩
    · simp [div, hc, hl]
    · have := modLoop_eq fuel b a [] []
      rw [hl] at this
      simp only [mod, hc, if_false, this, Option.map_some']
      rw [if_neg hc1.1]
    · rw [hs2, huniq.1]
    · intro _
      exact ⟨cur1, q1, hl, hlen, hq⟩

/-! ## `gcd` -/

theorem gcdLoop_spec {inner : Nat} (hi : 10 ≤ inner) :
    ∀ (fuel : Nat) (a b : List Char), Canon a → Canon b → value b < fuel →
      ∃ g, gcdLoop inner fuel a b = some g ∧ Canon g ∧
        value g = Nat.gcd (value a) (value b) ∧ (b = ['0'] → g = a) := by
  intro fuel
  induction fuel with
  | zero =>
    intro a b _ _ h
    exact absurd h (Nat.not_lt_zero _)
  | succ f ih =>
    intro a b ha hb hf
    by_cases hz : b = ['0']
    · refine ⟨a, by simp [gcdLoop, hz], ha, ?_, fun _ => rfl⟩
      rw [hb.value_eq_zero.2 hz, Nat.gcd_zero_right]
    · obtain ⟨q, r, -, hm, -, hr, -, hvr, -⟩ := div_mod_spec ha hb hz hi
      have hvb : 0 < value b := by
        rcases Nat.eq_zero_or_pos (value b) with e | e
        · exact absurd (hb.value_eq_zero.1 e) hz
        · exact e
      have hlt : value r < value b := by
        rw [hvr]
        exact Nat.mod_lt _ hvb
      obtain ⟨g, hg, hcg, hvg, -⟩ := ih b r hb hr (by omega)
      refine ⟨g, ?_, hcg, ?_, fun e => absurd e hz⟩
      · simp only [gcdLoop, ne_eq, hz, not_false_eq_true, if_true, hm, hg]
      · rw [hvg, hvr, Nat.gcd_comm (value a) (value b), Nat.gcd_rec (value b) (value a),
          Nat.gcd_comm]

/-! ## The claims on `big_int.cpp` -/

/-- C14: for decimal strings `a` and `b` without leading zeros with `b ≠ "0"`, and an
inner loop allowed at least ten tests, `div` and `mod` return; `div(a, b)` is the
string without leading zeros that denotes `⌊a / b⌋` and `mod(a, b)` the one that
denotes `a mod b`, so `a = b * div(a, b) + mod(a, b)` with `mod(a, b) < b`; every
count that the subtraction loop of `div` stores in `quotient` is at most `9`. -/
theorem div_mod_correct (a b : List Char) (ha : Canon a) (hb : Canon b) (hb0 : b ≠ ['0'])
    (fuel : Nat) (hf : 10 ≤ fuel) :
    ∃ q r, div fuel a b = some q ∧ mod fuel a b = some r ∧ Canon q ∧ Canon r ∧
      value q = value a / value b ∧ value r = value a % value b ∧
      value a = value b * value q + value r ∧ value r < value b ∧
      (compareStrings a b ≥ 0 → ∃ cur counts, divLoop fuel b a [] [] = some (cur, counts) ∧
        counts.length = a.length ∧ ∀ k ∈ counts, 0 ≤ k ∧ k ≤ 9) := by
  obtain ⟨q, r, h1, h2, h3, h4, h5, h6, h7⟩ := div_mod_spec ha hb hb0 hf
  have hvb : 0 < value b := by
    rcases Nat.eq_zero_or_pos (value b) with e | e
    · exact absurd (hb.value_eq_zero.1 e) hb0
    · exact e
  refine ⟨q, r, h1, h2, h3, h4, h5, h6, ?_, ?_, h7⟩
  · rw [h5, h6]
    exact (Nat.div_add_mod _ _).symm
  · rw [h6]
    exact Nat.mod_lt _ hvb

theorem div_mod_correct_witness :
    (div 10 "1234".toList "12".toList = some "102".toList ∧
      mod 10 "1234".toList "12".toList = some "10".toList ∧
      (divLoop 10 "12".toList "1234".toList [] []).map Prod.snd = some [0, 1, 0, 2]) ∧
      ∃ q r, div 10 "1234".toList "12".toList = some q ∧
        mod 10 "1234".toList "12".toList = some r ∧ Canon q ∧ Canon r ∧
        value q = value "1234".toList / value "12".toList ∧
        value r = value "1234".toList % value "12".toList ∧
        value "1234".toList = value "12".toList * value q + value r ∧
        value r < value "12".toList ∧
        (compareStrings "1234".toList "12".toList ≥ 0 →
          ∃ cur counts, divLoop 10 "12".toList "1234".toList [] [] = some (cur, counts) ∧
            counts.length = "1234".toList.length ∧ ∀ k ∈ counts, 0 ≤ k ∧ k ≤ 9) :=
  ⟨by decide, div_mod_correct "1234".toList "12".toList (by decide) (by decide) (by decide)
    10 (by decide)⟩

/-- C15: for decimal strings `a` and `b` without leading zeros, `gcd` returns for
every fuel that is at least `10` and exceeds the value of `b`; the result is the
string without leading zeros that denotes the greatest common divisor of the two
numbers, and `gcd(a, "0")` is `a`. -/
theorem gcd_correct (a b : List Char) (ha : Canon a) (hb : Canon b) (fuel : Nat)
    (h10 : 10 ≤ fuel) (hf : value b < fuel) :
    ∃ g, gcd fuel a b = some g ∧ Canon g ∧ value g = Nat.gcd (value a) (value b) ∧
      (b = ['0'] → g = a) :=
  gcdLoop_spec h10 fuel a b ha hb hf

theorem gcd_correct_witness :
    (gcd 20 "12".toList "18".toList = some "6".toList ∧
      gcd 20 "35".toList "0".toList = some "35".toList) ∧
      ∃ g, gcd 20 "12".toList "18".toList = some g ∧ Canon g ∧
        value g = Nat.gcd (value "12".toList) (value "18".toList) ∧
        ("18".toList = ['0'] → g = "12".toList) :=
  ⟨by decide, gcd_correct "12".toList "18".toList (by decide) (by decide) 20 (by decide)
    (by decide)⟩

/-- C16: for decimal strings `a` and `b` without leading zeros whose values satisfy
`a ≥ b`, `sub(a, b)` is the string without leading zeros that denotes `a - b` (it is
`"0"` when `a = b`), and the borrow is `0` when the digit loop ends. -/
theorem sub_correct (a b : List Char) (ha : Canon a) (hb : Canon b)
    (hle : value b ≤ value a) :
    Canon (sub a b) ∧ value (sub a b) = value a - value b ∧
      (value a = value b → sub a b = ['0']) ∧ subBorrow a b = 0 := by
  obtain ⟨h1, h2, h3⟩ := sub_spec ha hb hle
  refine ⟨h1, h2, ?_, h3⟩
  intro he
  apply h1.value_eq_zero.1
  rw [h2, he, Nat.sub_self]

theorem sub_correct_witness :
    (sub "1000".toList "1".toList = "999".toList ∧ sub "77".toList "77".toList = ['0']) ∧
      (Canon (sub "1000".toList "1".toList) ∧
        value (sub "1000".toList "1".toList) = value "1000".toList - value "1".toList ∧
        (value "1000".toList = value "1".toList → sub "1000".toList "1".toList = ['0']) ∧
        subBorrow "1000".toList "1".toList = 0) :=
  ⟨by decide, sub_correct "1000".toList "1".toList (by decide) (by decide) (by decide)⟩

/-! ## `add` -/

theorem addLoop_spec : ∀ (z : List (Char × Char)) (carry : Int) (acc : List Char),
    (∀ p ∈ z, IsDigit p.1 ∧ IsDigit p.2) → (carry = 0 ∨ carry = 1) →
    ∃ ds c1, addLoop z carry acc = (ds ++ acc, c1) ∧ ds.length = z.length ∧
      (∀ c ∈ ds, IsDigit c) ∧ (c1 = 0 ∨ c1 = 1) ∧
      (value (z.map Prod.fst).reverse : Int) + value (z.map Prod.snd).reverse + carry
        = value ds + c1 * 10 ^ z.length := by
  intro z
  induction z with
  | nil =>
    intro carry acc _ hc
    refine ⟨[], carry, rfl, rfl, by simp, hc, ?_⟩
    simp [value_nil]
  | cons p rest ih =>
    intro carry acc hd hc
    obtain ⟨ca, cb⟩ := p
    have hp := hd (ca, cb) (by simp)
    have ha : digitVal ca = (dv ca : Int) := digitVal_eq hp.1
    have hb : digitVal cb = (dv cb : Int) := digitVal_eq hp.2
    have la : dv ca ≤ 9 := dv_le hp.1
    have lb : dv cb ≤ 9 := dv_le hp.2
    have hrest : ∀ p ∈ rest, IsDigit p.1 ∧ IsDigit p.2 :=
      fun q hq => hd q (List.mem_cons_of_mem _ hq)
    have hs0 : 0 ≤ digitVal ca + digitVal cb + carry := by
      rcases hc with e | e <;> omega
    have hs19 : digitVal ca + digitVal cb + carry ≤ 19 := by
      rcases hc with e | e <;> omega
    have hdiv : (digitVal ca + digitVal cb + carry).tdiv 10
        = (digitVal ca + digitVal cb + carry) / 10 := Int.tdiv_eq_ediv hs0 (by omega)
    have hmod : (digitVal ca + digitVal cb + carry).tmod 10
        = (digitVal ca + digitVal cb + carry) % 10 := Int.tmod_eq_emod hs0 (by omega)
    have hc1 : (digitVal ca + digitVal cb + carry) / 10 = 0
        ∨ (digitVal ca + digitVal cb + carry) / 10 = 1 := by omega
    have h0 : 0 ≤ (digitVal ca + digitVal cb + carry) % 10 := by omega
    have h9 : (digitVal ca + digitVal cb + carry) % 10 ≤ 9 := by omega
    obtain ⟨ds, c1, hs, hl, hdig, hb1, hv⟩ :=
      ih ((digitVal ca + digitVal cb + carry) / 10)
        (digitChar ((digitVal ca + digitVal cb + carry) % 10) :: acc) hrest hc1
    refine ⟨ds ++ [digitChar ((digitVal ca + digitVal cb + carry) % 10)], c1, ?_, ?_, ?_,
      hb1, ?_⟩
    · simp only [addLoop, hdiv, hmod, hs]
      simp
    · simp [hl]
    · intro c hcm
      rcases List.mem_append.1 hcm with m | m
      · exact hdig c m
      · rw [List.mem_singleton.1 m]
        exact digitChar_isDigit h0 h9
    · simp only [List.map_cons, List.reverse_cons, value_snoc, List.length_cons]
      have hdc := dv_digitChar h0 h9
      push_cast
      rw [hdc, pow_succ]
      have hsplit := Int.emod_add_ediv (digitVal ca + digitVal cb + carry) 10
      linarith

theorem padZeros_digits {n : Nat} {s : List Char} (h : ∀ c ∈ s, IsDigit c) :
    (∀ c ∈ padZeros n n s, IsDigit c) ∧ value (padZeros n n s) = value s ∧
      (padZeros n n s).length = max n s.length := by
  have hpad : padZeros n n s = List.replicate (n - s.length) '0' ++ s :=
    padZeros_eq _ _ _ (by omega)
  refine ⟨?_, ?_, ?_⟩
  · intro c hc
    rw [hpad] at hc
    rcases List.mem_append.1 hc with m | m
    · rw [(List.mem_replicate.1 m).2]
      decide
    · exact h c m
  · rw [hpad, value_zeros]
  · rw [hpad]
    simp
    omega

theorem add_spec {a b : List Char} (ha : Canon a) (hb : Canon b) :
    Canon (add a b) ∧ value (add a b) = value a + value b := by
  obtain ⟨had, hav, hal⟩ := padZeros_digits (n := max a.length b.length) ha.2.1
  obtain ⟨hbd, hbv, hbl⟩ := padZeros_digits (n := max a.length b.length) hb.2.1
  have hal1 : (padZeros (max a.length b.length) (max a.length b.length) a).length
      = max a.length b.length := by omega
  have hbl1 : (padZeros (max a.length b.length) (max a.length b.length) b).length
      = max a.length b.length := by omega
  generalize hA : padZeros (max a.length b.length) (max a.length b.length) a = A at *
  generalize hB : padZeros (max a.length b.length) (max a.length b.length) b = B at *
  have hfst : (((A.zip B).reverse).map Prod.fst).reverse = A := by
    rw [List.map_reverse, List.reverse_reverse, List.map_fst_zip]
    omega
  have hsnd : (((A.zip B).reverse).map Prod.snd).reverse = B := by
    rw [List.map_reverse, List.reverse_reverse, List.map_snd_zip]
    omega
  have hzl : ((A.zip B).reverse).length = max a.length b.length := by
    rw [List.length_reverse, List.length_zip, hal1, hbl1]
    simp
  have hzd : ∀ p ∈ (A.zip B).reverse, IsDigit p.1 ∧ IsDigit p.2 := by
    intro p hp
    rw [List.mem_reverse] at hp
    exact ⟨had _ (List.of_mem_zip hp).1, hbd _ (List.of_mem_zip hp).2⟩
  obtain ⟨ds, c1, hs, hl, hdig, hc1, hv⟩ := addLoop_spec (A.zip B).reverse 0 [] hzd (Or.inl rfl)
  rw [hfst, hsnd, hav, hbv, hzl] at hv
  rw [hzl] at hl
  simp only [List.append_nil, add_zero] at hs hv
  have hadd : add a b = if c1 ≠ 0 then digitChar c1 :: ds else ds := by
    unfold add
    simp only [hA, hB, hs]
  have hapos : 0 < a.length := List.length_pos.2 ha.1
  rcases hc1 with e | e
  · rw [hadd, e, if_neg (by simp)]
    rw [e] at hv
    have hval : value ds = value a + value b := by
      have : (value ds : Int) = value a + value b := by linarith
      exact_mod_cast this
    refine ⟨⟨?_, hdig, ?_⟩, hval⟩
    · intro hnil
      rw [hnil] at hl
      simp at hl
      omega
    · intro hh
      cases ds with
      | nil => simp at hh
      | cons x t =>
        simp only [List.head?_cons, Option.some.injEq] at hh
        cases t with
        | nil => rw [hh]
        | cons y u =>
          exfalso
          have hlt : value (y :: u) < 10 ^ (y :: u).length :=
            value_lt (fun c hc => hdig c (List.mem_cons_of_mem _ hc))
          have hvd : value (x :: y :: u) = value (y :: u) := by
            rw [value_cons, hh, dv_zero]
            simp
          have hlen : max a.length b.length = (y :: u).length + 1 := by
            rw [← hl]
            simp
          have hbig : 10 ^ (y :: u).length ≤ value a + value b := by
            rcases Nat.le_total a.length b.length with hle | hle
            · have hbz : b ≠ ['0'] := by
                intro hb0
                rw [hb0] at hlen hle
                simp at hlen hle
                omega
              have := hb.pow_le hbz
              have e2 : b.length - 1 = (y :: u).length := by
                rw [Nat.max_eq_right hle] at hlen
                omega
              rw [e2] at this
              omega
            · have haz : a ≠ ['0'] := by
                intro ha0
                rw [ha0] at hlen hle
                simp at hlen hle
                omega
              have := ha.pow_le haz
              have e2 : a.length - 1 = (y :: u).length := by
                rw [Nat.max_eq_left hle] at hlen
                omega
              rw [e2] at this
              omega
          omega
  · rw [hadd, e, if_pos (by simp)]
    rw [e] at hv
    refine ⟨⟨by simp, ?_, ?_⟩, ?_⟩
    · intro c hc
      rcases List.mem_cons.1 hc with m | m
      · rw [m]
        decide
      · exact hdig c m
    · intro hh
      simp only [List.head?_cons, Option.some.injEq] at hh
      exact absurd hh (by decide)
    · rw [value_cons, hl]
      have h1 : dv (digitChar 1) = 1 := by decide
      rw [h1]
      have : (value a : Int) + value b = value ds + 1 * 10 ^ max a.length b.length := hv
      have h2 : value a + value b = value ds + 1 * 10 ^ max a.length b.length := by
        exact_mod_cast this
      omega

/-! ## `mul` -/

theorem getD_mem : ∀ (l : List Char) (p : Nat), p < l.length → l.getD p '0' ∈ l := by
  intro l
  induction l with
  | nil =>
    intro p h
    exact absurd h (Nat.not_lt_zero _)
  | cons x t ih =>
    intro p h
    cases p with
    | zero => simp
    | succ q =>
      have := ih q (by simpa using h)
      simp only [List.getD_cons_succ]
      exact List.mem_cons_of_mem _ this

theorem getD_set_ne : ∀ (l : List Char) (p q : Nat) (c : Char), p ≠ q →
    (l.set q c).getD p '0' = l.getD p '0' := by
  intro l
  induction l with
  | nil =>
    intro p q c _
    rfl
  | cons x t ih =>
    intro p q c hne
    cases q with
    | zero =>
      cases p with
      | zero => exact absurd rfl hne
      | succ p1 => simp
    | succ q1 =>
      cases p with
      | zero => simp
      | succ p1 =>
        simp only [List.set_cons_succ, List.getD_cons_succ]
        exact ih p1 q1 c (by omega)

theorem drop_getD : ∀ (l : List Char) (i : Nat), i < l.length →
    l.drop i = l.getD i '0' :: l.drop (i + 1) := by
  intro l
  induction l with
  | nil =>
    intro i h
    exact absurd h (Nat.not_lt_zero _)
  | cons x t ih =>
    intro i h
    cases i with
    | zero => simp
    | succ q =>
      simp only [List.drop_succ_cons, List.getD_cons_succ]
      exact ih q (by simpa using h)

theorem value_set : ∀ (R : List Char) (p : Nat) (c : Char), p < R.length →
    value (R.set p c) + dv (R.getD p '0') * 10 ^ (R.length - 1 - p)
      = value R + dv c * 10 ^ (R.length - 1 - p) := by
  intro R
  induction R with
  | nil =>
    intro p c h
    exact absurd h (Nat.not_lt_zero _)
  | cons x t ih =>
    intro p c h
    cases p with
    | zero =>
      simp only [List.set_cons_zero, List.getD_cons_zero, value_cons, List.length_cons,
        Nat.add_sub_cancel, Nat.sub_zero]
      omega
    | succ q =>
      have hq : q < t.length := by simpa using h
      have := ih q c hq
      have e : (x :: t).length - 1 - (q + 1) = t.length - 1 - q := by
        simp only [List.length_cons]
        omega
      rw [e]
      simp only [List.set_cons_succ, List.getD_cons_succ, value_cons, List.length_set]
      omega

theorem charAdd_zero : ∀ n : Fin 10, charAdd '0' (n.val : Int) = digitChar (n.val : Int) := by
  decide

theorem charAdd_digit {c : Int} (h0 : 0 ≤ c) (h9 : c ≤ 9) : charAdd '0' c = digitChar c := by
  have h := charAdd_zero ⟨c.toNat, by omega⟩
  simp only [Int.toNat_of_nonneg h0] at h
  exact h

theorem mulInner_spec {a b : List Char} (hb : ∀ c ∈ b, IsDigit c) {i : Nat}
    (hi : i < a.length) (hai : IsDigit (a.getD i '0')) {R0 : List Char}
    (hR : ∀ c ∈ R0, IsDigit c) (hl : R0.length = a.length + b.length) :
    ∀ k, k ≤ b.length →
      (mulInner a b i R0 k).1.length = a.length + b.length ∧
      (∀ c ∈ (mulInner a b i R0 k).1, IsDigit c) ∧
      0 ≤ (mulInner a b i R0 k).2 ∧ (mulInner a b i R0 k).2 ≤ 9 ∧
      (∀ p, p ≤ i + b.length - k → (mulInner a b i R0 k).1.getD p '0' = R0.getD p '0') ∧
      (value (mulInner a b i R0 k).1 : Int)
          + (mulInner a b i R0 k).2 * 10 ^ (a.length - 1 - i + k)
        = value R0
          + dv (a.getD i '0') * value (b.drop (b.length - k)) * 10 ^ (a.length - 1 - i) := by
  intro k
  induction k with
  | zero =>
    intro _
    refine ⟨hl, hR, le_refl _, by simp [mulInner], fun _ _ => rfl, ?_⟩
    simp [mulInner, value_nil]
  | succ k ih =>
    intro hk
    obtain ⟨h1, h2, h3, h4, h5, h6⟩ := ih (by omega)
    generalize hst : mulInner a b i R0 k = st at h1 h2 h3 h4 h5 h6
    have hpos : i + (b.length - 1 - k) + 1 = i + b.length - k := by omega
    have hplt : i + b.length - k < st.1.length := by omega
    have hbj : IsDigit (b.getD (b.length - 1 - k) '0') := hb _ (getD_mem b _ (by omega))
    have hcell : IsDigit (st.1.getD (i + b.length - k) '0') := h2 _ (getD_mem _ _ hplt)
    have ea : digitVal (a.getD i '0') = (dv (a.getD i '0') : Int) := digitVal_eq hai
    have eb : digitVal (b.getD (b.length - 1 - k) '0')
        = (dv (b.getD (b.length - 1 - k) '0') : Int) := digitVal_eq hbj
    have ec : digitVal (st.1.getD (i + b.length - k) '0')
        = (dv (st.1.getD (i + b.length - k) '0') : Int) := digitVal_eq hcell
    have la := dv_le hai
    have lb := dv_le hbj
    have lc := dv_le hcell
    have lab : dv (a.getD i '0') * dv (b.getD (b.length - 1 - k) '0') ≤ 81 := by
      have := Nat.mul_le_mul la lb
      omega
    generalize hA : dv (a.getD i '0') = A at *
    generalize hB : dv (b.getD (b.length - 1 - k) '0') = B at *
    generalize hC : dv (st.1.getD (i + b.length - k) '0') = C at *
    generalize hAB : A * B = AB at lab
    have eAB : (A : Int) * B = AB := by exact_mod_cast hAB
    have hstep : mulInner a b i R0 (k + 1)
        = (st.1.set (i + b.length - k) (digitChar (((AB : Int) + C + st.2).tmod 10)),
            ((AB : Int) + C + st.2).tdiv 10) := by
      simp only [mulInner, mulCell, hst, hpos, ea, eb, ec, hA, hB, eAB]
    rw [hstep]
    have hp0 : (0 : Int) ≤ (AB : Int) + C + st.2 := by omega
    have hdiv : ((AB : Int) + C + st.2).tdiv 10 = ((AB : Int) + C + st.2) / 10 :=
      Int.tdiv_eq_ediv hp0 (by omega)
    have hmod : ((AB : Int) + C + st.2).tmod 10 = ((AB : Int) + C + st.2) % 10 :=
      Int.tmod_eq_emod hp0 (by omega)
    rw [hdiv, hmod]
    have hm0 : 0 ≤ ((AB : Int) + C + st.2) % 10 := by omega
    have hm9 : ((AB : Int) + C + st.2) % 10 ≤ 9 := by omega
    refine ⟨by simp [h1], ?_, by omega, by omega, ?_, ?_⟩
    · intro c hc
      rcases List.mem_or_eq_of_mem_set hc with m | m
      · exact h2 c m
      · rw [m]
        exact digitChar_isDigit hm0 hm9
    · intro p hp
      simp only
      rw [getD_set_ne _ _ _ _ (by omega)]
      exact h5 p (by omega)
    · simp only
      have hvs := value_set st.1 (i + b.length - k)
        (digitChar (((AB : Int) + C + st.2) % 10)) hplt
      rw [hC] at hvs
      have hdc := dv_digitChar hm0 hm9
      have hexp : st.1.length - 1 - (i + b.length - k) = a.length - 1 - i + k := by omega
      rw [hexp] at hvs
      have hvs1 : (value (st.1.set (i + b.length - k)
            (digitChar (((AB : Int) + C + st.2) % 10))) : Int)
          + C * 10 ^ (a.length - 1 - i + k)
          = value st.1 + (((AB : Int) + C + st.2) % 10) * 10 ^ (a.length - 1 - i + k) := by
        have hvz : (value (st.1.set (i + b.length - k)
              (digitChar (((AB : Int) + C + st.2) % 10))) : Int)
            + C * 10 ^ (a.length - 1 - i + k)
            = value st.1 + (dv (digitChar (((AB : Int) + C + st.2) % 10)) : Int)
              * 10 ^ (a.length - 1 - i + k) := by exact_mod_cast hvs
        rw [hdc] at hvz
        exact hvz
      have hdrop : b.drop (b.length - (k + 1))
          = b.getD (b.length - 1 - k) '0' :: b.drop (b.length - k) := by
        have := drop_getD b (b.length - (k + 1)) (by omega)
        have e1 : b.length - (k + 1) + 1 = b.length - k := by omega
        have e2 : b.length - (k + 1) = b.length - 1 - k := by omega
        rw [e1] at this
        rw [this, e2]
      have hdl : (b.drop (b.length - k)).length = k := by
        rw [List.length_drop]
        omega
      rw [hdrop, value_cons, hdl, hB]
      have hsplit := Int.emod_add_ediv ((AB : Int) + C + st.2) 10
      have hpw : (10 : Int) ^ (a.length - 1 - i + (k + 1))
          = 10 ^ (a.length - 1 - i + k) * 10 := by
        rw [← Nat.add_assoc, pow_succ]
      have hpw2 : (10 : Int) ^ (a.length - 1 - i + k)
          = 10 ^ (a.length - 1 - i) * 10 ^ k := pow_add _ _ _
      rw [hpw]
      push_cast
      rw [← eAB] at hsplit hvs1 ⊢
      rw [hpw2] at hvs1 h6 ⊢
      linear_combination hvs1 + h6
        + (10 : Int) ^ (a.length - 1 - i) * 10 ^ k * hsplit

theorem getD_replicate_zero (k p : Nat) : (List.replicate k '0').getD p '0' = '0' := by
  induction k generalizing p with
  | zero => rfl
  | succ k ih =>
    cases p with
    | zero => rfl
    | succ q =>
      rw [List.replicate_succ, List.getD_cons_succ]
      exact ih q

theorem mulOuter_spec {a b : List Char} (ha : ∀ c ∈ a, IsDigit c) (hb : ∀ c ∈ b, IsDigit c) :
    ∀ r, r ≤ a.length →
      (mulOuter a b r).length = a.length + b.length ∧
      (∀ c ∈ mulOuter a b r, IsDigit c) ∧
      (∀ p, p < a.length - r → (mulOuter a b r).getD p '0' = '0') ∧
      value (mulOuter a b r) = value (a.drop (a.length - r)) * value b := by
  intro r
  induction r with
  | zero =>
    intro _
    refine ⟨by simp [mulOuter], ?_, ?_, ?_⟩
    · intro c hc
      rw [(List.mem_replicate.1 hc).2]
      decide
    · intro p _
      exact getD_replicate_zero _ _
    · have := value_zeros (a.length + b.length) []
      simp only [List.append_nil, value_nil] at this
      simp [mulOuter, this, value_nil]
  | succ r ih =>
    intro hr
    obtain ⟨h1, h2, h3, h4⟩ := ih (by omega)
    have hi : a.length - 1 - r < a.length := by omega
    have hai : IsDigit (a.getD (a.length - 1 - r) '0') := ha _ (getD_mem a _ hi)
    obtain ⟨g1, g2, g3, g4, g5, g6⟩ := mulInner_spec hb hi hai h2 h1 b.length (le_refl _)
    generalize hst : mulInner a b (a.length - 1 - r) (mulOuter a b r) b.length = st
      at g1 g2 g3 g4 g5 g6
    have hcell : st.1.getD (a.length - 1 - r) '0' = '0' := by
      rw [g5 _ (by omega)]
      exact h3 _ (by omega)
    have hstep : mulOuter a b (r + 1) = st.1.set (a.length - 1 - r) (digitChar st.2) := by
      simp only [mulOuter, mulRowEnd, hst, hcell]
      rw [charAdd_digit g3 g4]
    rw [hstep]
    refine ⟨by simp [g1], ?_, ?_, ?_⟩
    · intro c hc
      rcases List.mem_or_eq_of_mem_set hc with m | m
      · exact g2 c m
      · rw [m]
        exact digitChar_isDigit g3 g4
    · intro p hp
      rw [getD_set_ne _ _ _ _ (by omega), g5 _ (by omega)]
      exact h3 _ (by omega)
    · have hvs := value_set st.1 (a.length - 1 - r) (digitChar st.2) (by omega)
      rw [hcell, dv_zero] at hvs
      have hexp : st.1.length - 1 - (a.length - 1 - r) = a.length - 1 - (a.length - 1 - r)
          + b.length := by omega
      rw [hexp] at hvs
      have hdc := dv_digitChar g3 g4
      have hvz : (value (st.1.set (a.length - 1 - r) (digitChar st.2)) : Int)
          = value st.1 + st.2 * 10 ^ (a.length - 1 - (a.length - 1 - r) + b.length) := by
        have : value (st.1.set (a.length - 1 - r) (digitChar st.2))
            = value st.1 + dv (digitChar st.2)
              * 10 ^ (a.length - 1 - (a.length - 1 - r) + b.length) := by omega
        have hz : (value (st.1.set (a.length - 1 - r) (digitChar st.2)) : Int)
            = value st.1 + (dv (digitChar st.2) : Int)
              * 10 ^ (a.length - 1 - (a.length - 1 - r) + b.length) := by exact_mod_cast this
        rw [hdc] at hz
        exact hz
      have hdrop : a.drop (a.length - (r + 1))
          = a.getD (a.length - 1 - r) '0' :: a.drop (a.length - r) := by
        have := drop_getD a (a.length - (r + 1)) (by omega)
        have e1 : a.length - (r + 1) + 1 = a.length - r := by omega
        have e2 : a.length - (r + 1) = a.length - 1 - r := by omega
        rw [e1] at this
        rw [this, e2]
      have hdl : (a.drop (a.length - r)).length = r := by
        rw [List.length_drop]
        omega
      have he : a.length - 1 - (a.length - 1 - r) = r := by omega
      rw [he] at g6 hvz
      simp only [Nat.sub_self, List.drop_zero] at g6
      rw [hdrop, value_cons, hdl]
      have goalZ : (value (st.1.set (a.length - 1 - r) (digitChar st.2)) : Int)
          = ((dv (a.getD (a.length - 1 - r) '0') * 10 ^ r
              + value (a.drop (a.length - r))) * value b : Nat) := by
        have h4z : (value (mulOuter a b r) : Int)
            = value (a.drop (a.length - r)) * value b := by exact_mod_cast h4
        push_cast
        linear_combination hvz + g6 + h4z
      exact_mod_cast goalZ

theorem mul_spec {a b : List Char} (ha : ∀ c ∈ a, IsDigit c) (hb : ∀ c ∈ b, IsDigit c) :
    Canon (mul a b) ∧ value (mul a b) = value a * value b := by
  obtain ⟨-, h2, -, h4⟩ := mulOuter_spec ha hb a.length (le_refl _)
  obtain ⟨hc, hv⟩ := skipZeros_spec h2
  simp only [Nat.sub_self, List.drop_zero] at h4
  exact ⟨hc, by unfold mul; rw [hv, h4]⟩

/-! ## `to_postfix` -/

theorem isdigit_iff (c : Char) : isdigit c = true ↔ IsDigit c := by
  simp [isdigit]

theorem readDigits_digit (c : Char) (s res : List Char) (hc : isdigit c = true) :
    readDigits (c :: s) res = readDigits s (res ++ [c]) := by
  simp [readDigits, hc]

theorem readDigits_append : ∀ (d res rest : List Char), (∀ c ∈ d, IsDigit c) →
    NoDigitHead rest → readDigits (d ++ rest) res = (rest, res ++ d) := by
  intro d
  induction d with
  | nil =>
    intro res rest _ hr
    cases rest with
    | nil => simp [readDigits]
    | cons c r =>
      have : ¬ isdigit c = true := fun h => hr c (by simp) ((isdigit_iff c).1 h)
      simp [readDigits, this]
  | cons c d ih =>
    intro res rest hd hr
    have hc : isdigit c = true := (isdigit_iff c).2 (hd c (by simp))
    rw [List.cons_append, readDigits_digit _ _ _ hc,
      ih (res ++ [c]) rest (fun x hx => hd x (List.mem_cons_of_mem _ hx)) hr]
    simp

theorem readDigits_length : ∀ (s res : List Char), (readDigits s res).1.length ≤ s.length := by
  intro s
  induction s with
  | nil =>
    intro res
    simp [readDigits]
  | cons c r ih =>
    intro res
    by_cases hc : isdigit c = true
    · simp only [readDigits, hc, if_true, List.length_cons]
      exact Nat.le_succ_of_le (ih _)
    · simp [readDigits, hc]

theorem toPostfixLoop_fuel : ∀ (f1 f2 : Nat) (s ops res : List Char),
    s.length ≤ f1 → s.length ≤ f2 →
    toPostfixLoop f1 s ops res = toPostfixLoop f2 s ops res := by
  intro f1
  induction f1 with
  | zero =>
    intro f2 s ops res h1 _
    have : s = [] := List.length_eq_zero.1 (by omega)
    rw [this]
    cases f2 <;> rfl
  | succ f ih =>
    intro f2 s ops res h1 h2
    cases s with
    | nil => cases f2 <;> rfl
    | cons c r =>
      cases f2 with
      | zero => simp at h2
      | succ g =>
        have hr : r.length ≤ f := by simpa using h1
        have hg : r.length ≤ g := by simpa using h2
        by_cases hc : isdigit c = true
        · have hl := readDigits_length r (res ++ [c])
          have hrd : readDigits (c :: r) res = readDigits r (res ++ [c]) := by
            simp [readDigits, hc]
          simp only [toPostfixLoop, hc, if_true, hrd]
          exact ih g _ _ _ (by omega) (by omega)
        · by_cases ho : isOperator c = true
          · simp only [toPostfixLoop, hc, ho, if_true, if_false]
            exact ih g _ _ _ hr hg
          · simp only [toPostfixLoop, hc, ho, if_false]
            exact ih g _ _ _ hr hg

theorem toPostfixLoop_digit (fuel : Nat) (c : Char) (s ops res : List Char)
    (hc : isdigit c = true) :
    toPostfixLoop (fuel + 1) (c :: s) ops res
      = toPostfixLoop fuel (readDigits (c :: s) res).1 ops
          ((readDigits (c :: s) res).2 ++ [' ']) := by
  simp [toPostfixLoop, hc]

theorem shunt_nil (ops res : List Char) : shunt [] ops res = some (popAll ops res) := rfl

theorem shunt_number {d rest : List Char} (ops res : List Char) (hne : d ≠ [])
    (hd : ∀ c ∈ d, IsDigit c) (hr : NoDigitHead rest) :
    shunt (d ++ rest) ops res = shunt rest ops (res ++ d ++ [' ']) := by
  cases d with
  | nil => exact absurd rfl hne
  | cons c d1 =>
    have hc : isdigit c = true := (isdigit_iff c).2 (hd c (by simp))
    have hrd := readDigits_append (c :: d1) res rest hd hr
    rw [List.cons_append] at hrd
    unfold shunt
    rw [List.cons_append, List.length_cons, toPostfixLoop_digit _ _ _ _ _ hc, hrd]
    refine toPostfixLoop_fuel _ _ _ _ _ ?_ (le_refl _)
    simp

theorem shunt_op {c : Char} (rest ops res : List Char) (hc : isdigit c = false)
    (ho : isOperator c = true) :
    shunt (c :: rest) ops res
      = shunt rest (c :: (popOps c ops res).1) (popOps c ops res).2 := by
  unfold shunt
  simp only [List.length_cons, toPostfixLoop, hc, ho, if_true, Bool.false_eq_true, if_false]

theorem popAll_eq : ∀ (ops res : List Char), popAll ops res = res ++ flushOps ops := by
  intro ops
  induction ops with
  | nil =>
    intro res
    simp [popAll, flushOps]
  | cons c r ih =>
    intro res
    simp [popAll, flushOps, ih]

theorem popOps_all (c : Char) : ∀ (ops res : List Char),
    (∀ o ∈ ops, getPrecedence o ≥ getPrecedence c) →
    popOps c ops res = ([], res ++ flushOps ops) := by
  intro ops
  induction ops with
  | nil =>
    intro res _
    simp [popOps, flushOps]
  | cons o r ih =>
    intro res h
    have ho := h o (by simp)
    simp only [popOps, ho, if_true, flushOps]
    rw [ih _ (fun x hx => h x (List.mem_cons_of_mem _ hx))]
    simp

theorem flushOps_append (s t : List Char) : flushOps (s ++ t) = flushOps s ++ flushOps t := by
  induction s with
  | nil => rfl
  | cons c r ih => simp [flushOps, ih]

theorem mulOp_facts (m : MulOp) :
    isdigit m.char = false ∧ isOperator m.char = true ∧ getPrecedence m.char = 2 ∧
      isspace m.char = false ∧ ¬ IsDigit m.char := by
  cases m <;> decide

theorem addOp_facts (o : AddOp) :
    isdigit o.char = false ∧ isOperator o.char = true ∧ getPrecedence o.char = 1 ∧
      isspace o.char = false ∧ ¬ IsDigit o.char := by
  cases o <;> decide

theorem noDigitHead_factors (mt : List (MulOp × List Char)) {rest : List Char}
    (hr : NoDigitHead rest) : NoDigitHead (renderFactors mt ++ rest) := by
  cases mt with
  | nil => exact hr
  | cons p mt1 =>
    obtain ⟨m, n⟩ := p
    intro c hc
    simp only [renderFactors, List.cons_append, List.head?_cons, Option.mem_def,
      Option.some.injEq] at hc
    rw [← hc]
    exact (mulOp_facts m).2.2.2.2

theorem noDigitHead_terms (ts : List (AddOp × Term)) : NoDigitHead (renderTerms ts) := by
  cases ts with
  | nil =>
    intro c hc
    simp [renderTerms] at hc
  | cons p ts1 =>
    obtain ⟨o, t⟩ := p
    intro c hc
    simp only [renderTerms, List.cons_append, List.head?_cons, Option.mem_def,
      Option.some.injEq] at hc
    rw [← hc]
    exact (addOp_facts o).2.2.2.2

theorem shunt_factors : ∀ (mt : List (MulOp × List Char)) (o : MulOp) (S res rest : List Char),
    (∀ p ∈ mt, Canon p.2) → NoDigitHead rest →
    (∀ (m : MulOp) (r : List Char), popOps m.char S r = (S, r)) →
    ∃ (o1 : MulOp) (B : List Char),
      shunt (renderFactors mt ++ rest) (o.char :: S) res
        = shunt rest (o1.char :: S) (res ++ B) ∧
      B ++ [o1.char, ' '] = o.char :: ' ' :: postFactors mt := by
  intro mt
  induction mt with
  | nil =>
    intro o S res rest _ _ _
    exact ⟨o, [], by simp [renderFactors], by simp [postFactors]⟩
  | cons p mt1 ih =>
    intro o S res rest hc hr hS
    obtain ⟨m, n⟩ := p
    have hn : Canon n := hc (m, n) (by simp)
    obtain ⟨o1, B, h1, h2⟩ := ih m S (res ++ [o.char, ' '] ++ n ++ [' ']) rest
      (fun q hq => hc q (List.mem_cons_of_mem _ hq)) hr hS
    have hpop : popOps m.char (o.char :: S) res = (S, res ++ [o.char, ' ']) := by
      have e1 := (mulOp_facts o).2.2.1
      have e2 := (mulOp_facts m).2.2.1
      simp only [popOps, e1, e2, ge_iff_le, le_refl, if_true]
      exact hS m _
    refine ⟨o1, o.char :: ' ' :: n ++ ' ' :: B, ?_, ?_⟩
    · have hstep := shunt_op (n ++ renderFactors mt1 ++ rest) (o.char :: S) res
        (mulOp_facts m).1 (mulOp_facts m).2.1
      rw [hpop] at hstep
      simp only [renderFactors, List.cons_append, List.append_assoc]
      simp only [List.append_assoc] at hstep
      rw [hstep, shunt_number _ _ hn.1 hn.2.1 (noDigitHead_factors mt1 hr), h1]
      simp
    · simp only [postFactors, List.cons_append, List.append_assoc]
      rw [h2]

theorem shunt_term (t : Term) (S res rest : List Char) (ht : t.WF) (hr : NoDigitHead rest)
    (hS : ∀ (m : MulOp) (r : List Char), popOps m.char S r = (S, r)) :
    ∃ (P B : List Char),
      shunt (t.render ++ rest) S res = shunt rest (P ++ S) (res ++ B) ∧
      (∀ o ∈ P, getPrecedence o = 2) ∧ B ++ flushOps P = t.post := by
  obtain ⟨n0, mt⟩ := t
  obtain ⟨h0, hmt⟩ := ht
  simp only at h0 hmt
  cases mt with
  | nil =>
    refine ⟨[], n0 ++ [' '], ?_, by simp, by simp [Term.post, postFactors, flushOps]⟩
    simp only [Term.render, renderFactors, List.append_nil, List.nil_append]
    rw [shunt_number _ _ h0.1 h0.2.1 hr]
    simp
  | cons p mt1 =>
    obtain ⟨m, n⟩ := p
    have hn : Canon n := (hmt (m, n) (by simp)).1
    obtain ⟨o1, B, h1, h2⟩ := shunt_factors mt1 m S (res ++ n0 ++ [' '] ++ n ++ [' ']) rest
      (fun q hq => (hmt q (List.mem_cons_of_mem _ hq)).1) hr hS
    refine ⟨[o1.char], n0 ++ ' ' :: n ++ ' ' :: B, ?_, ?_, ?_⟩
    · have hnd : NoDigitHead (m.char :: (n ++ renderFactors mt1 ++ rest)) := by
        intro c hc
        simp only [List.head?_cons, Option.mem_def, Option.some.injEq] at hc
        rw [← hc]
        exact (mulOp_facts m).2.2.2.2
      have hstep := shunt_op (n ++ renderFactors mt1 ++ rest) S (res ++ n0 ++ [' '])
        (mulOp_facts m).1 (mulOp_facts m).2.1
      rw [hS m] at hstep
      simp only [Term.render, renderFactors, List.cons_append, List.append_assoc]
      simp only [List.append_assoc] at hstep hnd
      rw [shunt_number _ _ h0.1 h0.2.1 hnd]
      simp only [List.append_assoc]
      rw [hstep, shunt_number _ _ hn.1 hn.2.1 (noDigitHead_factors mt1 hr)]
      simp only [List.append_assoc, List.cons_append, List.nil_append] at h1 ⊢
      rw [h1]
    · intro o ho
      rw [List.mem_singleton.1 ho]
      exact (mulOp_facts o1).2.2.1
    · simp only [Term.post, postFactors, flushOps, List.cons_append, List.append_assoc]
      have : B ++ o1.char :: ' ' :: [] = m.char :: ' ' :: postFactors mt1 := h2
      rw [this]

theorem shunt_terms : ∀ (ts : List (AddOp × Term)) (St res : List Char),
    (∀ p ∈ ts, p.2.WF) → (∀ o ∈ St, getPrecedence o ≥ 1) →
    shunt (renderTerms ts) St res = some (res ++ flushOps St ++ postTerms ts) := by
  intro ts
  induction ts with
  | nil =>
    intro St res _ _
    simp [renderTerms, postTerms, shunt_nil, popAll_eq]
  | cons p ts1 ih =>
    intro St res hwf hSt
    obtain ⟨o, t⟩ := p
    have ht : t.WF := hwf (o, t) (by simp)
    have hpop : popOps o.char St res = ([], res ++ flushOps St) := by
      apply popOps_all
      intro x hx
      rw [(addOp_facts o).2.2.1]
      exact hSt x hx
    have hS : ∀ (m : MulOp) (r : List Char), popOps m.char [o.char] r = ([o.char], r) := by
      intro m r
      have e1 := (mulOp_facts m).2.2.1
      have e2 := (addOp_facts o).2.2.1
      simp [popOps, e1, e2]
    obtain ⟨P, B, h1, h2, h3⟩ := shunt_term t [o.char] (res ++ flushOps St) (renderTerms ts1)
      ht (noDigitHead_terms ts1) hS
    have hstep := shunt_op (t.render ++ renderTerms ts1) St res
      (addOp_facts o).1 (addOp_facts o).2.1
    rw [hpop] at hstep
    simp only [renderTerms, List.cons_append]
    rw [hstep, h1, ih _ _ (fun q hq => hwf q (List.mem_cons_of_mem _ hq))]
    · simp only [postTerms, flushOps_append, flushOps, ← h3, List.append_assoc,
        List.cons_append, List.nil_append]
    · intro x hx
      rcases List.mem_append.1 hx with m | m
      · rw [h2 x m]
        decide
      · rw [List.mem_singleton.1 m, (addOp_facts o).2.2.1]

theorem to_postfix_render (e : Expression) (he : e.WF) :
    BigInt.to_postfix e.render = some e.post := by
  obtain ⟨P, B, h1, h2, h3⟩ := shunt_term e.first [] [] (renderTerms e.rest) he.1
    (noDigitHead_terms e.rest) (fun _ _ => rfl)
  have : BigInt.to_postfix e.render = shunt (e.first.render ++ renderTerms e.rest) [] [] := rfl
  rw [this, h1, shunt_terms _ _ _ he.2]
  · simp only [List.append_nil, List.nil_append, Expression.post, ← h3, List.append_assoc]
  · intro x hx
    rw [List.append_nil] at hx
    rw [h2 x hx]
    decide

/-! ## `calc` and `evaluatePostfix` -/

theorem calcOp_plus (fuel : Nat) (a b : List Char) : calcOp fuel a b '+' = some (add a b) := by
  simp [calcOp]

theorem calcOp_minus (fuel : Nat) (a b : List Char) :
    calcOp fuel a b '-' = some (if compareStrings a b ≥ 0 then sub a b else ['0']) := by
  simp [calcOp]

theorem calcOp_times (fuel : Nat) (a b : List Char) : calcOp fuel a b 'x' = some (mul a b) := by
  simp [calcOp]

theorem calcOp_divide (fuel : Nat) (a b : List Char) : calcOp fuel a b '/' = div fuel a b := by
  simp [calcOp]

theorem calcOp_mulOp {a b : List Char} (ha : Canon a) (hb : Canon b) (m : MulOp)
    (hz : m.char = '/' → value b ≠ 0) {fuel : Nat} (hf : 10 ≤ fuel) :
    ∃ r, calcOp fuel a b m.char = some r ∧ Canon r ∧
      value r = m.apply (value a) (value b) := by
  cases m with
  | times =>
    obtain ⟨h1, h2⟩ := mul_spec ha.2.1 hb.2.1
    exact ⟨mul a b, calcOp_times fuel a b, h1, h2⟩
  | divide =>
    have hb0 : b ≠ ['0'] := by
      intro e
      exact hz rfl (hb.value_eq_zero.2 e)
    obtain ⟨q, r, hq, -, hcq, -, hvq, -⟩ := div_mod_spec ha hb hb0 hf
    exact ⟨q, (calcOp_divide fuel a b).trans hq, hcq, hvq⟩

theorem calcOp_addOp {a b : List Char} (ha : Canon a) (hb : Canon b) (o : AddOp)
    (fuel : Nat) :
    ∃ r, calcOp fuel a b o.char = some r ∧ Canon r ∧
      value r = o.apply (value a) (value b) := by
  cases o with
  | plus =>
    obtain ⟨h1, h2⟩ := add_spec ha hb
    exact ⟨add a b, calcOp_plus fuel a b, h1, h2⟩
  | minus =>
    by_cases hle : value b ≤ value a
    · obtain ⟨h1, h2, -⟩ := sub_spec ha hb hle
      refine ⟨sub a b, ?_, h1, h2⟩
      have := calcOp_minus fuel a b
      rw [if_pos ((compareStrings_ge ha hb).2 hle)] at this
      exact this
    · refine ⟨['0'], ?_, canon_zero, ?_⟩
      · have := calcOp_minus fuel a b
        rw [if_neg (fun h => hle ((compareStrings_ge ha hb).1 h))] at this
        exact this
      · have : value a - value b = 0 := by omega
        simp only [AddOp.apply, this]
        decide

theorem digit_facts {c : Char} (h : IsDigit c) : isspace c = false ∧ isdigit c = true := by
  obtain ⟨h1, h2⟩ := h
  refine ⟨?_, (isdigit_iff c).2 ⟨h1, h2⟩⟩
  simp only [isspace, decide_eq_false_iff_not]
  omega

theorem evalLoop_push (fuel : Nat) (rest : List Char) (operands : List (List Char))
    {tok : List Char} (h : tok ≠ []) :
    evalLoop fuel (' ' :: rest) operands tok = evalLoop fuel rest (tok :: operands) [] := by
  have hs : isspace ' ' = true := by decide
  simp [evalLoop, hs, h]

theorem evalLoop_skip (fuel : Nat) (rest : List Char) (operands : List (List Char)) :
    evalLoop fuel (' ' :: rest) operands [] = evalLoop fuel rest operands [] := by
  have hs : isspace ' ' = true := by decide
  simp [evalLoop, hs]

theorem evalLoop_digit (fuel : Nat) {c : Char} (rest : List Char)
    (operands : List (List Char)) (tok : List Char) (h : IsDigit c) :
    evalLoop fuel (c :: rest) operands tok = evalLoop fuel rest operands (tok ++ [c]) := by
  obtain ⟨h1, h2⟩ := digit_facts h
  simp [evalLoop, h1, h2]

theorem evalLoop_operator (fuel : Nat) {c : Char} (rest : List Char) {a b r : List Char}
    (below : List (List Char)) (tok : List Char) (h1 : isspace c = false)
    (h2 : isdigit c = false) (h3 : isOperator c = true) (hc : calcOp fuel a b c = some r) :
    evalLoop fuel (c :: rest) (b :: a :: below) tok = evalLoop fuel rest (r :: below) tok := by
  simp [evalLoop, h1, h2, h3, hc]

theorem evalLoop_number (fuel : Nat) : ∀ (n tok rest : List Char)
    (operands : List (List Char)), (∀ c ∈ n, IsDigit c) → tok ++ n ≠ [] →
    evalLoop fuel (n ++ ' ' :: rest) operands tok
      = evalLoop fuel rest ((tok ++ n) :: operands) [] := by
  intro n
  induction n with
  | nil =>
    intro tok rest operands _ hne
    rw [List.append_nil] at hne
    rw [List.nil_append, evalLoop_push fuel rest operands hne, List.append_nil]
  | cons c n ih =>
    intro tok rest operands hd _
    rw [List.cons_append, evalLoop_digit fuel _ _ _ (hd c (by simp)),
      ih (tok ++ [c]) rest operands (fun x hx => hd x (List.mem_cons_of_mem _ hx)) (by simp)]
    simp

theorem evalLoop_factors {fuel : Nat} (hf : 10 ≤ fuel) :
    ∀ (mt : List (MulOp × List Char)) (v : List Char) (below : List (List Char))
      (rest : List Char), Canon v →
      (∀ p ∈ mt, Canon p.2 ∧ (p.1.char = '/' → value p.2 ≠ 0)) →
      ∃ r, evalLoop fuel (postFactors mt ++ rest) (v :: below) []
          = evalLoop fuel rest (r :: below) [] ∧ Canon r ∧
        value r = mt.foldl (fun acc p => p.1.apply acc (value p.2)) (value v) := by
  intro mt
  induction mt with
  | nil =>
    intro v below rest hv _
    exact ⟨v, rfl, hv, rfl⟩
  | cons p mt1 ih =>
    intro v below rest hv hwf
    obtain ⟨m, n⟩ := p
    obtain ⟨hn, hz⟩ := hwf (m, n) (by simp)
    obtain ⟨r1, hc1, hr1, hv1⟩ := calcOp_mulOp hv hn m hz hf
    obtain ⟨r, h1, h2, h3⟩ := ih r1 below rest hr1
      (fun q hq => hwf q (List.mem_cons_of_mem _ hq))
    refine ⟨r, ?_, h2, ?_⟩
    · simp only [postFactors, List.append_assoc, List.cons_append]
      rw [evalLoop_number fuel n [] _ _ hn.2.1 (by simpa using hn.1), List.nil_append,
        evalLoop_operator fuel _ _ _ (mulOp_facts m).2.2.2.1 (mulOp_facts m).1
          (mulOp_facts m).2.1 hc1,
        evalLoop_skip, h1]
    · rw [List.foldl_cons, h3, hv1]

theorem evalLoop_term {fuel : Nat} (hf : 10 ≤ fuel) (t : Term) (below : List (List Char))
    (rest : List Char) (ht : t.WF) :
    ∃ r, evalLoop fuel (t.post ++ rest) below [] = evalLoop fuel rest (r :: below) [] ∧
      Canon r ∧ value r = t.eval := by
  obtain ⟨r, h1, h2, h3⟩ := evalLoop_factors hf t.rest t.first below rest ht.1 ht.2
  refine ⟨r, ?_, h2, h3⟩
  simp only [Term.post, List.append_assoc, List.cons_append]
  rw [evalLoop_number fuel t.first [] _ _ ht.1.2.1 (by simpa using ht.1.1), List.nil_append,
    h1]

theorem evalLoop_terms {fuel : Nat} (hf : 10 ≤ fuel) :
    ∀ (ts : List (AddOp × Term)) (v : List Char) (below : List (List Char))
      (rest : List Char), Canon v → (∀ p ∈ ts, p.2.WF) →
      ∃ r, evalLoop fuel (postTerms ts ++ rest) (v :: below) []
          = evalLoop fuel rest (r :: below) [] ∧ Canon r ∧
        value r = ts.foldl (fun acc p => p.1.apply acc p.2.eval) (value v) := by
  intro ts
  induction ts with
  | nil =>
    intro v below rest hv _
    exact ⟨v, rfl, hv, rfl⟩
  | cons p ts1 ih =>
    intro v below rest hv hwf
    obtain ⟨o, t⟩ := p
    have ht : t.WF := hwf (o, t) (by simp)
    obtain ⟨rt, g1, g2, g3⟩ := evalLoop_term hf t (v :: below)
      (o.char :: ' ' :: (postTerms ts1 ++ rest)) ht
    obtain ⟨r1, hc1, hr1, hv1⟩ := calcOp_addOp hv g2 o fuel
    obtain ⟨r, h1, h2, h3⟩ := ih r1 below rest hr1
      (fun q hq => hwf q (List.mem_cons_of_mem _ hq))
    refine ⟨r, ?_, h2, ?_⟩
    · simp only [postTerms, List.append_assoc, List.cons_append]
      rw [g1, evalLoop_operator fuel _ _ _ (addOp_facts o).2.2.2.1 (addOp_facts o).1
          (addOp_facts o).2.1 hc1,
        evalLoop_skip, h1]
    · rw [List.foldl_cons, h3, hv1, g3]

theorem evaluatePostfix_post {fuel : Nat} (hf : 10 ≤ fuel) (e : Expression) (he : e.WF) :
    ∃ r, evaluatePostfix fuel e.post = some r ∧ Canon r ∧ value r = e.eval := by
  obtain ⟨rt, g1, g2, g3⟩ := evalLoop_term hf e.first [] (postTerms e.rest ++ []) he.1
  obtain ⟨r, h1, h2, h3⟩ := evalLoop_terms hf e.rest rt [] [] g2 he.2
  refine ⟨r, ?_, h2, ?_⟩
  · have hne : e.post ≠ [] := by
      intro h
      have hl := congrArg List.length h
      simp only [Expression.post, Term.post, List.length_append, List.length_cons,
        List.length_nil] at hl
      omega
    have hrun : evalLoop fuel e.post [] [] = some ([r], []) := by
      have : e.post = e.first.post ++ (postTerms e.rest ++ []) := by
        simp [Expression.post]
      rw [this, g1, h1]
      rfl
    unfold evaluatePostfix
    rw [if_neg hne, hrun]
    rfl
  · rw [h3, g3]
    rfl

/-! ## Every string of numbers and operators is the string of an expression -/

theorem renderFlat_covered : ∀ (l : List (Char × List Char)) (n0 : List Char),
    (∀ p ∈ l, isOperator p.1 = true) →
    ∃ e : Expression, e.first.first = n0 ∧ e.render = renderFlat n0 l ∧
      (Canon n0 → (∀ p ∈ l, Canon p.2 ∧ (p.1 = '/' → value p.2 ≠ 0)) → e.WF) := by
  intro l
  induction l with
  | nil =>
    intro n0 _
    refine ⟨⟨⟨n0, []⟩, []⟩, rfl, ?_, ?_⟩
    · simp [Expression.render, Term.render, renderFactors, renderTerms, renderFlat]
    · intro h0 _
      exact ⟨⟨h0, by simp⟩, by simp⟩
  | cons p l1 ih =>
    intro n0 hop
    obtain ⟨c, n⟩ := p
    obtain ⟨e1, hf1, hr1, hw1⟩ := ih n (fun q hq => hop q (List.mem_cons_of_mem _ hq))
    obtain ⟨⟨f1, mt⟩, ts⟩ := e1
    simp only at hf1
    subst hf1
    have hc := hop (c, f1) (by simp)
    simp only [isOperator, decide_eq_true_eq] at hc
    have hr2 : f1 ++ (renderFactors mt ++ renderTerms ts) = renderFlat f1 l1 := by
      rw [← hr1]
      simp [Expression.render, Term.render]
    rcases hc with rfl | rfl | rfl | rfl
    · refine ⟨⟨⟨n0, []⟩, (AddOp.plus, ⟨f1, mt⟩) :: ts⟩, rfl, ?_, ?_⟩
      · simp [Expression.render, Term.render, renderFactors, renderTerms, renderFlat,
          AddOp.char, ← hr2]
      · intro h0 hl
        obtain ⟨w1, w2⟩ := hw1 (hl ('+', f1) (by simp)).1
          (fun q hq => hl q (List.mem_cons_of_mem _ hq))
        refine ⟨⟨h0, by simp⟩, ?_⟩
        intro q hq
        rcases List.mem_cons.1 hq with m | m
        · rw [m]
          exact w1
        · exact w2 q m
    · refine ⟨⟨⟨n0, []⟩, (AddOp.minus, ⟨f1, mt⟩) :: ts⟩, rfl, ?_, ?_⟩
      · simp [Expression.render, Term.render, renderFactors, renderTerms, renderFlat,
          AddOp.char, ← hr2]
      · intro h0 hl
        obtain ⟨w1, w2⟩ := hw1 (hl ('-', f1) (by simp)).1
          (fun q hq => hl q (List.mem_cons_of_mem _ hq))
        refine ⟨⟨h0, by simp⟩, ?_⟩
        intro q hq
        rcases List.mem_cons.1 hq with m | m
        · rw [m]
          exact w1
        · exact w2 q m
    · refine ⟨⟨⟨n0, (MulOp.times, f1) :: mt⟩, ts⟩, rfl, ?_, ?_⟩
      · simp [Expression.render, Term.render, renderFactors, renderFlat, MulOp.char, ← hr2]
      · intro h0 hl
        obtain ⟨w1, w2⟩ := hw1 (hl ('x', f1) (by simp)).1
          (fun q hq => hl q (List.mem_cons_of_mem _ hq))
        refine ⟨⟨h0, ?_⟩, w2⟩
        intro q hq
        rcases List.mem_cons.1 hq with m | m
        · rw [m]
          exact ⟨w1.1, fun h => absurd h (show ¬ MulOp.times.char = '/' by decide)⟩
        · exact w1.2 q m
    · refine ⟨⟨⟨n0, (MulOp.divide, f1) :: mt⟩, ts⟩, rfl, ?_, ?_⟩
      · simp [Expression.render, Term.render, renderFactors, renderFlat, MulOp.char, ← hr2]
      · intro h0 hl
        obtain ⟨w1, w2⟩ := hw1 (hl ('/', f1) (by simp)).1
          (fun q hq => hl q (List.mem_cons_of_mem _ hq))
        refine ⟨⟨h0, ?_⟩, w2⟩
        intro q hq
        rcases List.mem_cons.1 hq with m | m
        · rw [m]
          exact ⟨w1.1, fun _ => (hl ('/', f1) (by simp)).2 rfl⟩
        · exact w1.2 q m

/-! ## The claims on the expression evaluator and on `mul` -/

/-- C21: for an expression made of decimal numbers without leading zeros that are
separated by the operators `+`, `-`, `x` and `/`, in which no divisor is zero, and an
inner loop of `div` allowed at least ten tests, `to_postfix` returns on the string of
the expression and `evaluatePostfix` returns on that result; the outcome is the string
without leading zeros that denotes the value of the expression, where `x` and `/` bind
tighter than `+` and `-`, operators of equal precedence are applied from left to
right, `/` is the floor of the quotient and `a - b` is `0` when `a < b`. -/
theorem evaluate_expression_correct (e : Expression) (he : e.WF) (fuel : Nat)
    (hf : 10 ≤ fuel) :
    ∃ p r, BigInt.to_postfix e.render = some p ∧ evaluatePostfix fuel p = some r ∧
      Canon r ∧ value r = e.eval := by
  obtain ⟨r, h1, h2, h3⟩ := evaluatePostfix_post hf e he
  exact ⟨e.post, r, to_postfix_render e he, h1, h2, h3⟩

theorem evaluate_expression_correct_witness :
    (sampleExpression.render = "12+3x4-5/2".toList ∧
      BigInt.to_postfix "12+3x4-5/2".toList = some "12 3 4 x + 5 2 / - ".toList ∧
      evaluatePostfix 10 "12 3 4 x + 5 2 / - ".toList = some "22".toList ∧
      sampleExpression.eval = 22) ∧
      ∃ p r, BigInt.to_postfix sampleExpression.render = some p ∧
        evaluatePostfix 10 p = some r ∧ Canon r ∧ value r = sampleExpression.eval :=
  ⟨by decide, evaluate_expression_correct sampleExpression (by decide) 10 (by decide)⟩

/-- C22: for strings of decimal digits `a` and `b`, `mul(a, b)` is the string without
leading zeros that denotes the product of the two numbers, `"0"` when the product is
zero. The buffer `result` holds only characters `'0'..'9'` after every round of the
outer loop and after every round of the inner loop, the carry stays between `0` and
`9`, and the cell `result[i]` still holds `'0'` when the carry of the row `i` is
added to it. -/
theorem mul_correct (a b : List Char) (ha : ∀ c ∈ a, IsDigit c) (hb : ∀ c ∈ b, IsDigit c) :
    Canon (mul a b) ∧ value (mul a b) = value a * value b ∧
      (value a * value b = 0 → mul a b = ['0']) ∧
      (∀ r, r ≤ a.length → ∀ c ∈ mulOuter a b r, IsDigit c) ∧
      (∀ r, r < a.length → ∀ k, k ≤ b.length →
        (∀ c ∈ (mulInner a b (a.length - 1 - r) (mulOuter a b r) k).1, IsDigit c) ∧
        0 ≤ (mulInner a b (a.length - 1 - r) (mulOuter a b r) k).2 ∧
        (mulInner a b (a.length - 1 - r) (mulOuter a b r) k).2 ≤ 9 ∧
        (mulInner a b (a.length - 1 - r) (mulOuter a b r) k).1.getD (a.length - 1 - r) '0'
          = '0') := by
  obtain ⟨h1, h2⟩ := mul_spec ha hb
  refine ⟨h1, h2, ?_, ?_, ?_⟩
  · intro hz
    apply h1.value_eq_zero.1
    rw [h2, hz]
  · intro r hr
    exact (mulOuter_spec ha hb r hr).2.1
  · intro r hr k hk
    obtain ⟨g1, g2, g3, -⟩ := mulOuter_spec ha hb r (by omega)
    have hi : a.length - 1 - r < a.length := by omega
    obtain ⟨-, f2, f3, f4, f5, -⟩ :=
      mulInner_spec hb hi (ha _ (getD_mem a _ hi)) g2 g1 k hk
    refine ⟨f2, f3, f4, ?_⟩
    rw [f5 _ (by omega)]
    exact g3 _ (by omega)

theorem mul_correct_witness :
    (mul "99".toList "99".toList = "9801".toList ∧
      mul "007".toList "12".toList = "84".toList ∧
      mul "0".toList "99".toList = "0".toList ∧
      mulInner "99".toList "99".toList 0 (mulOuter "99".toList "99".toList 1) 2
        = ("0801".toList, 9)) ∧
      (Canon (mul "99".toList "99".toList) ∧
        value (mul "99".toList "99".toList) = value "99".toList * value "99".toList ∧
        (value "99".toList * value "99".toList = 0 → mul "99".toList "99".toList = ['0']) ∧
        (∀ r, r ≤ "99".toList.length → ∀ c ∈ mulOuter "99".toList "99".toList r, IsDigit c) ∧
        (∀ r, r < "99".toList.length → ∀ k, k ≤ "99".toList.length →
          (∀ c ∈ (mulInner "99".toList "99".toList ("99".toList.length - 1 - r)
              (mulOuter "99".toList "99".toList r) k).1, IsDigit c) ∧
          0 ≤ (mulInner "99".toList "99".toList ("99".toList.length - 1 - r)
              (mulOuter "99".toList "99".toList r) k).2 ∧
          (mulInner "99".toList "99".toList ("99".toList.length - 1 - r)
              (mulOuter "99".toList "99".toList r) k).2 ≤ 9 ∧
          (mulInner "99".toList "99".toList ("99".toList.length - 1 - r)
              (mulOuter "99".toList "99".toList r) k).1.getD ("99".toList.length - 1 - r) '0'
            = '0')) :=
  ⟨by decide, mul_correct "99".toList "99".toList (by decide) (by decide)⟩

end BigInt
